import Mathlib

/-!
Verification of the json-ultra-compress core against its specification.

The development shallowly embeds the TypeScript sources:
  src/ndjson/columnar.ts   (varint, zigzag, column encoders, frames, front-end)
  src/container.ts         (CRC32, container envelope)
  src/index.ts             (compress/decompress pipelines, frame walker)
  src/selective-decode.ts  (selective column projection)
  src/codecs/hybrid.ts     (hybrid windowed back-end selector)
  src/ndjson.ts            (row-wise NDJSON path)

Bytes are modelled as `List Nat` (each entry < 256 where it matters); JavaScript
strings are modelled as byte lists (the embedding identifies utf8Encode/utf8Decode
with the identity, which is exact on the ASCII range used throughout).  JavaScript
numbers are modelled as `Int`, with the 32-bit coercions of the bitwise operators
(`|`, `&`, `<<`, `>>`, `>>>`) made explicit, matching ECMAScript ToInt32/ToUint32.
JSON numbers are modelled as integers (IEEE-754 doubles are outside the embedding).
-/

namespace JUC

/-- ECMAScript ToUint32 on an integer value. -/
def toUint32 (i : Int) : Nat := (i % (2 ^ 32 : Nat)).toNat

/-- Reinterpret a 32-bit pattern as a signed 32-bit integer. -/
def int32OfUint32 (u : Nat) : Int :=
  if u < 2 ^ 31 then (u : Int) else (u : Int) - 2 ^ 32

/-- ECMAScript ToInt32 on an integer value. -/
def toInt32 (i : Int) : Int := int32OfUint32 (toUint32 i)

/-- JavaScript bitwise or on numbers. -/
def jsOr (a b : Int) : Int := int32OfUint32 (toUint32 a ||| toUint32 b)

/-- JavaScript bitwise and on numbers. -/
def jsAnd (a b : Int) : Int := int32OfUint32 (toUint32 a &&& toUint32 b)

/-- JavaScript left shift on numbers (shift count taken mod 32). -/
def jsShl (a : Int) (s : Nat) : Int :=
  int32OfUint32 ((toUint32 a * 2 ^ (s % 32)) % 2 ^ 32)

/-- JavaScript signed right shift on numbers (arithmetic, floor semantics). -/
def jsShrS (a : Int) (s : Nat) : Int :=
  Int.fdiv (toInt32 a) (2 ^ (s % 32))

/-- JavaScript unsigned right shift on numbers. -/
def jsShrU (a : Int) (s : Nat) : Nat :=
  toUint32 a / 2 ^ (s % 32)

/-- Fuel-indexed LEB128 byte expansion (the fuel only makes the recursion
structural; the value itself is always sufficient fuel). -/
def lebBytesF : Nat → Nat → List Nat
  | 0, v => [v]
  | fuel + 1, v =>
    if v < 0x80 then [v]
    else (v % 0x80 + 0x80) :: lebBytesF fuel (v / 0x80)

/-- LEB128 byte expansion of an unsigned 32-bit value, as produced by the
`while (v >= 0x80)` loop of encodeVarint in src/ndjson/columnar.ts. -/
def lebBytes (v : Nat) : List Nat := lebBytesF v v

/-- encodeVarint from src/ndjson/columnar.ts: coerces the value with `>>> 0`
and emits LEB128 groups, low bits first. -/
def encodeVarint (value : Int) : List Nat := lebBytes (toUint32 value)

/-- Loop body of decodeVarint: consumes bytes, accumulating `value |= (b & 0x7F) << shift`,
stopping after a byte with the continuation bit clear or at the end of the buffer.
Returns the accumulated value and the new offset.  Faithful to the source, which
never raises and enforces no five-byte limit. -/
def dvGo : List Nat → Int → Nat → Nat → Int × Nat
  | [], value, _, pos => (value, pos)
  | b :: rest, value, shift, pos =>
    let value2 := jsOr value (jsShl (Int.ofNat (b &&& 0x7F)) shift)
    if b &&& 0x80 = 0 then (value2, pos + 1)
    else dvGo rest value2 (shift + 7) (pos + 1)

/-- decodeVarint from src/ndjson/columnar.ts (identical copy in selective-decode.ts). -/
def decodeVarint (data : List Nat) (offset : Nat) : Int × Nat :=
  dvGo (data.drop offset) 0 0 offset

/-- zigzagEncode from src/ndjson/columnar.ts: `n >= 0 ? n * 2 : (-n * 2) - 1`. -/
def zigzagEncode (n : Int) : Int := if 0 ≤ n then n * 2 else (-n) * 2 - 1

/-- zigzagDecode from src/ndjson/columnar.ts:
`(n & 1) ? -((n + 1) >> 1) : (n >> 1)` with JavaScript 32-bit shift semantics. -/
def zigzagDecode (n : Int) : Int :=
  if jsAnd n 1 ≠ 0 then -(jsShrS (n + 1) 1) else jsShrS n 1

/-! ### CRC32 (src/container.ts)

The source builds a 256-entry table, each entry being eight iterations of the
polynomial bit step on the index, and then folds
`crc = table[(crc ^ byte) & 0xFF] ^ (crc >>> 8)` over the data starting from
`0xFFFFFFFF`, with a final xor.  The model keeps the 32-bit state as a `Nat`
below 2^32 (the unsigned reading of the JavaScript int32 patterns). -/
/-- IEEE 802.3 reflected polynomial, as in the source. -/
def crcPoly : Nat := 0xEDB88320

/-- One bit step of the CRC table generation loop. -/
def crcBitStep (c : Nat) : Nat := if c % 2 = 1 then (c / 2) ^^^ crcPoly else c / 2

/-- crc table entry: eight bit steps applied to the index. -/
def crcTable (i : Nat) : Nat := crcBitStep^[8] i

/-- One byte of the crc main loop: `table[(crc ^ byte) & 0xFF] ^ (crc >>> 8)`. -/
def crcByteStep (c b : Nat) : Nat := crcTable ((c ^^^ b) % 256) ^^^ c / 256

/-- crc32 from src/container.ts. -/
def crc32 (data : List Nat) : Nat :=
  (data.foldl crcByteStep 0xFFFFFFFF) ^^^ 0xFFFFFFFF

/-- Difference propagation map of one byte step. -/
def crcDiff (d : Nat) : Nat := crcTable (d % 256) ^^^ d / 256

/-! ### JSON values, printing and parsing

The embedding models JavaScript JSON values as `JVal`: numbers are integers
(IEEE-754 doubles are outside the model), strings are byte lists, objects are
association lists in property order.  `jsonStringify` mirrors `JSON.stringify`
(compact form, standard escapes); `jsonParse` mirrors `JSON.parse` restricted
to this value domain (integer numeric literals, byte-valued escape sequences). -/
mutual

inductive JVal where
  | jnull
  | jbool (b : Bool)
  | jnum (n : Int)
  | jstr (s : List Nat)
  | jarr (elems : JArr)
  | jobj (fields : JObj)
deriving DecidableEq

/-- Array element spine (a dedicated type keeps all recursion structural). -/
inductive JArr where
  | anil
  | acons (head : JVal) (tail : JArr)
deriving DecidableEq

/-- Object member spine: keys in property order with their values. -/
inductive JObj where
  | onil
  | ocons (key : List Nat) (val : JVal) (tail : JObj)
deriving DecidableEq

end

open JVal JArr JObj

/-- Elements of an array value as a Lean list. -/
def JArr.toList : JArr → List JVal
  | anil => []
  | acons h t => h :: t.toList

/-- Array value from a Lean list. -/
def JArr.ofList : List JVal → JArr
  | [] => anil
  | h :: t => acons h (JArr.ofList t)

/-- Members of an object as an association list in property order. -/
def JObj.toList : JObj → List (List Nat × JVal)
  | onil => []
  | ocons k v t => (k, v) :: t.toList

/-- Object value from an association list. -/
def JObj.ofList : List (List Nat × JVal) → JObj
  | [] => onil
  | (k, v) :: t => ocons k v (JObj.ofList t)

/-- Keys of an object in property order (Object.keys). -/
def JObj.keys : JObj → List (List Nat)
  | onil => []
  | ocons k _ t => k :: t.keys

/-- Property access (`obj[key]`): first binding wins. -/
def JObj.lookup : JObj → List Nat → Option JVal
  | onil, _ => none
  | ocons k v t, q => if q = k then some v else t.lookup q

/-- The `key in obj` test. -/
def JObj.hasKey (o : JObj) (q : List Nat) : Bool := (o.lookup q).isSome

/-- Property assignment (`obj[k] = v`): overwrites in place, else appends,
matching JavaScript insertion-order semantics for string keys. -/
def JObj.set : JObj → List Nat → JVal → JObj
  | onil, k, v => ocons k v onil
  | ocons k2 v2 t, k, v => if k = k2 then ocons k2 v t else ocons k2 v2 (t.set k v)

/-- Object built by assigning members in order (duplicate keys: the later
value wins at the position of the first occurrence, as in JSON.parse). -/
def JObj.fromMembers (l : List (List Nat × JVal)) : JObj :=
  l.foldl (fun o kv => o.set kv.1 kv.2) onil

/-- Concatenation of two member spines. -/
def JObj.append : JObj → JObj → JObj
  | onil, o2 => o2
  | ocons k v t, o2 => ocons k v (t.append o2)

/-- Fuel-indexed decimal digit expansion (structural; the value is always
sufficient fuel). -/
def natDigitsF : Nat → Nat → List Nat
  | 0, n => [48 + n]
  | fuel + 1, n =>
    if n < 10 then [48 + n]
    else natDigitsF fuel (n / 10) ++ [48 + n % 10]

/-- Decimal digits of a natural number, most significant first, as ASCII bytes. -/
def natDigits (n : Nat) : List Nat := natDigitsF n n

/-- Decimal literal of an integer, as JSON.stringify prints integral numbers. -/
def intLit (n : Int) : List Nat :=
  if n < 0 then 45 :: natDigits n.natAbs else natDigits n.toNat

/-- Hexadecimal digit byte (lower case), as used in \u00XX escapes. -/
def hexDigit (n : Nat) : Nat := if n < 10 then 48 + n else 87 + n

/-- JSON.stringify escaping of one string byte. -/
def escapeByte (c : Nat) : List Nat :=
  if c = 34 then [92, 34]
  else if c = 92 then [92, 92]
  else if c = 8 then [92, 98]
  else if c = 9 then [92, 116]
  else if c = 10 then [92, 110]
  else if c = 12 then [92, 102]
  else if c = 13 then [92, 114]
  else if c < 32 then [92, 117, 48, 48, hexDigit (c / 16), hexDigit (c % 16)]
  else [c]

/-- Quoted JSON string literal with escapes. -/
def strLit (s : List Nat) : List Nat :=
  34 :: (s.flatMap escapeByte) ++ [34]

/-- Comma-separated concatenation, as produced between array elements and
object members by JSON.stringify. -/
def joinSep (sep : Nat) : List (List Nat) → List Nat
  | [] => []
  | [x] => x
  | x :: y :: xs => x ++ sep :: joinSep sep (y :: xs)

mutual

/-- JSON.stringify on the modelled value domain (compact, no spacing). -/
def jsonStringify : JVal → List Nat
  | jnull => [110, 117, 108, 108]
  | jbool true => [116, 114, 117, 101]
  | jbool false => [102, 97, 108, 115, 101]
  | jnum n => intLit n
  | jstr s => strLit s
  | jarr xs => 91 :: stringifyElems xs ++ [93]
  | jobj kvs => 123 :: stringifyMembers kvs ++ [125]

/-- Comma-separated element list of an array. -/
def stringifyElems : JArr → List Nat
  | anil => []
  | acons x t => jsonStringify x ++ stringifyElemsTail t

/-- Trailing elements of an array, each preceded by a comma. -/
def stringifyElemsTail : JArr → List Nat
  | anil => []
  | acons x t => 44 :: jsonStringify x ++ stringifyElemsTail t

/-- Comma-separated member list of an object. -/
def stringifyMembers : JObj → List Nat
  | onil => []
  | ocons k v t => strLit k ++ 58 :: jsonStringify v ++ stringifyMembersTail t

/-- Trailing members of an object, each preceded by a comma. -/
def stringifyMembersTail : JObj → List Nat
  | onil => []
  | ocons k v t => 44 :: strLit k ++ 58 :: jsonStringify v ++ stringifyMembersTail t

end

mutual

/-- Well-formedness used for parse/print round-trips: object key lists are
duplicate-free, recursively. -/
def wfJV : JVal → Bool
  | jnull => true
  | jbool _ => true
  | jnum _ => true
  | jstr _ => true
  | jarr xs => wfJA xs
  | jobj kvs => wfJO kvs

def wfJA : JArr → Bool
  | anil => true
  | acons h t => wfJV h && wfJA t

def wfJO : JObj → Bool
  | onil => true
  | ocons k v t => !(decide (k ∈ t.keys)) && wfJV v && wfJO t

end

/-- JSON whitespace bytes accepted by JSON.parse. -/
def isWs (c : Nat) : Bool := c = 32 || c = 9 || c = 10 || c = 13

/-- Skip leading JSON whitespace. -/
def skipWs (s : List Nat) : List Nat := s.dropWhile isWs

/-- ASCII decimal digit test. -/
def isDigit (c : Nat) : Bool := 48 ≤ c && c ≤ 57

/-- Digit-run parser accumulating a natural number. -/
def jpDigits : List Nat → Nat → Nat × List Nat
  | [], acc => (acc, [])
  | c :: rest, acc =>
    if isDigit c then jpDigits rest (acc * 10 + (c - 48)) else (acc, c :: rest)

/-- Parse an unsigned JSON integer literal (no leading zeros except "0" itself). -/
def jpNat (s : List Nat) : Option (Nat × List Nat) :=
  match s with
  | [] => none
  | c :: rest =>
    if c = 48 then
      match rest with
      | d :: _ => if isDigit d then none else some (0, rest)
      | [] => some (0, [])
    else if isDigit c then some (jpDigits rest (c - 48))
    else none

/-- Parse a JSON number restricted to integer literals. -/
def jpNumber (s : List Nat) : Option (Int × List Nat) :=
  match s with
  | [] => none
  | c :: rest =>
    if c = 45 then
      match jpNat rest with
      | some (n, r) => some (-(n : Int), r)
      | none => none
    else
      match jpNat (c :: rest) with
      | some (n, r) => some ((n : Int), r)
      | none => none

/-- Parse one hexadecimal digit. -/
def jpHex (c : Nat) : Option Nat :=
  if 48 ≤ c ∧ c ≤ 57 then some (c - 48)
  else if 97 ≤ c ∧ c ≤ 102 then some (c - 87)
  else if 65 ≤ c ∧ c ≤ 70 then some (c - 55)
  else none

/-- Resolve a single-character backslash escape (the \uXXXX form is handled
by the string body parser). -/
def jpSimpleEscape : Nat → Option Nat
  | 34 => some 34
  | 92 => some 92
  | 47 => some 47
  | 98 => some 8
  | 102 => some 12
  | 110 => some 10
  | 114 => some 13
  | 116 => some 9
  | _ => none

/-- String body parser (after the opening quote), building the decoded bytes.
Raw control bytes are rejected, as JSON.parse does; \uXXXX escapes are accepted
on the byte range of the model. -/
def jpStrGo : List Nat → List Nat → Option (List Nat × List Nat)
  | [], _ => none
  | c :: rest, acc =>
    if c = 34 then some (acc.reverse, rest)
    else if c = 92 then
      match rest with
      | [] => none
      | e :: rest2 =>
        if e = 117 then
          match rest2 with
          | h1 :: h2 :: h3 :: h4 :: rest3 =>
            match jpHex h1, jpHex h2, jpHex h3, jpHex h4 with
            | some a, some b, some cc, some d =>
              let code := ((a * 16 + b) * 16 + cc) * 16 + d
              if code < 256 then jpStrGo rest3 (code :: acc) else none
            | _, _, _, _ => none
          | _ => none
        else
          match jpSimpleEscape e with
          | some c2 => jpStrGo rest2 (c2 :: acc)
          | none => none
    else if c < 32 then none
    else jpStrGo rest (c :: acc)

mutual

/-- JSON.parse value parser (fuel-based; fuel ticks on each nesting step). -/
def jpVal : Nat → List Nat → Option (JVal × List Nat)
  | 0, _ => none
  | fuel + 1, s =>
    let s1 := skipWs s
    if s1.take 4 = [110, 117, 108, 108] then some (jnull, s1.drop 4)
    else if s1.take 4 = [116, 114, 117, 101] then some (jbool true, s1.drop 4)
    else if s1.take 5 = [102, 97, 108, 115, 101] then some (jbool false, s1.drop 5)
    else
      match s1 with
      | [] => none
      | c :: r =>
        if c = 34 then
          match jpStrGo r [] with
          | some (str, rest) => some (jstr str, rest)
          | none => none
        else if c = 91 then
          match skipWs r with
          | [] =>
            match jpElems fuel [] with
            | some (vs, rest) => some (jarr (JArr.ofList vs), rest)
            | none => none
          | c2 :: r2 =>
            if c2 = 93 then some (jarr anil, r2)
            else
              match jpElems fuel (c2 :: r2) with
              | some (vs, rest) => some (jarr (JArr.ofList vs), rest)
              | none => none
        else if c = 123 then
          match skipWs r with
          | [] =>
            match jpMembers fuel [] with
            | some (kvs, rest) => some (jobj (JObj.fromMembers kvs), rest)
            | none => none
          | c2 :: r2 =>
            if c2 = 125 then some (jobj onil, r2)
            else
              match jpMembers fuel (c2 :: r2) with
              | some (kvs, rest) => some (jobj (JObj.fromMembers kvs), rest)
              | none => none
        else
          match jpNumber (c :: r) with
          | some (n, rest) => some (jnum n, rest)
          | none => none

/-- Array element list parser: value, then a comma and more elements, or the
closing bracket. -/
def jpElems : Nat → List Nat → Option (List JVal × List Nat)
  | 0, _ => none
  | fuel + 1, s =>
    match jpVal fuel s with
    | none => none
    | some (v, r) =>
      match skipWs r with
      | [] => none
      | c :: r2 =>
        if c = 44 then
          match jpElems fuel r2 with
          | some (vs, rest) => some (v :: vs, rest)
          | none => none
        else if c = 93 then some ([v], r2)
        else none

/-- Object member list parser: quoted key, colon, value, then a comma and more
members, or the closing brace. -/
def jpMembers : Nat → List Nat → Option (List (List Nat × JVal) × List Nat)
  | 0, _ => none
  | fuel + 1, s =>
    match skipWs s with
    | [] => none
    | c :: r =>
      if c = 34 then
        match jpStrGo r [] with
        | none => none
        | some (key, r1) =>
          match skipWs r1 with
          | [] => none
          | c2 :: r2 =>
            if c2 = 58 then
              match jpVal fuel r2 with
              | none => none
              | some (v, r3) =>
                match skipWs r3 with
                | [] => none
                | c3 :: r4 =>
                  if c3 = 44 then
                    match jpMembers fuel r4 with
                    | some (kvs, rest) => some ((key, v) :: kvs, rest)
                    | none => none
                  else if c3 = 125 then some ([(key, v)], r4)
                  else none
            else none
      else none

end

/-- JSON.parse on the modelled domain: parse one value and require only
trailing whitespace. -/
def jsonParse (s : List Nat) : Option JVal :=
  match jpVal (s.length + 1) s with
  | some (v, rest) => if skipWs rest = [] then some v else none
  | none => none

/-! ## Container framing (src/container.ts)

`encodeContainer` produces `'JCO1' || u32 headerLen || headerJSON ||
u32 crc32(body) || body`, all u32 fields little-endian.  `decodeContainer`
validates length, magic, header bounds, header JSON, version and CRC, each
failure being a distinct hard error. -/
/-- utils.writeU32LE: four little-endian bytes of a 32-bit value. -/
def writeU32LE (v : Nat) : List Nat :=
  [v % 256, v / 256 % 256, v / 65536 % 256, v / 16777216 % 256]

/-- utils.readU32LE applied at an offset of a byte list. -/
def readU32At (l : List Nat) (off : Nat) : Nat :=
  match l.drop off with
  | b0 :: b1 :: b2 :: b3 :: _ => b0 + b1 * 256 + b2 * 65536 + b3 * 16777216
  | _ => 0

/-- The container magic 'JCO1'. -/
def containerMagic : List Nat := [74, 67, 79, 49]

/-- The bytes of the header property name "version". -/
def versionKey : List Nat := [118, 101, 114, 115, 105, 111, 110]

/-- JS property access `v[key]` on a parsed JSON value. -/
def getProp (v : JVal) (k : List Nat) : Option JVal :=
  match v with
  | jobj o => o.lookup k
  | _ => none

/-- encodeContainer: the header object is stringified; the CRC32 is computed
over the body only and stored between header and body. -/
def encodeContainer (header : JVal) (body : List Nat) : List Nat :=
  containerMagic ++ writeU32LE (jsonStringify header).length ++
    jsonStringify header ++ writeU32LE (crc32 body) ++ body

/-- The distinct hard failures of decodeContainer. -/
inductive ContainerError where
  | tooShort
  | badMagic
  | badHeaderLen
  | headerParse
  | badVersion
  | crcMismatch (expected actual : Nat)
deriving DecidableEq

/-- decodeContainer: validates, parses the header, and checks the stored CRC
against the CRC recomputed over the body bytes that follow it. -/
def decodeContainer (bytes : List Nat) :
    Except ContainerError (JVal × List Nat) :=
  if bytes.length < 12 then .error .tooShort
  else if bytes.take 4 ≠ containerMagic then .error .badMagic
  else
    let headerLen := readU32At bytes 4
    let headerEnd := 8 + headerLen
    if ¬(headerEnd + 4 ≤ bytes.length) then .error .badHeaderLen
    else
      match jsonParse ((bytes.drop 8).take headerLen) with
      | none => .error .headerParse
      | some header =>
        if getProp header versionKey ≠ some (jnum 1) then .error .badVersion
        else
          let storedCrc := readU32At bytes headerEnd
          let body := bytes.drop (headerEnd + 4)
          if storedCrc ≠ crc32 body then
            .error (.crcMismatch storedCrc (crc32 body))
          else .ok (header, body)

/-! ## Column codecs (src/src/ndjson/columnar.ts)

Column cells are JSON values with `jnull` standing for JS null (absent keys
are materialised as null by `obj[key] ?? null` before encoding).  Integer
cells are modelled as exact integers; doubles are outside the model. -/
/-- Column type tags. -/
def INT_VARINT : Nat := 0

def DELTA_ZIGZAG : Nat := 1

def TIME_DOD : Nat := 2

def BOOL_RLE : Nat := 3

def ENUM_IDS : Nat := 4

def RAW_JSON : Nat := 6

/-- Lexicographic byte-string order, as JS default string sort. -/
def strLe : List Nat → List Nat → Bool
  | [], _ => true
  | _ :: _, [] => false
  | a :: s, b :: t => if a < b then true else if b < a then false else strLe s t

/-- Ordered insertion into a sorted string list. -/
def insertSorted (s : List Nat) : List (List Nat) → List (List Nat)
  | [] => [s]
  | t :: ts => if strLe s t then s :: t :: ts else t :: insertSorted s ts

/-- JS Array.prototype.sort on strings (applied to duplicate-free lists,
where every comparison-based sort produces the same ordered result). -/
def sortStrs (l : List (List Nat)) : List (List Nat) := l.foldr insertSorted []

def isIntCell : JVal → Bool
  | jnum _ => true
  | _ => false

def isBoolCell : JVal → Bool
  | jbool _ => true
  | _ => false

/-- Eligibility test for the enum encoder: strings of 1..16 chars. -/
def isEnumStrCell : JVal → Bool
  | jstr s => decide (s.length ≤ 16) && decide (0 < s.length)
  | _ => false

def cellInt : JVal → Int
  | jnum n => n
  | _ => 0

/-- Non-null cells of a column (`v !== null && v !== undefined`). -/
def nonNullCells (values : List JVal) : List JVal :=
  values.filter (fun v => v ≠ jnull)

/-- encodeIntVarintColumn: tag 0, then per cell varint 0 for null or
zigzag+1 for a number. -/
def encodeIntVarintColumn (values : List JVal) : List Nat :=
  INT_VARINT :: values.flatMap (fun v =>
    match v with
    | jnum n => encodeVarint (zigzagEncode n + 1)
    | _ => encodeVarint 0)

/-- Body of encodeDeltaZigzagColumn: index-0 cell is stored raw, later cells
as difference from the previous non-null cell (prev starts at 0). -/
def edzGo : Nat → Int → List JVal → List Nat
  | _, _, [] => []
  | i, prev, v :: t =>
    match v with
    | jnum n =>
      encodeVarint (zigzagEncode (if i = 0 then n else n - prev) + 1) ++
        edzGo (i + 1) n t
    | _ => encodeVarint 0 ++ edzGo (i + 1) prev t

/-- encodeDeltaZigzagColumn: tag 1 then delta-zigzag cells. -/
def encodeDeltaZigzagColumn (values : List JVal) : List Nat :=
  DELTA_ZIGZAG :: edzGo 0 0 values

/-- RLE value codes: 0 null, 1 false, 2 true. -/
def boolCode : JVal → Nat
  | jnull => 0
  | jbool true => 2
  | _ => 1

/-- Body of encodeBoolRleColumn: maximal runs of strictly equal cells,
emitted as a code byte followed by a varint run length. -/
def ebrGo : Nat → List JVal → List Nat
  | 0, _ => []
  | _, [] => []
  | fuel + 1, v :: t =>
    let run := 1 + (t.takeWhile (fun x => x = v)).length
    boolCode v :: encodeVarint (run : Int) ++ ebrGo fuel ((v :: t).drop run)

/-- encodeBoolRleColumn: tag 3 then RLE runs. -/
def encodeBoolRleColumn (values : List JVal) : List Nat :=
  BOOL_RLE :: ebrGo values.length values

/-- First index of a string in a list (Array.prototype.indexOf). -/
def idxOf (s : List Nat) : List (List Nat) → Nat
  | [] => 0
  | t :: ts => if s = t then 0 else idxOf s ts + 1

/-- The byte written for one enum cell: 255 for null, else the index of the
string in the dictionary (indexOf of a non-member coerces -1 to 255). -/
def enumCellByte (uniq : List (List Nat)) : JVal → Nat
  | jnull => 255
  | jstr s => if s ∈ uniq then idxOf s uniq else 255
  | _ => 255

/-- encodeEnumIdsColumn: tag 4, u8 dictionary count, varint-length-prefixed
sorted distinct strings, then one id byte per cell. -/
def encodeEnumIdsColumn (values : List JVal) : List Nat :=
  let nonNullStrings := (nonNullCells values).map (fun v =>
    match v with
    | jstr s => s
    | _ => [])
  let uniqueStrings := sortStrs nonNullStrings.dedup
  ENUM_IDS :: uniqueStrings.length % 256 ::
    uniqueStrings.flatMap (fun s => encodeVarint (s.length : Int) ++ s) ++
    values.map (enumCellByte uniqueStrings)

/-- encodeRawJsonColumn: tag 6, then varint-length-prefixed JSON texts. -/
def encodeRawJsonColumn (values : List JVal) : List Nat :=
  RAW_JSON :: values.flatMap (fun v =>
    encodeVarint ((jsonStringify v).length : Int) ++ jsonStringify v)

/-- encodeColumn: chooses the encoding from the non-null cells (all-null to
raw, integers to delta or int varint by range, booleans to RLE, short
strings with a small distinct set to enum ids, anything else to raw). -/
def encodeColumn (values : List JVal) : List Nat :=
  let nonNull := nonNullCells values
  if nonNull = [] then encodeRawJsonColumn values
  else if nonNull.all isIntCell then
    match (nonNull.map cellInt) with
    | [] => encodeRawJsonColumn values
    | h :: t =>
      let mn := t.foldl min h
      let mx := t.foldl max h
      if mx - mn < (nonNull.length : Int) * 2 then
        encodeDeltaZigzagColumn values
      else encodeIntVarintColumn values
  else if nonNull.all isBoolCell then encodeBoolRleColumn values
  else if nonNull.all isEnumStrCell then
    let strings := nonNull.map (fun v =>
      match v with
      | jstr s => s
      | _ => [])
    if strings.dedup.length ≤ 16 then encodeEnumIdsColumn values
    else encodeRawJsonColumn values
  else encodeRawJsonColumn values

/-- Failures during column decode: JSON.parse of a raw cell, or
Date.toISOString on an out-of-range timestamp. -/
inductive ColumnError where
  | rawParse
  | invalidDate
deriving DecidableEq

/-- decodeIntVarintColumn body. -/
def divGo : Nat → List Nat → Nat → List JVal
  | 0, _, _ => []
  | n + 1, data, off =>
    let r := decodeVarint data off
    (if r.1 = 0 then jnull else jnum (zigzagDecode (r.1 - 1))) ::
      divGo n data r.2

/-- decodeDeltaZigzagColumn body (index-0 cell raw, later cells accumulate;
prev is unchanged by nulls). -/
def ddzGo : Nat → Nat → List Nat → Nat → Int → List JVal
  | _, 0, _, _, _ => []
  | i, n + 1, data, off, prev =>
    let r := decodeVarint data off
    if r.1 = 0 then jnull :: ddzGo (i + 1) n data r.2 prev
    else
      let x := if i = 0 then zigzagDecode (r.1 - 1) else prev + zigzagDecode (r.1 - 1)
      jnum x :: ddzGo (i + 1) n data r.2 x

/-- decodeBoolRleColumn body: reads code and run, truncates the final run at
the requested row count, pads missing rows with nulls. -/
def dbrGo : Nat → List Nat → Nat → List JVal
  | _, _, 0 => []
  | _, [], need => List.replicate need jnull
  | 0, _, need => List.replicate need jnull
  | fuel + 1, c :: rest, need =>
    let r := decodeVarint (c :: rest) 1
    let value := if c = 0 then jnull else jbool (decide (c = 2))
    let taken := min r.1.toNat need
    List.replicate taken value ++ dbrGo fuel ((c :: rest).drop r.2) (need - taken)

/-- Enum dictionary reader: count varint-length-prefixed strings, returning
them with the offset past the dictionary. -/
def enumStrsGo : Nat → List Nat → Nat → List (List Nat) × Nat
  | 0, _, off => ([], off)
  | n + 1, data, off =>
    let r := decodeVarint data off
    let s := (data.drop r.2).take r.1.toNat
    let rec2 := enumStrsGo n data (r.2 + r.1.toNat)
    (s :: rec2.1, rec2.2)

/-- One decoded enum cell: id byte 255 is null; otherwise
`enumStrings[id] || null` substitutes null for out-of-range ids and for the
empty string. -/
def enumIdAt (strs : List (List Nat)) (data : List Nat) (off : Nat) : JVal :=
  match data.get? off with
  | none => jnull
  | some id =>
    if id = 255 then jnull
    else
      match strs.get? id with
      | none => jnull
      | some s => if s = [] then jnull else jstr s

/-- decodeEnumIdsColumn. -/
def decodeEnumIdsColumn (data : List Nat) (rows : Nat) : List JVal :=
  let cnt := data.headD 0
  let strsRes := enumStrsGo cnt data 1
  (List.range rows).map (fun i => enumIdAt strsRes.1 data (strsRes.2 + i))

/-- decodeRawJsonColumn body. -/
def drawGo : Nat → List Nat → Nat → Except ColumnError (List JVal)
  | 0, _, _ => .ok []
  | n + 1, data, off =>
    let r := decodeVarint data off
    let bytes := (data.drop r.2).take r.1.toNat
    match jsonParse bytes with
    | none => .error .rawParse
    | some v =>
      match drawGo n data (r.2 + r.1.toNat) with
      | .error e => .error e
      | .ok vs => .ok (v :: vs)

/-- Fixed-width decimal field, zero padded on the left. -/
def padDigits (w : Nat) (n : Nat) : List Nat :=
  let d := natDigits n
  List.replicate (w - d.length) 48 ++ d

/-- Proleptic Gregorian civil date from days since the Unix epoch
(Howard Hinnant's algorithm, as implemented by Date). -/
def civilFromDays (days : Int) : Int × Nat × Nat :=
  let z := days + 719468
  let era := Int.fdiv z 146097
  let doe := (z - era * 146097).toNat
  let yoe := (doe - doe / 1460 + doe / 36524 - doe / 146096) / 365
  let y : Int := (yoe : Int) + era * 400
  let doy := doe - (365 * yoe + yoe / 4 - yoe / 100)
  let mp := (5 * doy + 2) / 153
  let d := doy - (153 * mp + 2) / 5 + 1
  let m := if mp < 10 then mp + 3 else mp - 9
  (if m ≤ 2 then y + 1 else y, m, d)

/-- Date.prototype.toISOString of a millisecond timestamp. -/
def isoString (ts : Int) : List Nat :=
  let days := Int.fdiv ts 86400000
  let ms := (ts - days * 86400000).toNat
  let c := civilFromDays days
  let y := c.1
  let yearField :=
    if y < 0 then 45 :: padDigits 6 (-y).toNat
    else if y > 9999 then 43 :: padDigits 6 y.toNat
    else padDigits 4 y.toNat
  yearField ++ 45 :: padDigits 2 c.2.1 ++ 45 :: padDigits 2 c.2.2 ++
    84 :: padDigits 2 (ms / 3600000) ++ 58 :: padDigits 2 (ms / 60000 % 60) ++
    58 :: padDigits 2 (ms / 1000 % 60) ++ 46 :: padDigits 3 (ms % 1000) ++ [90]

/-- A decoded TIME_DOD cell: timestamps above 1e12 are rendered as ISO
strings (failing beyond the Date range), smaller ones stay numeric. -/
def timeCell (ts : Int) : Except ColumnError JVal :=
  if ts > 1000000000000 then
    if ts > 8640000000000000 then .error .invalidDate
    else .ok (jstr (isoString ts))
  else .ok (jnum ts)

/-- decodeTimeDodColumn body: first two cells raw, later cells reconstructed
from delta-of-delta against the two previous timestamp entries (null cells
record timestamp 0). -/
def dtdGo : Nat → Nat → List Nat → Nat → Int → Int → Except ColumnError (List JVal)
  | _, 0, _, _, _, _ => .ok []
  | i, n + 1, data, off, tm1, tm2 =>
    let r := decodeVarint data off
    if r.1 = 0 then
      match dtdGo (i + 1) n data r.2 0 tm1 with
      | .error e => .error e
      | .ok vs => .ok (jnull :: vs)
    else
      let ts := if i < 2 then zigzagDecode (r.1 - 1)
        else tm1 + ((tm1 - tm2) + zigzagDecode (r.1 - 1))
      match timeCell ts with
      | .error e => .error e
      | .ok cell =>
        match dtdGo (i + 1) n data r.2 ts tm1 with
        | .error e => .error e
        | .ok vs => .ok (cell :: vs)

/-- decodeColumn: dispatch on the leading type tag; an empty column and any
unhandled tag yield all nulls. -/
def decodeColumn (data : List Nat) (rows : Nat) : Except ColumnError (List JVal) :=
  match data with
  | [] => .ok (List.replicate rows jnull)
  | tag :: payload =>
    if tag = INT_VARINT then .ok (divGo rows payload 0)
    else if tag = DELTA_ZIGZAG then .ok (ddzGo 0 rows payload 0 0)
    else if tag = TIME_DOD then dtdGo 0 rows payload 0 0 0
    else if tag = BOOL_RLE then .ok (dbrGo payload.length payload rows)
    else if tag = ENUM_IDS then .ok (decodeEnumIdsColumn payload rows)
    else if tag = RAW_JSON then drawGo rows payload 0
    else .ok (List.replicate rows jnull)

/-! ## Codec selection (src/src/index.ts)

`opts.codec ?? (envCodec && envCodec in codecs ? envCodec : 'brotli')`,
identical in compress and compressNDJSON. -/
def gzipName : List Nat := [103, 122, 105, 112]

def brotliName : List Nat := [98, 114, 111, 116, 108, 105]

def identityName : List Nat := [105, 100, 101, 110, 116, 105, 116, 121]

def zstdName : List Nat := [122, 115, 116, 100]

def hybridName : List Nat := [104, 121, 98, 114, 105, 100]

/-- The keys of the codec registry (codecs/index.ts). -/
def registeredCodecNames : List (List Nat) :=
  [gzipName, brotliName, identityName, zstdName, hybridName]

/-- The codec name compress and compressNDJSON run with, before 'auto'
resolution: the explicit option, else a registered non-empty environment
hint, else 'brotli'. -/
def resolveCodecName (optsCodec : Option (List Nat))
    (envCodec : Option (List Nat)) : List Nat :=
  match optsCodec with
  | some c => c
  | none =>
    match envCodec with
    | some e =>
      if e ≠ [] ∧ e ∈ registeredCodecNames then e else brotliName
    | none => brotliName

/-! ## Hybrid codec (src/SECURITY.md: codecs/hybrid.ts)

Back-ends (brotli, gzip, optional zstd) are abstract fallible codecs; env
flags are parameters (their source defaults: solidCompare and coalesce on,
zstd scouting off). -/
/-- A fallible compression back-end. -/
structure HCodec where
  encode : List Nat → Option (List Nat)
  decode : List Nat → Option (List Nat)

/-- Window codec tags as serialised (brotli 0, gzip 1, zstd 2). -/
inductive BackendTag where
  | brotli
  | gzip
  | zstd
deriving DecidableEq

def tagByte : BackendTag → Nat
  | .brotli => 0
  | .gzip => 1
  | .zstd => 2

/-- The back-end for a tag; a missing zstd falls back to brotli, as every
tag dispatch in the source does. -/
def tagCodec (br gz : HCodec) (zs : Option HCodec) : BackendTag → HCodec
  | .brotli => br
  | .gzip => gz
  | .zstd => zs.getD br

/-- 64 KiB window chunks. -/
def chunksBytesF : Nat → List Nat → List (List Nat)
  | _, [] => []
  | 0, l => [l]
  | fuel + 1, l => l.take 65536 :: chunksBytesF fuel (l.drop 65536)

def windowChunks (input : List Nat) : List (List Nat) :=
  chunksBytesF input.length input

/-- Best candidate by strictly smaller compressed size, first wins
(failed candidates are skipped). -/
def pickBest (cands : List (BackendTag × Option (List Nat))) :
    Option (BackendTag × List Nat) :=
  cands.foldl (fun best c =>
    match c.2 with
    | none => best
    | some e =>
      match best with
      | none => some (c.1, e)
      | some b => if e.length < b.2.length then some (c.1, e) else best) none

/-- chooseWindowCodec: scout-compress the first 4 KiB with each candidate
and keep the smallest (brotli on total failure). -/
def chooseWindowCodec (br gz : HCodec) (zs : Option HCodec)
    (zstdEnabled : Bool) (windowData : List Nat) : BackendTag :=
  let scout := windowData.take 4096
  let cands := [(BackendTag.brotli, br.encode scout), (BackendTag.gzip, gz.encode scout)] ++
    (match zs with
     | some z => if zstdEnabled then [(BackendTag.zstd, z.encode scout)] else []
     | none => [])
  match pickBest cands with
  | some b => b.1
  | none => BackendTag.brotli

/-- Solid-mode comparison: every registered back-end over the whole input,
smallest output wins (ratios share the denominator, except that a JS NaN
ratio on empty input always keeps the first success). -/
def solidBest (br gz : HCodec) (zs : Option HCodec) (input : List Nat) :
    Option (BackendTag × List Nat) :=
  let cands := [(BackendTag.brotli, br.encode input), (BackendTag.gzip, gz.encode input)] ++
    (match zs with
     | some z => [(BackendTag.zstd, z.encode input)]
     | none => [])
  if input = [] then
    cands.foldl (fun best c =>
      match best, c.2 with
      | none, some e => some (c.1, e)
      | _, _ => best) none
  else pickBest cands

/-- One compressed window. -/
structure HybridWindow where
  tag : BackendTag
  originalSize : Nat
  data : List Nat
deriving DecidableEq

/-- Compress every 64 KiB chunk with its scouted codec (an encode failure
aborts hybrid encode). -/
def compressWindows (br gz : HCodec) (zs : Option HCodec) (zstdEnabled : Bool) :
    List (List Nat) → Option (List HybridWindow)
  | [] => some []
  | chunk :: rest =>
    let tag := chooseWindowCodec br gz zs zstdEnabled chunk
    match (tagCodec br gz zs tag).encode chunk with
    | none => none
    | some data =>
      match compressWindows br gz zs zstdEnabled rest with
      | none => none
      | some ws => some (⟨tag, chunk.length, data⟩ :: ws)

/-- `4 + 4` header plus `1 + 4 + 4 + data` per window. -/
def windowedTotalSize (ws : List HybridWindow) : Nat :=
  8 + (ws.map (fun w => 9 + w.data.length)).sum

/-- Window tag counts in first-appearance order. -/
def tagCounts (ws : List HybridWindow) : List (BackendTag × Nat) :=
  ws.foldl (fun cs w =>
    if cs.any (fun c => c.1 = w.tag) then
      cs.map (fun c => if c.1 = w.tag then (c.1, c.2 + 1) else c)
    else cs ++ [(w.tag, 1)]) []

/-- The majority entry: maximal count, first entry wins ties (stable JS
sort by descending count). -/
def majorityTag (cs : List (BackendTag × Nat)) : Option (BackendTag × Nat) :=
  cs.foldl (fun best c =>
    match best with
    | none => some c
    | some b => if c.2 > b.2 then some c else best) none

/-- The HYB1 envelope. -/
def serializeWindows (ws : List HybridWindow) : List Nat :=
  [72, 89, 66, 49] ++ writeU32LE ws.length ++
    ws.flatMap (fun w =>
      tagByte w.tag :: writeU32LE w.originalSize ++ writeU32LE w.data.length ++ w.data)

/-- hybridCodec.encode. -/
def hybridEncode (br gz : HCodec) (zs : Option HCodec)
    (solidCompare coalesce zstdEnabled : Bool) (input : List Nat) :
    Option (List Nat) :=
  let sb := if solidCompare then solidBest br gz zs input else none
  match compressWindows br gz zs zstdEnabled (windowChunks input) with
  | none => none
  | some ws =>
    let wsize := windowedTotalSize ws
    let coalesced :=
      if coalesce ∧ ws.length > 1 then
        match majorityTag (tagCounts ws) with
        | some (tag, cnt) =>
          if 10 * cnt ≥ 9 * ws.length then
            match (tagCodec br gz zs tag).encode input with
            | some data => if data.length + 20 < wsize then some data else none
            | none => none
          else none
        | none => none
      else none
    match coalesced with
    | some data => some data
    | none =>
      match sb with
      | some b =>
        if b.2.length + 20 < wsize then some b.2
        else some (serializeWindows ws)
      | none => some (serializeWindows ws)

/-- Parse and decode the HYB1 window list. -/
def decodeWindowsGo (br gz : HCodec) (zs : Option HCodec) :
    Nat → List Nat → Nat → Option (List Nat)
  | 0, _, _ => some []
  | n + 1, input, off =>
    let codecByte := input.getD off 0
    let origSize := readU32At input (off + 1)
    let compSize := readU32At input (off + 5)
    let data := (input.drop (off + 9)).take compSize
    let tag := if codecByte = 0 then BackendTag.brotli
      else if codecByte = 1 then BackendTag.gzip
      else if codecByte = 2 then BackendTag.zstd
      else BackendTag.brotli
    match (tagCodec br gz zs tag).decode data with
    | none => none
    | some chunk =>
      match decodeWindowsGo br gz zs n input (off + 9 + compSize) with
      | none => none
      | some restBytes => some (chunk ++ restBytes)

/-- hybridCodec.decode: empty input, legacy SOLID, HYB1 windows, or the
raw-solid fallback that accepts the first back-end that decodes. -/
def hybridDecode (br gz : HCodec) (zs : Option HCodec) (input : List Nat) :
    Option (List Nat) :=
  if input = [] then some []
  else if input.take 4 = [83, 79, 76, 73] then
    if input.take 5 ≠ [83, 79, 76, 73, 68] then none
    else
      let codecByte := input.getD 4 0
      let tag := if codecByte = 0 then BackendTag.brotli
        else if codecByte = 1 then BackendTag.gzip
        else if codecByte = 2 then BackendTag.zstd
        else BackendTag.brotli
      (tagCodec br gz zs tag).decode (input.drop 5)
  else if input.take 4 = [72, 89, 66, 49] then
    decodeWindowsGo br gz zs (readU32At input 4) input 8
  else
    match br.decode input with
    | some r => some r
    | none =>
      match gz.decode input with
      | some r => some r
      | none =>
        match zs with
        | some z => z.decode input
        | none => none

/-! ## NDJSON columnar front end (src/src/ndjson/columnar.ts) and
row-wise path (src/src/ndjson.ts)

Inputs are byte lists (the model is ASCII-exact, so the UTF-16 BOM check
can never fire and key-dictionary support, which no modelled call site
uses, is not modelled).  JS strings are byte lists; `jnull` is JS null. -/
/-- Bytes regarded as whitespace by String.prototype.trim (ASCII range). -/
def isTrimWs (c : Nat) : Bool :=
  c = 9 || c = 10 || c = 11 || c = 12 || c = 13 || c = 32

/-- String.prototype.trim. -/
def trim (s : List Nat) : List Nat :=
  ((s.dropWhile isTrimWs).reverse.dropWhile isTrimWs).reverse

/-- String.prototype.split on /\r?\n/. -/
def splitLines : List Nat → List Nat → List (List Nat)
  | [], acc => [acc.reverse]
  | 13 :: 10 :: rest, acc => acc.reverse :: splitLines rest []
  | 10 :: rest, acc => acc.reverse :: splitLines rest []
  | c :: rest, acc => splitLines rest (c :: acc)

/-- String.prototype.split on /\n/ (lone \r is kept). -/
def splitLF : List Nat → List Nat → List (List Nat)
  | [], acc => [acc.reverse]
  | 10 :: rest, acc => acc.reverse :: splitLF rest []
  | c :: rest, acc => splitLF rest (c :: acc)

/-- One parsed NDJSON line: the stored object (null for blank or invalid
lines, or a parsed JSON null) and the line-presence flag (true exactly for
parse successes). -/
def lineEntry (line : List Nat) : JVal × Bool :=
  let t := trim line
  if t = [] then (jnull, false)
  else
    match jsonParse t with
    | some v => (v, true)
    | none => (jnull, false)

/-- Object.keys: property names of an object in insertion order; index
names for arrays and strings; empty for other primitives. -/
def jsKeys : JVal → List (List Nat)
  | jobj o => o.keys
  | jarr a => (List.range a.toList.length).map natDigits
  | jstr s => (List.range s.length).map natDigits
  | _ => []

/-- An own-property name that denotes an array index, if canonical. -/
def keyIndex (k : List Nat) : Option Nat :=
  if k = [] then none
  else if k.all isDigit &&
      decide (natDigits (k.foldl (fun a d => a * 10 + (d - 48)) 0) = k) then
    some (k.foldl (fun a d => a * 10 + (d - 48)) 0)
  else none

/-- `obj[key] ?? null` on a parsed JSON value. -/
def propGet (v : JVal) (k : List Nat) : JVal :=
  match v with
  | jobj o => (o.lookup k).getD jnull
  | jarr a =>
    match keyIndex k with
    | some i => (a.toList.get? i).getD jnull
    | none => jnull
  | jstr s =>
    match keyIndex k with
    | some i =>
      match s.get? i with
      | some c => jstr [c]
      | none => jnull
    | none => jnull
  | _ => jnull

/-- The `key in obj` test on a record value. -/
def hasKeyJS (v : JVal) (k : List Nat) : Bool :=
  match v with
  | jobj o => o.hasKey k
  | jarr a =>
    match keyIndex k with
    | some i => decide (i < a.toList.length)
    | none => false
  | _ => false

/-- computeShapeFingerprint: sorted Object.keys joined by U+0001. -/
def computeShapeFingerprint (v : JVal) : List Nat :=
  joinSep 1 (sortStrs (jsKeys v))

/-- FNV-1a 64-bit over the fingerprint characters. -/
def fnv1a64 (data : List Nat) : Nat :=
  data.foldl (fun h c => ((h ^^^ c) * 1099511628211) % 2 ^ 64)
    14695981039346656037

/-- Two little-endian bytes of a 16-bit value. -/
def writeU16LE (v : Nat) : List Nat := [v % 256, v / 256 % 256]

/-- Eight little-endian bytes of a 64-bit value. -/
def writeU64LE (v : Nat) : List Nat :=
  [v % 256, v / 2 ^ 8 % 256, v / 2 ^ 16 % 256, v / 2 ^ 24 % 256,
    v / 2 ^ 32 % 256, v / 2 ^ 40 % 256, v / 2 ^ 48 % 256, v / 2 ^ 56 % 256]

/-- getUint16 at an offset. -/
def readU16At (l : List Nat) (off : Nat) : Nat :=
  match l.drop off with
  | b0 :: b1 :: _ => b0 + b1 * 256
  | _ => 0

/-- LSB-first bit packing of a presence bit vector into
`ceil(length / 8)` bytes. -/
def packBits (bits : List Bool) : List Nat :=
  (List.range ((bits.length + 7) / 8)).map (fun byteIdx =>
    (List.range 8).foldl (fun acc j =>
      if bits.getD (8 * byteIdx + j) false then acc + 2 ^ j else acc) 0)

/-- Read bit `i` of an LSB-first packed bitmap. -/
def bitGet (data : List Nat) (i : Nat) : Bool :=
  (data.getD (i / 8) 0) / 2 ^ (i % 8) % 2 = 1

/-- encodeColumnarBatch: `0xC1 || u32 rows || u64 shapeId || u16 keyCount ||
keys (u32 len + bytes) || presence bitmap || columns (u32 len + bytes)`.
The key list is the sorted union of the rows' own keys; the presence
bitmap is row-major, LSB first. -/
def encodeColumnarBatch (objects : List JVal) (shapeId : Nat) : List Nat :=
  if objects = [] then [0xC1, 0, 0, 0, 0, 0, 0, 0, 0, 0, 0]
  else
    let keys := sortStrs (objects.flatMap jsKeys).dedup
    let rows := objects.length
    let presenceBits := (List.range rows).flatMap (fun rowIdx =>
      keys.map (fun k => hasKeyJS (objects.getD rowIdx jnull) k))
    let presenceBytes := packBits presenceBits
    let columns := keys.map (fun k =>
      encodeColumn (objects.map (fun o => propGet o k)))
    0xC1 :: writeU32LE rows ++ writeU64LE shapeId ++ writeU16LE keys.length ++
      keys.flatMap (fun k => writeU32LE k.length ++ k) ++
      presenceBytes ++
      columns.flatMap (fun col => writeU32LE col.length ++ col)

/-- encodeLinePresenceBitmap: `'BM' || u32 lineCount || bitmap`. -/
def encodeLinePresenceBitmap (linePresence : List Bool) : List Nat :=
  0x42 :: 0x4D :: writeU32LE linePresence.length ++ packBits linePresence

/-- Insertion-ordered grouping map (JS Map semantics). -/
def addToGroup (groups : List (List Nat × List JVal)) (fp : List Nat)
    (v : JVal) : List (List Nat × List JVal) :=
  match groups with
  | [] => [(fp, [v])]
  | (k, vs) :: rest =>
    if k = fp then (k, vs ++ [v]) :: rest else (k, vs) :: addToGroup rest fp v

def groupByFingerprint (objs : List JVal) : List (List Nat × List JVal) :=
  objs.foldl (fun gs o => addToGroup gs (computeShapeFingerprint o) o) []

/-- Split into consecutive batches of at most `n` (n positive). -/
def chunksF : Nat → Nat → List JVal → List (List JVal)
  | _, _, [] => []
  | 0, _, l => [l]
  | fuel + 1, n, l => l.take n :: chunksF fuel n (l.drop n)

/-- encodeNDJSONColumnar: parse lines, decline for fewer than 3 valid
records or raw inputs shorter than 64, otherwise emit the line-presence
frame and one frame per shape group batch. -/
def encodeNDJSONColumnar (input : List Nat) (batchSize : Nat) : List (List Nat) :=
  let allLines := splitLines input []
  let entries := allLines.map lineEntry
  let objects := entries.map Prod.fst
  let linePresence := entries.map Prod.snd
  if objects = [] then []
  else
    let validObjects := objects.filter (fun v => v ≠ jnull)
    if validObjects.length < 3 ∨ input.length < 64 then []
    else
      encodeLinePresenceBitmap linePresence ::
        (groupByFingerprint validObjects).flatMap (fun g =>
          (chunksF g.2.length batchSize g.2).map (fun batch =>
            encodeColumnarBatch batch (fnv1a64 g.1)))

/-- encodeNDJSON without a key dictionary: blank lines and valid JSON
lines pass through unchanged; an invalid non-blank line makes the
transform pipeline re-parse it and throw. -/
def encodeNDJSON (input : List Nat) : Option (List (List Nat)) :=
  (splitLines input []).mapM (fun line =>
    let t := trim line
    if t = [] then some line
    else
      match jsonParse t with
      | some _ => some line
      | none => none)

/-! ## Selective decode (selective-decode.ts) and the NDJSON container
pipeline (src/src/index.ts) -/
/-- isColumnarPayload: leading 0xC1 or 'BM'. -/
def isColumnarPayload (buf : List Nat) : Bool :=
  match buf with
  | [] => false
  | b :: rest =>
    b = 0xC1 || (b = 0x42 && rest.headD 0 = 0x4D && rest ≠ [])

/-- Decode failures of the NDJSON pipeline. -/
inductive DecodeError where
  | container (e : ContainerError)
  | unknownCodec
  | codecFailed
  | incompleteBitmapHeader
  | incompleteBitmapData
  | invalidFrameMagic
  | incompleteFrameHeader
  | incompleteKeySection
  | incompleteColumnSection
  | incompleteFrameData
  | column (e : ColumnError)
  | keyDictUnsupported
deriving DecidableEq

/-- Offset after `count` u32-length-prefixed segments, with the source's
bounds check on each length word. -/
def segsEnd : Nat → List Nat → Nat → Except DecodeError Nat
  | 0, _, off => .ok off
  | i + 1, bytes, off =>
    if off + 4 > bytes.length then .error .incompleteKeySection
    else segsEnd i bytes (off + 4 + readU32At bytes off)

/-- parseColumnarFrames: walk the payload, skipping 0x0A/0x0D separators,
slicing BM and 0xC1 frames by their computed sizes. -/
def parseFramesGo : Nat → List Nat → Except DecodeError (List (List Nat))
  | _, [] => .ok []
  | 0, _ => .error .incompleteFrameData
  | fuel + 1, bytes =>
    let rest := bytes.dropWhile (fun b => b = 10 || b = 13)
    match rest with
    | [] => .ok []
    | b :: tail =>
      if b = 0x42 ∧ tail.headD 0 = 0x4D ∧ tail ≠ [] then
        if rest.length < 5 then .error .incompleteBitmapHeader
        else
          let lineCount := readU32At rest 2
          let frameSize := 6 + (lineCount + 7) / 8
          if frameSize > rest.length then .error .incompleteBitmapData
          else
            match parseFramesGo fuel (rest.drop frameSize) with
            | .error e => .error e
            | .ok fs => .ok (rest.take frameSize :: fs)
      else if b ≠ 0xC1 then .error .invalidFrameMagic
      else if rest.length < 15 then .error .incompleteFrameHeader
      else
        let rows := readU32At rest 1
        let keyCount := readU16At rest 13
        match segsEnd keyCount rest 15 with
        | .error _ => .error .incompleteKeySection
        | .ok afterKeys =>
          let afterPresence := afterKeys + (keyCount * rows + 7) / 8
          match segsEnd keyCount rest afterPresence with
          | .error _ => .error .incompleteColumnSection
          | .ok frameSize =>
            if frameSize > rest.length then .error .incompleteFrameData
            else
              match parseFramesGo fuel (rest.drop frameSize) with
              | .error e => .error e
              | .ok fs => .ok (rest.take frameSize :: fs)

def parseColumnarFrames (bytes : List Nat) : Except DecodeError (List (List Nat)) :=
  parseFramesGo (bytes.length + 1) bytes

/-- A parsed 0xC1 window. -/
structure WindowM where
  numRows : Nat
  keyOrder : List (List Nat)
  presence : List Nat
  columns : List (List Nat)
  linePresence : Option (List Nat × Nat)
deriving DecidableEq

/-- Read `count` u32-length-prefixed segments, returning them with the
offset past the last. -/
def readSegsGo : Nat → List Nat → Nat → List (List Nat) × Nat
  | 0, _, off => ([], off)
  | i + 1, bytes, off =>
    let len := readU32At bytes off
    let seg := (bytes.drop (off + 4)).take len
    let r := readSegsGo i bytes (off + 4 + len)
    (seg :: r.1, r.2)

/-- parseColumnarFrame (window construction from one sliced frame). -/
def parseColumnarFrame (frame : List Nat) (lp : Option (List Nat × Nat)) :
    Option WindowM :=
  if frame.length < 15 then none
  else if frame.headD 0 ≠ 0xC1 then none
  else
    let rows := readU32At frame 1
    let keyCount := readU16At frame 13
    if rows = 0 then none
    else
      let ks := readSegsGo keyCount frame 15
      let presenceBytes := (keyCount * rows + 7) / 8
      let presence := (frame.drop ks.2).take presenceBytes
      let cols := readSegsGo keyCount frame (ks.2 + presenceBytes)
      some ⟨rows, ks.1, presence, cols.1, lp⟩

/-- parseLinePresenceBitmap (always called on a 'BM'-sliced frame). -/
def parseLinePresenceBitmap (frame : List Nat) :
    Except DecodeError (List Nat × Nat) :=
  if frame.length < 6 ∨ frame.headD 0 ≠ 0x42 ∨ frame.getD 1 0 ≠ 0x4D then
    .error .incompleteBitmapHeader
  else
    let lineCount := readU32At frame 2
    let bitmapBytes := (lineCount + 7) / 8
    if frame.length < 6 + bitmapBytes then .error .incompleteBitmapData
    else .ok ((frame.drop 6).take bitmapBytes, lineCount)

/-- openColumnar: slice frames, fold BM frames into the running line
presence, and parse each 0xC1 frame into a window. -/
def openColumnarGo : List (List Nat) → Option (List Nat × Nat) →
    Except DecodeError (List WindowM)
  | [], _ => .ok []
  | frame :: fs, lp =>
    if frame.length ≥ 2 ∧ frame.headD 0 = 0x42 ∧ frame.getD 1 0 = 0x4D then
      match parseLinePresenceBitmap frame with
      | .error e => .error e
      | .ok lp2 => openColumnarGo fs (some lp2)
    else
      match parseColumnarFrame frame lp with
      | some w =>
        match openColumnarGo fs lp with
        | .error e => .error e
        | .ok ws => .ok (w :: ws)
      | none => openColumnarGo fs lp

def openColumnar (payload : List Nat) : Except DecodeError (List WindowM) :=
  match parseColumnarFrames payload with
  | .error e => .error e
  | .ok frames => openColumnarGo frames none

/-- Bitset.get of a parsed line-presence bitmap. -/
def bitsetGet (lp : List Nat × Nat) (i : Nat) : Bool :=
  if i ≥ lp.2 then false else bitGet lp.1 i

/-- SimpleColumnReader.present. -/
def readerPresent (w : WindowM) (keyIndex i : Nat) : Bool :=
  if i ≥ w.numRows then false
  else bitGet w.presence (i * w.keyOrder.length + keyIndex)

/-- All columns of a window decoded (SimpleColumnReader.getValue decodes
the whole column on first use; a reader error propagates). -/
def windowColumns (w : WindowM) : Except DecodeError (List (List JVal)) :=
  w.columns.mapM (fun c =>
    match decodeColumn c w.numRows with
    | .error e => .error (DecodeError.column e)
    | .ok vs => .ok vs)

/-- ColumnReader.getValue on a decoded column. -/
def readerValue (vals : List JVal) (i : Nat) : JVal := vals.getD i jnull

/-- One reconstructed row object: iterate the requested key order, keeping
keys that have a reader and a set presence bit. -/
def rowObj (w : WindowM) (cols : List (List JVal)) (wantKeys : List (List Nat))
    (i : Nat) : JObj :=
  wantKeys.foldl (fun o k =>
    match (w.keyOrder.zip cols).findIdx? (fun kv => kv.1 = k) with
    | none => o
    | some ki =>
      if readerPresent w ki i then
        o.set k (readerValue ((w.keyOrder.zip cols).getD ki ([], [])).2 i)
      else o) onil

/-- The JSON lines contributed by one window. -/
def windowLines (w : WindowM) (want : Option (List (List Nat))) :
    Except DecodeError (List (List Nat)) :=
  match windowColumns w with
  | .error e => .error e
  | .ok cols =>
    let keys := match want with
      | none => w.keyOrder
      | some fs => fs
    .ok ((List.range w.numRows).map (fun i =>
      jsonStringify (jobj (rowObj w cols keys i))))

/-- Reconstruction with the global line presence:
`validLines[validIndex++] || ''` on set bits, '' on clear bits. -/
def reconstructGo : List Bool → List (List Nat) → List (List Nat)
  | [], _ => []
  | true :: bs, vls => vls.headD [] :: reconstructGo bs (vls.drop 1)
  | false :: bs, vls => [] :: reconstructGo bs vls

/-- A compression back-end (codec.encode / codec.decode). -/
structure Codec where
  encode : List Nat → List Nat
  decode : List Nat → Option (List Nat)

def identityCodec : Codec := ⟨id, some⟩

/-- Header property names used by the pipeline. -/
def codecKey : List Nat := [99, 111, 100, 101, 99]

def createdAtKey : List Nat := [99, 114, 101, 97, 116, 101, 100, 65, 116]

def ndjsonKey : List Nat := [110, 100, 106, 115, 111, 110]

def keyDictInlineKey : List Nat :=
  [107, 101, 121, 68, 105, 99, 116, 73, 110, 108, 105, 110, 101]

def keyDictKey : List Nat := [107, 101, 121, 68, 105, 99, 116]

def optionsKey : List Nat := [111, 112, 116, 105, 111, 110, 115]

/-- The container header written by compressNDJSON (no key dictionary;
undefined-valued properties are dropped by JSON.stringify). -/
def ndjsonHeader (codecName : List Nat) (now : Int) : JVal :=
  jobj (ocons versionKey (jnum 1)
    (ocons codecKey (jstr codecName)
      (ocons createdAtKey (jstr (isoString now))
        (ocons ndjsonKey (jbool true)
          (ocons keyDictInlineKey (jbool false)
            (ocons optionsKey (jobj onil) onil))))))

/-- compressNDJSON (single-threaded, no key dictionary, codec resolved by
the caller; the 'auto' sampling branch is not modelled).  Chunks are joined
with single newlines, compressed, and framed in a container whose CRC
covers the compressed body. -/
def compressNDJSON (codec : Codec) (codecName : List Nat) (columnar : Bool)
    (now : Int) (input : List Nat) : Option (List Nat) :=
  let chunksO :=
    if columnar then
      let cs := encodeNDJSONColumnar input 4096
      if cs = [] then encodeNDJSON input else some cs
    else encodeNDJSON input
  match chunksO with
  | none => none
  | some chunks =>
    let inputBytes := joinSep 10 chunks
    some (encodeContainer (ndjsonHeader codecName now) (codec.encode inputBytes))

/-- decompressNDJSON: container, codec, then either the selective columnar
path or the per-line row-wise path (the row-wise path returns every line
unchanged when no key dictionary is in play). -/
def decompressNDJSON (registry : List Nat → Option Codec) (input : List Nat)
    (fields : Option (List (List Nat))) : Except DecodeError (List Nat) :=
  match decodeContainer input with
  | .error e => .error (.container e)
  | .ok (header, body) =>
    match getProp header codecKey with
    | some (jstr codecName) =>
      match registry codecName with
      | none => .error .unknownCodec
      | some codec =>
        match codec.decode body with
        | none => .error .codecFailed
        | some bytes =>
          if isColumnarPayload bytes then
            match openColumnar bytes with
            | .error e => .error e
            | .ok windows =>
              let want := match fields with
                | some (_ :: _) => fields
                | _ => none
              match windows.mapM (fun w => windowLines w want) with
              | .error e => .error e
              | .ok lineChunks =>
                let validLines := lineChunks.flatten
                match windows.head? with
                | some w0 =>
                  match w0.linePresence with
                  | some lp =>
                    let bits := (List.range lp.2).map (bitsetGet lp)
                    .ok (joinSep 10 (reconstructGo bits validLines))
                  | none => .ok (joinSep 10 validLines)
                | none => .ok (joinSep 10 validLines)
          else
            if getProp header keyDictInlineKey = some (jbool true) ∨
                (getProp header keyDictKey).isSome then
              .error .keyDictUnsupported
            else
              let lines := splitLF bytes []
              .ok (joinSep 10 (lines.map (fun l => l)))
    | _ => .error .unknownCodec

/-- Cells accepted by the INT_VARINT round-trip. -/
def intCellOk : JVal → Bool
  | jnull => true
  | jnum n => decide (n.natAbs ≤ 2 ^ 30 - 1)
  | _ => false

/-- Cells accepted by the DELTA_ZIGZAG round-trip. -/
def deltaCellOk : JVal → Bool
  | jnull => true
  | jnum n => decide (n.natAbs ≤ 2 ^ 29 - 1)
  | _ => false

def boolCellOk : JVal → Bool
  | jnull => true
  | jbool _ => true
  | _ => false

/-- A stand-in back-end used to instantiate the hybrid round-trip theorem:
a prefix compressor whose two-byte magic collides with none of the
envelope magics. -/
def brFix : HCodec :=
  ⟨fun c => if c.length < 4096 then some (10 :: 20 :: c) else none,
   fun e => match e with | 10 :: 20 :: r => some r | _ => none⟩

/-- A second stand-in back-end with a distinct magic. -/
def gzFix : HCodec :=
  ⟨fun c => if c.length < 4096 then some (30 :: 40 :: c) else none,
   fun e => match e with | 30 :: 40 :: r => some r | _ => none⟩

/-- The five-line row-wise example input
`{"a":1}\n\n{"b":2}\n   \n{"c":3}`. -/
def c4input : List Nat := [123, 34, 97, 34, 58, 49, 125, 10, 10, 123, 34, 98, 34, 58, 50, 125, 10, 32, 32, 32, 10, 123, 34, 99, 34, 58, 51, 125]

/-- A mixed-shape NDJSON input: rows 0 and 2 have key `a`, row 1 has key
`b`. -/
def c1bad : List Nat := [123, 34, 97, 34, 58, 34, 120, 120, 120, 120, 120, 120, 120, 120, 120, 120, 120, 120, 120, 120, 120, 120, 120, 120, 120, 120, 120, 120, 120, 120, 120, 120, 120, 120, 120, 120, 120, 120, 120, 120, 120, 120, 120, 120, 120, 120, 34, 125, 10, 123, 34, 98, 34, 58, 50, 125, 10, 123, 34, 97, 34, 58, 51, 125]

/-- A single-shape NDJSON input: all three rows have sorted key list
`a`,`b`; line 1 is blank. -/
def c1ok : List Nat := [123, 34, 97, 34, 58, 49, 44, 34, 98, 34, 58, 34, 120, 120, 120, 120, 120, 120, 120, 120, 120, 120, 120, 120, 120, 120, 120, 120, 120, 120, 120, 120, 120, 120, 120, 120, 120, 120, 120, 120, 120, 120, 120, 120, 34, 125, 10, 10, 123, 34, 97, 34, 58, 50, 44, 34, 98, 34, 58, 34, 121, 34, 125, 10, 123, 34, 98, 34, 58, 34, 122, 34, 44, 34, 97, 34, 58, 51, 125]

/-- The selective decode output for `c1bad` with fields `b`. -/
def c1badOut : List Nat := [123, 125, 10, 123, 125, 10, 123, 34, 98, 34, 58, 50, 125]

/-- The selective decode output for `c1ok` with fields `a`,`q`. -/
def c1okOut : List Nat := [123, 34, 97, 34, 58, 49, 125, 10, 10, 123, 34, 97, 34, 58, 50, 125, 10, 123, 34, 97, 34, 58, 51, 125]

/-- Eight numeric NDJSON lines, 71 bytes, no object lines. -/
def c6num : List Nat := [49, 49, 49, 49, 49, 49, 49, 49, 10, 49, 49, 49, 49, 49, 49, 49, 49, 10, 49, 49, 49, 49, 49, 49, 49, 49, 10, 49, 49, 49, 49, 49, 49, 49, 49, 10, 49, 49, 49, 49, 49, 49, 49, 49, 10, 49, 49, 49, 49, 49, 49, 49, 49, 10, 49, 49, 49, 49, 49, 49, 49, 49, 10, 49, 49, 49, 49, 49, 49, 49, 49]

/-- A three-byte two-line numeric input (below both columnar gates). -/
def c6small : List Nat := [49, 10, 50]

/-- A registry resolving only the identity codec, as used by the concrete
pipeline theorems. -/
def regId : List Nat → Option Codec :=
  fun n => if n = identityName then some identityCodec else none

theorem lebBytesF_irrel : ∀ (f1 f2 v : Nat), v ≤ f1 → v ≤ f2 →
    lebBytesF f1 v = lebBytesF f2 v := by
  intro f1
  induction f1 with
  | zero =>
    intro f2 v h1 h2
    have hv : v = 0 := by omega
    subst hv
    match f2 with
    | 0 => rfl
    | f2 + 1 => simp [lebBytesF]
  | succ f1 ih =>
    intro f2 v h1 h2
    match f2 with
    | 0 =>
      have hv : v = 0 := by omega
      subst hv
      simp [lebBytesF]
    | f2 + 1 =>
      simp only [lebBytesF]
      split
      · rfl
      · rename_i hv
        have hd : v / 0x80 ≤ f1 := by
          have := Nat.div_lt_self (show 0 < v by omega) (show 1 < 0x80 by norm_num)
          omega
        have hd2 : v / 0x80 ≤ f2 := by
          have := Nat.div_lt_self (show 0 < v by omega) (show 1 < 0x80 by norm_num)
          omega
        rw [ih f2 (v / 0x80) hd hd2]

/-- Unfolding equation of lebBytes, matching the source loop. -/
theorem lebBytes_eq (v : Nat) : lebBytes v =
    if v < 0x80 then [v] else (v % 0x80 + 0x80) :: lebBytes (v / 0x80) := by
  unfold lebBytes
  match v with
  | 0 => simp [lebBytesF]
  | n + 1 =>
    simp only [lebBytesF]
    split
    · rfl
    · rename_i hv
      have hd : (n + 1) / 0x80 ≤ n := by
        have := Nat.div_lt_self (show 0 < n + 1 by omega) (show 1 < 0x80 by norm_num)
        omega
      rw [lebBytesF_irrel n ((n + 1) / 0x80) ((n + 1) / 0x80) hd (le_refl _)]

theorem toUint32_ofNat (n : Nat) (h : n < 2 ^ 32) : toUint32 (Int.ofNat n) = n := by
  simp only [toUint32]
  norm_num at h ⊢
  omega

theorem int32OfUint32_of_lt (u : Nat) (h : u < 2 ^ 31) :
    int32OfUint32 u = (u : Int) := by
  unfold int32OfUint32
  rw [if_pos h]

/-- Disjoint bitwise or is addition: the low part fits under the shift. -/
theorem lor_add_of_lt {a : Nat} (b : Nat) {k : Nat} (h : a < 2 ^ k) :
    a ||| b * 2 ^ k = a + b * 2 ^ k := by
  induction k generalizing a b with
  | zero =>
    interval_cases a
    simp
  | succ k ih =>
    have hpow : (2 : Nat) ^ (k + 1) = 2 ^ k * 2 := pow_succ 2 k
    have hb : b * 2 ^ (k + 1) = Nat.bit false (b * 2 ^ k) := by
      simp only [Nat.bit_val, Bool.toNat_false, Nat.add_zero, hpow]
      ring
    have hdiv : a >>> 1 < 2 ^ k := by
      rw [Nat.shiftRight_one]
      omega
    rw [hb]
    conv_lhs => rw [← Nat.bit_decide_mod_two_eq_one_shiftRight_one a]
    rw [Nat.lor_bit, ih b hdiv]
    simp only [Bool.or_false, Nat.bit_val, Nat.shiftRight_one, Bool.toNat_false, Nat.add_zero]
    have hdm := Nat.div_add_mod a 2
    cases Nat.mod_two_eq_zero_or_one a with
    | inl h0 =>
      rw [h0]
      norm_num
      omega
    | inr h1 =>
      rw [h1]
      norm_num
      omega

theorem lebBytes_nonempty (v : Nat) : lebBytes v ≠ [] := by
  rw [lebBytes_eq]
  split <;> simp

theorem lebBytes_len_le (v : Nat) (k : Nat) (h : v < 2 ^ (7 * k)) (hk : 1 ≤ k) :
    (lebBytes v).length ≤ k := by
  induction k generalizing v with
  | zero => omega
  | succ k ih =>
    rw [lebBytes_eq]
    split
    · simp only [List.length_singleton]
      omega
    · rename_i hv
      have hk1 : 1 ≤ k := by
        by_contra hc
        have : k = 0 := by omega
        subst this
        norm_num at h
        omega
      have hdiv : v / 0x80 < 2 ^ (7 * k) := by
        rw [Nat.div_lt_iff_lt_mul (by norm_num)]
        calc v < 2 ^ (7 * (k + 1)) := h
        _ = 2 ^ (7 * k) * 0x80 := by
          rw [show 7 * (k + 1) = 7 * k + 7 by ring, pow_add]
          norm_num
      have := ih (v / 0x80) hdiv hk1
      simp only [List.length_cons]
      omega

theorem jsShl_eq (a s : Nat) (hs : s < 32) (h : a * 2 ^ s < 2 ^ 31) :
    jsShl (Int.ofNat a) s = Int.ofNat (a * 2 ^ s) := by
  have ha32 : a < 2 ^ 32 := by
    have : a ≤ a * 2 ^ s := Nat.le_mul_of_pos_right a (Nat.pos_pow_of_pos s (by norm_num))
    calc a ≤ a * 2 ^ s := this
    _ < 2 ^ 31 := h
    _ < 2 ^ 32 := by norm_num
  unfold jsShl
  rw [toUint32_ofNat a ha32, Nat.mod_eq_of_lt hs, Nat.mod_eq_of_lt (by
    calc a * 2 ^ s < 2 ^ 31 := h
    _ < 2 ^ 32 := by norm_num)]
  exact int32OfUint32_of_lt _ h

theorem jsOr_add (a m k : Nat) (ha : a < 2 ^ k) (hsum : a + m * 2 ^ k < 2 ^ 31) :
    jsOr (Int.ofNat a) (Int.ofNat (m * 2 ^ k)) = Int.ofNat (a + m * 2 ^ k) := by
  unfold jsOr
  rw [toUint32_ofNat a (by omega), toUint32_ofNat _ (by omega)]
  rw [lor_add_of_lt m ha]
  exact int32OfUint32_of_lt _ hsum

/-- Core varint round-trip: decoding a LEB128 encoding appended to any suffix
recovers the value and consumes exactly the encoding, provided everything stays
below 2^31 (the range where the JavaScript 32-bit coercions are invisible). -/
theorem dvGo_leb (v : Nat) : ∀ (acc k pos : Nat) (rest : List Nat),
    acc < 2 ^ (7 * k) → v * 2 ^ (7 * k) + acc < 2 ^ 31 →
    dvGo (lebBytes v ++ rest) (Int.ofNat acc) (7 * k) pos =
      (Int.ofNat (v * 2 ^ (7 * k) + acc), pos + (lebBytes v).length) := by
  induction v using Nat.strong_induction_on with
  | _ v ih =>
    intro acc k pos rest hacc hlt
    have hacc31 : acc < 2 ^ 31 := by omega
    rw [lebBytes_eq]
    split
    · rename_i hv
      simp only [List.cons_append, List.nil_append, dvGo, List.length_singleton,
        List.append_eq]
      have hand80 : v &&& 0x80 = 0 := by
        have h7 : v.testBit 7 = false := Nat.testBit_eq_false_of_lt hv
        rw [show (0x80 : Nat) = 2 ^ 7 by norm_num, Nat.and_two_pow, h7]
        simp
      have hand7F : v &&& 0x7F = v := by
        rw [Nat.and_pow_two_sub_one_eq_mod v 7]
        exact Nat.mod_eq_of_lt hv
      rw [hand80, if_pos rfl, hand7F]
      rcases Nat.eq_zero_or_pos v with h0 | hvpos
      · subst h0
        have hshl0 : jsShl (Int.ofNat 0) (7 * k) = Int.ofNat (0 * 2 ^ (7 * k)) := by
          unfold jsShl
          rw [toUint32_ofNat 0 (by norm_num)]
          simp [int32OfUint32]
        rw [hshl0, jsOr_add acc 0 (7 * k) hacc (by omega)]
        have : acc + 0 * 2 ^ (7 * k) = 0 * 2 ^ (7 * k) + acc := by omega
        rw [this]
      · have hk31 : 7 * k < 32 := by
          have h2k : 2 ^ (7 * k) ≤ v * 2 ^ (7 * k) := Nat.le_mul_of_pos_left _ hvpos
          have : 2 ^ (7 * k) < 2 ^ 31 := by omega
          by_contra hc
          have : (2 : Nat) ^ 31 ≤ 2 ^ (7 * k) := Nat.pow_le_pow_right (by norm_num) (by omega)
          omega
        rw [jsShl_eq v (7 * k) hk31 (by omega),
          jsOr_add acc v (7 * k) hacc (by omega)]
        have : acc + v * 2 ^ (7 * k) = v * 2 ^ (7 * k) + acc := by omega
        rw [this]
    · rename_i hv
      simp only [List.cons_append, dvGo, List.append_eq]
      have hb256 : v % 0x80 + 0x80 < 256 := by omega
      have hand80 : (v % 0x80 + 0x80) &&& 0x80 ≠ 0 := by
        have h80 : (0x80 : Nat) = 2 ^ 7 := by norm_num
        nth_rewrite 3 [h80]
        rw [Nat.and_two_pow]
        have ht : (v % 0x80 + 0x80).testBit 7 = true := by
          rw [Nat.testBit_to_div_mod]
          have hd : (v % 0x80 + 0x80) / 2 ^ 7 = 1 := by
            have h27 : (2 : Nat) ^ 7 = 128 := by norm_num
            rw [h27]
            omega
          rw [hd]
          decide
        rw [ht]
        norm_num
      rw [if_neg hand80]
      have hand7F : (v % 0x80 + 0x80) &&& 0x7F = v % 0x80 := by
        rw [Nat.and_pow_two_sub_one_eq_mod _ 7]
        omega
      rw [hand7F]
      have hk31 : 7 * k < 32 := by
        have h2k : 2 ^ (7 * k) ≤ v * 2 ^ (7 * k) := Nat.le_mul_of_pos_left _ (by omega)
        have : 2 ^ (7 * k) < 2 ^ 31 := by omega
        by_contra hc
        have : (2 : Nat) ^ 31 ≤ 2 ^ (7 * k) := Nat.pow_le_pow_right (by norm_num) (by omega)
        omega
      have hmod_le : v % 0x80 * 2 ^ (7 * k) ≤ v * 2 ^ (7 * k) :=
        Nat.mul_le_mul_right _ (Nat.mod_le v 0x80)
      rw [jsShl_eq (v % 0x80) (7 * k) hk31 (by omega),
        jsOr_add acc (v % 0x80) (7 * k) hacc (by omega)]
      have hpow7 : 2 ^ (7 * (k + 1)) = 2 ^ (7 * k) * 0x80 := by
        rw [show 7 * (k + 1) = 7 * k + 7 by ring, pow_add]
        norm_num
      have hacc2 : acc + v % 0x80 * 2 ^ (7 * k) < 2 ^ (7 * (k + 1)) := by
        rw [hpow7]
        have hm : v % 0x80 ≤ 0x7F := by omega
        have : v % 0x80 * 2 ^ (7 * k) ≤ 0x7F * 2 ^ (7 * k) :=
          Nat.mul_le_mul_right _ hm
        nlinarith [Nat.pos_pow_of_pos (7 * k) (show 0 < 2 by norm_num)]
      have hval : v / 0x80 * 2 ^ (7 * (k + 1)) + (acc + v % 0x80 * 2 ^ (7 * k)) =
          v * 2 ^ (7 * k) + acc := by
        rw [hpow7]
        have := Nat.div_add_mod v 0x80
        nlinarith [this]
      have hrec := ih (v / 0x80) (Nat.div_lt_self (by omega) (by norm_num))
        (acc + v % 0x80 * 2 ^ (7 * k)) (k + 1) (pos + 1) rest hacc2 (by omega)
      rw [show 7 * k + 7 = 7 * (k + 1) by ring, hrec, hval, List.length_cons]
      have hlen : pos + 1 + (lebBytes (v / 0x80)).length =
          pos + ((lebBytes (v / 0x80)).length + 1) := by omega
      rw [hlen]

/-- decodeVarint round-trip on canonical encodings of values below 2^31. -/
theorem decodeVarint_encodeVarint (v : Nat) (rest : List Nat) (h : v < 2 ^ 31) :
    decodeVarint (encodeVarint (Int.ofNat v) ++ rest) 0 =
      (Int.ofNat v, (encodeVarint (Int.ofNat v)).length) := by
  unfold decodeVarint encodeVarint
  rw [toUint32_ofNat v (by omega)]
  have := dvGo_leb v 0 0 0 rest (by norm_num) (by simpa using h)
  simpa using this

theorem lebBytes_lt (v : Nat) : ∀ b ∈ lebBytes v, b < 256 := by
  induction v using Nat.strong_induction_on with
  | _ v ih =>
    rw [lebBytes_eq]
    split
    · rename_i hv
      intro b hb
      simp at hb
      omega
    · rename_i hv
      intro b hb
      simp at hb
      rcases hb with h1 | h2
      · omega
      · exact ih (v / 0x80) (Nat.div_lt_self (by omega) (by norm_num)) b h2

theorem ofNat_eq_cast (n : Nat) : Int.ofNat n = (n : Int) := rfl

theorem toUint32_cast (n : Nat) (h : n < 2 ^ 32) : toUint32 (n : Int) = n := by
  rw [← ofNat_eq_cast]
  exact toUint32_ofNat n h

theorem toUint32_one : toUint32 1 = 1 := by
  unfold toUint32
  norm_num

theorem zigzagDecode_even (m : Nat) (hm : m < 2 ^ 31) (he : m % 2 = 0) :
    zigzagDecode ((m : Int)) = ((m / 2 : Nat) : Int) := by
  unfold zigzagDecode jsAnd jsShrS toInt32
  rw [toUint32_cast m (by omega), toUint32_one]
  have hand : m &&& 1 = m % 2 := Nat.and_pow_two_sub_one_eq_mod m 1
  rw [hand, he]
  rw [if_neg (by simp [int32OfUint32])]
  rw [int32OfUint32_of_lt m hm]
  rw [Int.fdiv_eq_tdiv (by positivity) (by norm_num)]
  have he2 : ((2 : Int) ^ (1 % 32)) = 2 := by norm_num
  rw [he2]
  exact_mod_cast (Int.ofNat_tdiv m 2).symm

theorem zigzagDecode_odd (m : Nat) (hm : m + 1 < 2 ^ 31) (ho : m % 2 = 1) :
    zigzagDecode ((m : Int)) = -(((m + 1) / 2 : Nat) : Int) := by
  unfold zigzagDecode jsAnd jsShrS toInt32
  rw [toUint32_cast m (by omega), toUint32_one]
  have hand : m &&& 1 = m % 2 := Nat.and_pow_two_sub_one_eq_mod m 1
  rw [hand, ho]
  rw [if_pos (by simp [int32OfUint32])]
  have hc : (m : Int) + 1 = ((m + 1 : Nat) : Int) := by push_cast; ring
  rw [hc, toUint32_cast (m + 1) (by omega), int32OfUint32_of_lt (m + 1) hm]
  rw [Int.fdiv_eq_tdiv (by positivity) (by norm_num)]
  have he2 : ((2 : Int) ^ (1 % 32)) = 2 := by norm_num
  rw [he2]
  have := (Int.ofNat_tdiv (m + 1) 2).symm
  norm_num at this ⊢
  exact_mod_cast this

theorem zigzagEncode_nonneg (n : Int) : 0 ≤ zigzagEncode n := by
  unfold zigzagEncode
  split <;> rename_i h
  · positivity
  · push_neg at h
    omega

theorem zigzagEncode_lt (n : Int) (h : n.natAbs ≤ 2 ^ 30 - 1) :
    zigzagEncode n + 1 < 2 ^ 31 := by
  unfold zigzagEncode
  split <;> rename_i hn
  · have : n ≤ 2 ^ 30 - 1 := by omega
    omega
  · push_neg at hn
    have : -n ≤ 2 ^ 30 - 1 := by omega
    omega

theorem zigzag_roundtrip (n : Int) (h : n.natAbs ≤ 2 ^ 30 - 1) :
    zigzagDecode (zigzagEncode n) = n := by
  rcases le_or_lt 0 n with hn | hn
  · have hz : zigzagEncode n = ((2 * n.toNat : Nat) : Int) := by
      unfold zigzagEncode
      rw [if_pos hn]
      omega
    rw [hz, zigzagDecode_even (2 * n.toNat) (by omega) (by omega)]
    have : 2 * n.toNat / 2 = n.toNat := by omega
    rw [this]
    omega
  · have hz : zigzagEncode n = ((2 * n.natAbs - 1 : Nat) : Int) := by
      unfold zigzagEncode
      rw [if_neg (by omega)]
      omega
    rw [hz, zigzagDecode_odd (2 * n.natAbs - 1) (by omega) (by omega)]
    have h2 : (2 * n.natAbs - 1 + 1) / 2 = n.natAbs := by omega
    rw [h2]
    omega

theorem xor_div_two (x y : Nat) : (x ^^^ y) / 2 = x / 2 ^^^ y / 2 := by
  apply Nat.eq_of_testBit_eq
  intro i
  simp only [Nat.testBit_div_two, Nat.testBit_xor]

theorem xor_mod_two_pow (x y k : Nat) : (x ^^^ y) % 2 ^ k = x % 2 ^ k ^^^ y % 2 ^ k := by
  apply Nat.eq_of_testBit_eq
  intro i
  simp only [Nat.testBit_mod_two_pow, Nat.testBit_xor]
  by_cases h : i < k <;> simp [h]

theorem xor_div_two_pow (x y k : Nat) : (x ^^^ y) / 2 ^ k = x / 2 ^ k ^^^ y / 2 ^ k := by
  induction k generalizing x y with
  | zero => simp
  | succ k ih =>
    have h2 : ∀ z : Nat, z / 2 ^ (k + 1) = z / 2 ^ k / 2 := by
      intro z
      rw [Nat.div_div_eq_div_mul, pow_succ]
    rw [h2, h2, h2, ih, xor_div_two]

theorem xor_parity (x y : Nat) : (x ^^^ y) % 2 = 1 ↔ ((x % 2 = 1) ↔ ¬(y % 2 = 1)) := by
  have hx := Nat.mod_two_eq_zero_or_one x
  have hy := Nat.mod_two_eq_zero_or_one y
  have hxy : (x ^^^ y) % 2 = (x + y) % 2 := Nat.xor_mod_two_eq
  rcases hx with hx | hx <;> rcases hy with hy | hy <;>
    simp [hxy, Nat.add_mod, hx, hy]

theorem crcBitStep_linear (x y : Nat) :
    crcBitStep (x ^^^ y) = crcBitStep x ^^^ crcBitStep y := by
  unfold crcBitStep
  have hx := Nat.mod_two_eq_zero_or_one x
  have hy := Nat.mod_two_eq_zero_or_one y
  have hxy : (x ^^^ y) % 2 = (x + y) % 2 := Nat.xor_mod_two_eq
  rcases hx with hx | hx <;> rcases hy with hy | hy
  · rw [if_neg (by omega), if_neg (by omega), if_neg (by omega), xor_div_two]
  · rw [if_pos (by omega), if_neg (by omega), if_pos (by omega), xor_div_two]
    rw [Nat.xor_assoc]
  · rw [if_pos (by omega), if_pos (by omega), if_neg (by omega), xor_div_two]
    rw [Nat.xor_comm (x / 2 ^^^ crcPoly) (y / 2), ← Nat.xor_assoc, Nat.xor_comm (y/2) (x/2),
      Nat.xor_assoc]
  · rw [if_neg (by omega), if_pos (by omega), if_pos (by omega), xor_div_two]
    rw [Nat.xor_assoc (x / 2) crcPoly (y / 2 ^^^ crcPoly), Nat.xor_comm crcPoly (y / 2 ^^^ crcPoly),
      Nat.xor_assoc (y / 2) crcPoly crcPoly, Nat.xor_self, Nat.xor_zero]

theorem crcBitStep_lt (c : Nat) (h : c < 2 ^ 32) : crcBitStep c < 2 ^ 32 := by
  unfold crcBitStep
  have hdiv : c / 2 < 2 ^ 32 := by omega
  split
  · have : crcPoly < 2 ^ 32 := by unfold crcPoly; norm_num
    calc (c / 2) ^^^ crcPoly = Nat.bitwise bne (c / 2) crcPoly := rfl
    _ < 2 ^ 32 := Nat.bitwise_lt hdiv this
  · exact hdiv

theorem crcBitStep_ne_zero (c : Nat) (h0 : c ≠ 0) (h : c < 2 ^ 32) : crcBitStep c ≠ 0 := by
  unfold crcBitStep
  split
  · rename_i hodd
    intro hc
    have : c / 2 = crcPoly := by
      have := Nat.xor_eq_zero.mp hc
      omega
    have : c / 2 < 2 ^ 31 := by omega
    unfold crcPoly at *
    omega
  · rename_i heven
    intro hc
    have : c / 2 = 0 := hc
    omega

theorem crcIter_linear (n x y : Nat) :
    crcBitStep^[n] (x ^^^ y) = crcBitStep^[n] x ^^^ crcBitStep^[n] y := by
  induction n generalizing x y with
  | zero => simp
  | succ n ih =>
    rw [Function.iterate_succ_apply, Function.iterate_succ_apply,
      Function.iterate_succ_apply, crcBitStep_linear, ih]

theorem crcIter_lt (n c : Nat) (h : c < 2 ^ 32) : crcBitStep^[n] c < 2 ^ 32 := by
  induction n generalizing c with
  | zero => simpa
  | succ n ih =>
    rw [Function.iterate_succ_apply]
    exact ih _ (crcBitStep_lt c h)

theorem crcIter_ne_zero (n c : Nat) (h0 : c ≠ 0) (h : c < 2 ^ 32) :
    crcBitStep^[n] c ≠ 0 := by
  induction n generalizing c with
  | zero => simpa
  | succ n ih =>
    rw [Function.iterate_succ_apply]
    exact ih _ (crcBitStep_ne_zero c h0 h) (crcBitStep_lt c h)

theorem crcTable_linear (x y : Nat) : crcTable (x ^^^ y) = crcTable x ^^^ crcTable y :=
  crcIter_linear 8 x y

theorem crcByteStep_xor (c d b : Nat) :
    crcByteStep (c ^^^ d) b = crcByteStep c b ^^^ crcDiff d := by
  unfold crcByteStep crcDiff
  have h1 : (c ^^^ d ^^^ b) % 256 = (c ^^^ b) % 256 ^^^ d % 256 := by
    rw [Nat.xor_assoc, Nat.xor_comm d b, ← Nat.xor_assoc]
    have := xor_mod_two_pow (c ^^^ b) d 8
    norm_num at this
    exact this
  have h2 : (c ^^^ d) / 256 = c / 256 ^^^ d / 256 := by
    have := xor_div_two_pow c d 8
    norm_num at this
    exact this
  rw [h1, h2, crcTable_linear]
  rw [Nat.xor_assoc, Nat.xor_assoc]
  congr 1
  rw [← Nat.xor_assoc, Nat.xor_comm (crcTable (d % 256)) (c / 256), Nat.xor_assoc]

/-- Byte-argument difference of one byte step, for bytes below 256. -/
theorem crcByteStep_byte_xor (c b b2 : Nat) (hb : b < 256) (hb2 : b2 < 256) :
    crcByteStep c b2 = crcByteStep c b ^^^ crcTable (b ^^^ b2) := by
  unfold crcByteStep
  have he : b ^^^ b2 < 256 := by
    have h256 : (256 : Nat) = 2 ^ 8 := by norm_num
    rw [h256] at hb hb2 ⊢
    exact Nat.bitwise_lt hb hb2
  have h1 : (c ^^^ b2) % 256 = (c ^^^ b) % 256 ^^^ (b ^^^ b2) := by
    have hx : c ^^^ b2 = (c ^^^ b) ^^^ (b ^^^ b2) := by
      rw [Nat.xor_assoc, ← Nat.xor_assoc b b b2, Nat.xor_self, Nat.zero_xor]
    rw [hx]
    have := xor_mod_two_pow (c ^^^ b) (b ^^^ b2) 8
    norm_num at this
    rw [this, Nat.mod_eq_of_lt he]
  rw [h1, crcTable_linear]
  rw [Nat.xor_assoc, Nat.xor_comm (crcTable (b ^^^ b2)) (c / 256), ← Nat.xor_assoc]

/-- crcDiff keeps the state below 2^32. -/
theorem crcDiff_lt (d : Nat) (h : d < 2 ^ 32) : crcDiff d < 2 ^ 32 := by
  unfold crcDiff
  have h1 : crcTable (d % 256) < 2 ^ 32 := crcIter_lt 8 _ (by
    have := Nat.mod_lt d (show 0 < 256 by norm_num)
    omega)
  have h2 : d / 256 < 2 ^ 32 := by omega
  exact Nat.bitwise_lt h1 h2

theorem xor_disjoint_eq_add {a : Nat} (b : Nat) {k : Nat} (h : a < 2 ^ k) :
    a ^^^ b * 2 ^ k = a + b * 2 ^ k := by
  induction k generalizing a b with
  | zero =>
    interval_cases a
    simp
  | succ k ih =>
    have hpow : (2 : Nat) ^ (k + 1) = 2 ^ k * 2 := pow_succ 2 k
    have hb : b * 2 ^ (k + 1) = Nat.bit false (b * 2 ^ k) := by
      simp only [Nat.bit_val, Bool.toNat_false, Nat.add_zero, hpow]
      ring
    have hdiv : a >>> 1 < 2 ^ k := by
      rw [Nat.shiftRight_one]
      omega
    rw [hb]
    conv_lhs => rw [← Nat.bit_decide_mod_two_eq_one_shiftRight_one a]
    rw [Nat.xor_bit, ih b hdiv]
    simp only [Nat.bit_val, Nat.shiftRight_one, Bool.toNat_false, Nat.add_zero]
    have hdm := Nat.div_add_mod a 2
    cases Nat.mod_two_eq_zero_or_one a with
    | inl h0 =>
      rw [h0]
      norm_num
      omega
    | inr h1 =>
      rw [h1]
      norm_num
      omega

/-- Eight bit steps of a multiple of 256 just shift it down. -/
theorem crcIter_mul_pow (j m : Nat) : crcBitStep^[j] (m * 2 ^ j) = m := by
  induction j generalizing m with
  | zero => simp
  | succ j ih =>
    rw [Function.iterate_succ_apply]
    have hstep : crcBitStep (m * 2 ^ (j + 1)) = m * 2 ^ j := by
      have hmul : m * 2 ^ (j + 1) = m * 2 ^ j * 2 := by ring
      unfold crcBitStep
      rw [hmul, if_neg (by omega)]
      omega
    rw [hstep, ih]

/-- The one-byte difference map agrees with eight bit steps. -/
theorem crcDiff_eq_iter (d : Nat) : crcDiff d = crcBitStep^[8] d := by
  unfold crcDiff crcTable
  have hd : d = d % 256 ^^^ (d / 256) * 2 ^ 8 := by
    rw [xor_disjoint_eq_add (d / 256) (by omega)]
    norm_num
    omega
  conv_rhs => rw [hd]
  rw [crcIter_linear, crcIter_mul_pow 8 (d / 256)]

theorem crcDiff_ne_zero (d : Nat) (h0 : d ≠ 0) (h : d < 2 ^ 32) : crcDiff d ≠ 0 := by
  rw [crcDiff_eq_iter]
  exact crcIter_ne_zero 8 d h0 h

/-- Difference propagation along the crc fold. -/
theorem crcFold_xor (l : List Nat) : ∀ (c d : Nat),
    l.foldl crcByteStep (c ^^^ d) = l.foldl crcByteStep c ^^^ crcDiff^[l.length] d := by
  induction l with
  | nil => intro c d; simp
  | cons b l ih =>
    intro c d
    simp only [List.foldl_cons, List.length_cons]
    rw [crcByteStep_xor, ih, Function.iterate_succ_apply]

theorem crcDiffIter_ne_zero (n d : Nat) (h0 : d ≠ 0) (h : d < 2 ^ 32) :
    crcDiff^[n] d ≠ 0 ∧ crcDiff^[n] d < 2 ^ 32 := by
  induction n generalizing d with
  | zero => exact ⟨by simpa, by simpa⟩
  | succ n ih =>
    rw [Function.iterate_succ_apply]
    exact ih _ (crcDiff_ne_zero d h0 h) (crcDiff_lt d h)

/-- Changing one byte of the input (to a different byte value) always changes
the CRC32: single-byte corruption is detected. -/
theorem crc32_ne_of_byte_change (pre suf : List Nat) (b b2 : Nat)
    (hb : b < 256) (hb2 : b2 < 256) (hne : b ≠ b2) :
    crc32 (pre ++ b :: suf) ≠ crc32 (pre ++ b2 :: suf) := by
  unfold crc32
  rw [List.foldl_append, List.foldl_append]
  simp only [List.foldl_cons]
  set s0 := pre.foldl crcByteStep 0xFFFFFFFF with hs0
  have hbyte : crcByteStep s0 b2 = crcByteStep s0 b ^^^ crcTable (b ^^^ b2) :=
    crcByteStep_byte_xor s0 b b2 hb hb2
  rw [hbyte, crcFold_xor]
  have he0 : b ^^^ b2 ≠ 0 := Nat.xor_ne_zero.mpr hne
  have heb : b ^^^ b2 < 2 ^ 32 := by
    have h256 : (256 : Nat) = 2 ^ 8 := by norm_num
    have : b ^^^ b2 < 256 := by
      rw [h256] at hb hb2 ⊢
      exact Nat.bitwise_lt hb hb2
    omega
  have htb : crcTable (b ^^^ b2) ≠ 0 := crcIter_ne_zero 8 _ he0 heb
  have htlt : crcTable (b ^^^ b2) < 2 ^ 32 := crcIter_lt 8 _ heb
  have hD := crcDiffIter_ne_zero suf.length (crcTable (b ^^^ b2)) htb htlt
  intro hc
  have h1 : suf.foldl crcByteStep (crcByteStep s0 b) =
      suf.foldl crcByteStep (crcByteStep s0 b) ^^^ crcDiff^[suf.length] (crcTable (b ^^^ b2)) :=
    Nat.xor_left_inj.mp hc
  have h2 : (0 : Nat) = crcDiff^[suf.length] (crcTable (b ^^^ b2)) := by
    conv_lhs at h1 => rw [← Nat.xor_zero (suf.foldl crcByteStep (crcByteStep s0 b))]
    exact Nat.xor_right_inj.mp h1
  exact hD.1 h2.symm

theorem JArr.toList_ofArrList (l : List JVal) : (JArr.ofList l).toList = l := by
  induction l with
  | nil => rfl
  | cons h t ih => simp [JArr.ofList, JArr.toList, ih]

theorem JObj.toList_ofObjList (l : List (List Nat × JVal)) : (JObj.ofList l).toList = l := by
  induction l with
  | nil => rfl
  | cons h t ih =>
    obtain ⟨k, v⟩ := h
    simp [JObj.ofList, JObj.toList, ih]

theorem JArr.ofArrList_toList : ∀ (a : JArr), JArr.ofList a.toList = a
  | anil => rfl
  | acons h t => by simp [JArr.toList, JArr.ofList, JArr.ofArrList_toList t]

theorem JObj.ofObjList_toList : ∀ (o : JObj), JObj.ofList o.toList = o
  | onil => rfl
  | ocons k v t => by simp [JObj.toList, JObj.ofList, JObj.ofObjList_toList t]

theorem JObj.keys_toList : ∀ (o : JObj), o.keys = o.toList.map Prod.fst
  | onil => rfl
  | ocons k v t => by simp [JObj.keys, JObj.toList, JObj.keys_toList t]

theorem JObj.append_onil : ∀ (o : JObj), o.append onil = o
  | onil => rfl
  | ocons k v t => by simp [JObj.append, JObj.append_onil t]

theorem JObj.append_keys : ∀ (o1 o2 : JObj), (o1.append o2).keys = o1.keys ++ o2.keys
  | onil, _ => rfl
  | ocons k v t, o2 => by simp [JObj.append, JObj.keys, JObj.append_keys t o2]

theorem JObj.append_assoc_single : ∀ (o : JObj) (k : List Nat) (v : JVal) (t : JObj),
    (o.append (ocons k v onil)).append t = o.append (ocons k v t)
  | onil, _, _, _ => rfl
  | ocons k2 v2 u, k, v, t => by
    simp [JObj.append, JObj.append_assoc_single u k v t]

/-- Assigning a key not yet present appends the binding at the end. -/
theorem JObj.set_fresh : ∀ (o : JObj) (k : List Nat) (v : JVal),
    k ∉ o.keys → o.set k v = o.append (ocons k v onil)
  | onil, _, _, _ => rfl
  | ocons k2 v2 t, k, v, h => by
    rw [JObj.keys] at h
    simp only [List.mem_cons, not_or] at h
    simp [JObj.set, h.1, JObj.append, JObj.set_fresh t k v h.2]

theorem foldl_set_append : ∀ (t : JObj) (o : JObj),
    (o.keys ++ t.keys).Nodup →
    t.toList.foldl (fun o kv => o.set kv.1 kv.2) o = o.append t
  | onil, o, _ => by simp [JObj.toList, JObj.append_onil]
  | ocons k v u, o, h => by
    rw [JObj.toList]
    simp only [List.foldl_cons]
    rw [JObj.keys] at h
    rw [List.nodup_append] at h
    have hk : k ∉ o.keys := fun hmem => h.2.2 hmem (by simp)
    rw [JObj.set_fresh o k v hk]
    have h2 : ((o.append (ocons k v onil)).keys ++ u.keys).Nodup := by
      rw [JObj.append_keys]
      simp only [JObj.keys, List.append_assoc, List.cons_append, List.nil_append]
      rw [List.nodup_append]
      refine ⟨h.1, h.2.1, ?_⟩
      exact h.2.2
    rw [foldl_set_append u (o.append (ocons k v onil)) h2]
    exact JObj.append_assoc_single o k v u

theorem natDigitsF_irrel : ∀ (f1 f2 n : Nat), n ≤ f1 → n ≤ f2 →
    natDigitsF f1 n = natDigitsF f2 n := by
  intro f1
  induction f1 with
  | zero =>
    intro f2 n h1 h2
    have hn : n = 0 := by omega
    subst hn
    match f2 with
    | 0 => rfl
    | f2 + 1 => simp [natDigitsF]
  | succ f1 ih =>
    intro f2 n h1 h2
    match f2 with
    | 0 =>
      have hn : n = 0 := by omega
      subst hn
      simp [natDigitsF]
    | f2 + 1 =>
      simp only [natDigitsF]
      split
      · rfl
      · rename_i hn
        have hd : n / 10 ≤ f1 := by
          have := Nat.div_lt_self (show 0 < n by omega) (show 1 < 10 by norm_num)
          omega
        have hd2 : n / 10 ≤ f2 := by
          have := Nat.div_lt_self (show 0 < n by omega) (show 1 < 10 by norm_num)
          omega
        rw [ih f2 (n / 10) hd hd2]

/-- Unfolding equation of natDigits. -/
theorem natDigits_eq (n : Nat) : natDigits n =
    if n < 10 then [48 + n] else natDigits (n / 10) ++ [48 + n % 10] := by
  unfold natDigits
  match n with
  | 0 => simp [natDigitsF]
  | m + 1 =>
    simp only [natDigitsF]
    split
    · rfl
    · rename_i hn
      have hd : (m + 1) / 10 ≤ m := by
        have := Nat.div_lt_self (show 0 < m + 1 by omega) (show 1 < 10 by norm_num)
        omega
      rw [natDigitsF_irrel m ((m + 1) / 10) ((m + 1) / 10) hd (le_refl _)]

theorem wfJO_nodup : ∀ (o : JObj), wfJO o = true → o.keys.Nodup
  | onil, _ => List.nodup_nil
  | ocons k v t, h => by
    rw [wfJO] at h
    simp only [Bool.and_eq_true, Bool.not_eq_true', decide_eq_false_iff_not] at h
    rw [JObj.keys]
    exact List.nodup_cons.mpr ⟨h.1.1, wfJO_nodup t h.2⟩

/-- Rebuilding an object from its member list by repeated assignment is the
identity on objects with duplicate-free keys. -/
theorem JObj.fromMembers_toList (o : JObj) (h : wfJO o = true) :
    JObj.fromMembers o.toList = o := by
  have hnd : ((JObj.onil).keys ++ o.keys).Nodup := by
    simpa [JObj.keys] using wfJO_nodup o h
  have := foldl_set_append o onil hnd
  simpa [JObj.fromMembers, JObj.append] using this

theorem skipWs_cons_not (c : Nat) (rest : List Nat) (h : isWs c = false) :
    skipWs (c :: rest) = c :: rest := by
  simp [skipWs, List.dropWhile_cons, h]

theorem natDigits_mem (n : Nat) : ∀ d ∈ natDigits n, 48 ≤ d ∧ d ≤ 57 := by
  induction n using Nat.strong_induction_on with
  | _ n ih =>
    rw [natDigits_eq]
    split
    · rename_i hn
      intro d hd
      simp at hd
      omega
    · rename_i hn
      intro d hd
      simp at hd
      rcases hd with h1 | h2
      · exact ih (n / 10) (Nat.div_lt_self (by omega) (by norm_num)) d h1
      · have : n % 10 < 10 := Nat.mod_lt n (by norm_num)
        omega

theorem natDigits_head (n : Nat) : ∃ c cs, natDigits n = c :: cs ∧ 48 ≤ c ∧ c ≤ 57 ∧
    (n ≠ 0 → c ≠ 48) := by
  induction n using Nat.strong_induction_on with
  | _ n ih =>
    rw [natDigits_eq]
    split
    · rename_i hn
      exact ⟨48 + n, [], rfl, by omega, by omega, by omega⟩
    · rename_i hn
      obtain ⟨c, cs, hcs, h1, h2, h3⟩ := ih (n / 10) (Nat.div_lt_self (by omega) (by norm_num))
      refine ⟨c, cs ++ [48 + n % 10], by rw [hcs]; rfl, h1, h2, fun _ => h3 (by omega)⟩

theorem foldl_digits : ∀ (ds : List Nat) (rest : List Nat) (acc : Nat),
    (∀ d ∈ ds, isDigit d = true) →
    (∀ d, rest.head? = some d → isDigit d = false) →
    jpDigits (ds ++ rest) acc = (ds.foldl (fun a d => a * 10 + (d - 48)) acc, rest) := by
  intro ds
  induction ds with
  | nil =>
    intro rest acc _ hrest
    match rest with
    | [] => rfl
    | d :: t =>
      simp only [List.nil_append, jpDigits, List.foldl_nil]
      rw [hrest d rfl]
      simp
  | cons d ds ih =>
    intro rest acc hds hrest
    simp only [List.cons_append, jpDigits, List.foldl_cons]
    rw [hds d (by simp)]
    simp only [if_true]
    exact ih rest (acc * 10 + (d - 48)) (fun x hx => hds x (by simp [hx])) hrest

theorem natDigits_foldl (n : Nat) : ∀ (acc : Nat),
    (natDigits n).foldl (fun a d => a * 10 + (d - 48)) acc =
      acc * 10 ^ (natDigits n).length + n := by
  induction n using Nat.strong_induction_on with
  | _ n ih =>
    intro acc
    rw [natDigits_eq]
    split
    · rename_i hn
      simp only [List.foldl_cons, List.foldl_nil, List.length_singleton]
      omega
    · rename_i hn
      rw [List.foldl_append]
      rw [ih (n / 10) (Nat.div_lt_self (by omega) (by norm_num)) acc]
      simp only [List.foldl_cons, List.foldl_nil, List.length_append, List.length_singleton]
      have h48 : 48 + n % 10 - 48 = n % 10 := by omega
      rw [h48, pow_succ]
      have := Nat.div_add_mod n 10
      set L := (natDigits (n / 10)).length
      ring_nf
      nlinarith [this]

theorem jpNat_natDigits (n : Nat) (rest : List Nat)
    (hrest : ∀ d, rest.head? = some d → isDigit d = false) :
    jpNat (natDigits n ++ rest) = some (n, rest) := by
  rcases Nat.eq_zero_or_pos n with h0 | hpos
  · subst h0
    have h0d : natDigits 0 = [48] := rfl
    rw [h0d]
    match rest with
    | [] => rfl
    | d :: t =>
      have hd := hrest d rfl
      simp [jpNat, hd]
  · obtain ⟨c, cs, hcs, h1, h2, h3⟩ := natDigits_head n
    rw [hcs]
    simp only [List.cons_append, jpNat]
    rw [if_neg (h3 (by omega))]
    rw [if_pos (by simp [isDigit]; omega)]
    have hds : ∀ d ∈ cs, isDigit d = true := by
      intro d hd
      have := natDigits_mem n d (by rw [hcs]; simp [hd])
      simp [isDigit]
      omega
    rw [foldl_digits cs rest (c - 48) hds hrest]
    have hf := natDigits_foldl n 0
    rw [hcs] at hf
    simp only [List.foldl_cons] at hf
    simp only [Nat.zero_mul, Nat.zero_add] at hf
    rw [hf]

theorem intLit_head (n : Int) : ∃ c cs, intLit n = c :: cs ∧
    (c = 45 ∨ (48 ≤ c ∧ c ≤ 57)) := by
  unfold intLit
  split
  · exact ⟨45, natDigits n.natAbs, rfl, Or.inl rfl⟩
  · obtain ⟨c, cs, hcs, h1, h2, _⟩ := natDigits_head n.toNat
    exact ⟨c, cs, by rw [hcs], Or.inr ⟨h1, h2⟩⟩

theorem jpNumber_intLit (n : Int) (rest : List Nat)
    (hrest : ∀ d, rest.head? = some d → isDigit d = false) :
    jpNumber (intLit n ++ rest) = some (n, rest) := by
  unfold intLit
  split
  · rename_i hn
    have hcast : -((n.natAbs : Nat) : Int) = n := by omega
    simp [jpNumber, jpNat_natDigits n.natAbs rest hrest, hcast]
    rw [abs_of_neg hn, neg_neg]
  · rename_i hn
    obtain ⟨c, cs, hcs, h1, h2, _⟩ := natDigits_head n.toNat
    have hcast : ((n.toNat : Nat) : Int) = n := by omega
    rw [hcs]
    simp only [List.cons_append, jpNumber]
    rw [if_neg (by omega)]
    rw [← List.cons_append, ← hcs, jpNat_natDigits n.toNat rest hrest]
    simp [hcast]

theorem jpHex_hexDigit (x : Nat) (h : x < 16) : jpHex (hexDigit x) = some x := by
  unfold hexDigit
  rcases Nat.lt_or_ge x 10 with h10 | h10
  · rw [if_pos h10]
    unfold jpHex
    rw [if_pos (by omega)]
    norm_num
  · rw [if_neg (by omega)]
    unfold jpHex
    rw [if_neg (by omega), if_pos (by omega)]
    norm_num

/-- Parsing the escaped body of a printed string recovers the original bytes. -/
theorem jpStrGo_flat (s : List Nat) : ∀ (acc rest : List Nat),
    jpStrGo (s.flatMap escapeByte ++ 34 :: rest) acc = some (acc.reverse ++ s, rest) := by
  induction s with
  | nil =>
    intro acc rest
    unfold jpStrGo
    norm_num
  | cons c s2 ih =>
    intro acc rest
    have hflat : (c :: s2).flatMap escapeByte = escapeByte c ++ s2.flatMap escapeByte := by
      simp [List.flatMap_cons]
    rw [hflat, List.append_assoc]
    have hrec := ih (c :: acc) rest
    have hrev : (c :: acc).reverse ++ s2 = acc.reverse ++ c :: s2 := by
      simp
    unfold escapeByte
    by_cases h34 : c = 34
    · subst h34
      rw [if_pos rfl]
      show jpStrGo (92 :: 34 :: (s2.flatMap escapeByte ++ 34 :: rest)) acc = _
      unfold jpStrGo
      norm_num [jpSimpleEscape]
      rw [hrec, hrev]
    · rw [if_neg h34]
      by_cases h92 : c = 92
      · subst h92
        rw [if_pos rfl]
        show jpStrGo (92 :: 92 :: (s2.flatMap escapeByte ++ 34 :: rest)) acc = _
        unfold jpStrGo
        norm_num [jpSimpleEscape]
        rw [hrec, hrev]
      · rw [if_neg h92]
        by_cases h8 : c = 8
        · subst h8
          rw [if_pos rfl]
          show jpStrGo (92 :: 98 :: (s2.flatMap escapeByte ++ 34 :: rest)) acc = _
          unfold jpStrGo
          norm_num [jpSimpleEscape]
          rw [hrec, hrev]
        · rw [if_neg h8]
          by_cases h9 : c = 9
          · subst h9
            rw [if_pos rfl]
            show jpStrGo (92 :: 116 :: (s2.flatMap escapeByte ++ 34 :: rest)) acc = _
            unfold jpStrGo
            norm_num [jpSimpleEscape]
            rw [hrec, hrev]
          · rw [if_neg h9]
            by_cases h10 : c = 10
            · subst h10
              rw [if_pos rfl]
              show jpStrGo (92 :: 110 :: (s2.flatMap escapeByte ++ 34 :: rest)) acc = _
              unfold jpStrGo
              norm_num [jpSimpleEscape]
              rw [hrec, hrev]
            · rw [if_neg h10]
              by_cases h12 : c = 12
              · subst h12
                rw [if_pos rfl]
                show jpStrGo (92 :: 102 :: (s2.flatMap escapeByte ++ 34 :: rest)) acc = _
                unfold jpStrGo
                norm_num [jpSimpleEscape]
                rw [hrec, hrev]
              · rw [if_neg h12]
                by_cases h13 : c = 13
                · subst h13
                  rw [if_pos rfl]
                  show jpStrGo (92 :: 114 :: (s2.flatMap escapeByte ++ 34 :: rest)) acc = _
                  unfold jpStrGo
                  norm_num [jpSimpleEscape]
                  rw [hrec, hrev]
                · rw [if_neg h13]
                  by_cases h32 : c < 32
                  · rw [if_pos h32]
                    show jpStrGo (92 :: 117 :: 48 :: 48 :: hexDigit (c / 16) ::
                      hexDigit (c % 16) :: (s2.flatMap escapeByte ++ 34 :: rest)) acc = _
                    unfold jpStrGo
                    norm_num
                    rw [jpHex_hexDigit (c / 16) (by omega : c / 16 < 16),
                      jpHex_hexDigit (c % 16) (by omega : c % 16 < 16)]
                    have hj48 : jpHex 48 = some 0 := by norm_num [jpHex]
                    simp only [hj48]
                    have hce : ((0 * 16 + 0) * 16 + c / 16) * 16 + c % 16 = c := by omega
                    simp only [hce]
                    rw [if_pos (by omega : c < 256)]
                    rw [hrec, hrev]
                  · rw [if_neg h32]
                    show jpStrGo (c :: (s2.flatMap escapeByte ++ 34 :: rest)) acc = _
                    unfold jpStrGo
                    rw [if_neg h34, if_neg h92, if_neg h32]
                    rw [hrec, hrev]

/-- Parsing a printed string literal recovers the string. -/
theorem jpStrGo_strLit (s rest : List Nat) :
    jpStrGo ((strLit s).drop 1 ++ rest) [] = some (s, rest) := by
  unfold strLit
  simp only [List.drop_succ_cons, List.drop_zero, List.append_assoc, List.cons_append,
    List.nil_append]
  have := jpStrGo_flat s [] rest
  simpa using this

theorem take_cons_ne {c d : Nat} (hne : c ≠ d) (l t : List Nat) (n : Nat) :
    ¬((c :: l).take (n + 1) = d :: t) := by
  simp only [List.take_succ_cons, List.cons.injEq, not_and]
  intro h
  exact absurd h hne

/-- Every printed value starts with a byte that is not whitespace and not a
closing delimiter or comma. -/
theorem stringify_head (v : JVal) : ∃ c cs, jsonStringify v = c :: cs ∧
    isWs c = false ∧ c ≠ 93 ∧ c ≠ 125 ∧ c ≠ 44 := by
  cases v with
  | jnull => exact ⟨110, _, rfl, by norm_num [isWs], by omega, by omega, by omega⟩
  | jbool b =>
    cases b with
    | true => exact ⟨116, _, rfl, by norm_num [isWs], by omega, by omega, by omega⟩
    | false => exact ⟨102, _, rfl, by norm_num [isWs], by omega, by omega, by omega⟩
  | jnum n =>
    obtain ⟨c, cs, hcs, hc⟩ := intLit_head n
    refine ⟨c, cs, by simpa [jsonStringify] using hcs, ?_, ?_, ?_, ?_⟩
    · simp only [isWs]
      rcases hc with h | h <;> simp <;> omega
    · rcases hc with h | h <;> omega
    · rcases hc with h | h <;> omega
    · rcases hc with h | h <;> omega
  | jstr s => exact ⟨34, _, rfl, by norm_num [isWs], by omega, by omega, by omega⟩
  | jarr xs => exact ⟨91, _, rfl, by norm_num [isWs], by omega, by omega, by omega⟩
  | jobj kvs => exact ⟨123, _, rfl, by norm_num [isWs], by omega, by omega, by omega⟩

/-- Parsing recovers a printed value (joint statement for values, array
element lists and object member lists, by induction on parser fuel). -/
theorem jp_print : ∀ fuel : Nat,
    (∀ v rest, wfJV v = true → (jsonStringify v).length ≤ fuel →
      (∀ d, rest.head? = some d → isDigit d = false) →
      jpVal fuel (jsonStringify v ++ rest) = some (v, rest)) ∧
    (∀ x t rest, wfJV x = true → wfJA t = true →
      (jsonStringify x).length + (stringifyElemsTail t).length + 1 ≤ fuel →
      jpElems fuel (jsonStringify x ++ (stringifyElemsTail t ++ 93 :: rest)) =
        some (x :: t.toList, rest)) ∧
    (∀ k v t rest, wfJV v = true → wfJO t = true →
      (strLit k).length + 1 + (jsonStringify v).length + (stringifyMembersTail t).length ≤ fuel →
      jpMembers fuel (strLit k ++ 58 :: (jsonStringify v ++ (stringifyMembersTail t ++ 125 :: rest))) =
        some ((k, v) :: t.toList, rest)) := by
  intro fuel
  induction fuel with
  | zero =>
    refine ⟨?_, ?_, ?_⟩
    · intro v rest _ hlen _
      obtain ⟨c, cs, hcs, _⟩ := stringify_head v
      rw [hcs] at hlen
      simp at hlen
    · intro x t rest _ _ hlen
      omega
    · intro k v t rest _ _ hlen
      simp [strLit] at hlen
  | succ f ih =>
    obtain ⟨ihV, ihE, ihM⟩ := ih
    refine ⟨?_, ?_, ?_⟩
    · -- jpVal
      intro v rest hwf hlen hrest
      cases v with
      | jnull =>
        show jpVal (f + 1) (110 :: 117 :: 108 :: 108 :: rest) = some (jnull, rest)
        unfold jpVal
        norm_num [skipWs, List.dropWhile, isWs]
      | jbool b =>
        cases b with
        | true =>
          show jpVal (f + 1) (116 :: 114 :: 117 :: 101 :: rest) = some (jbool true, rest)
          unfold jpVal
          norm_num [skipWs, List.dropWhile, isWs]
        | false =>
          show jpVal (f + 1) (102 :: 97 :: 108 :: 115 :: 101 :: rest) =
            some (jbool false, rest)
          unfold jpVal
          norm_num [skipWs, List.dropWhile, isWs]
      | jnum n =>
        obtain ⟨c, cs, hcs, hc⟩ := intLit_head n
        have hshow : jsonStringify (jnum n) ++ rest = c :: (cs ++ rest) := by
          show intLit n ++ rest = _
          rw [hcs]
          rfl
        rw [hshow]
        unfold jpVal
        have hws : skipWs (c :: (cs ++ rest)) = c :: (cs ++ rest) :=
          skipWs_cons_not _ _ (by simp only [isWs]; rcases hc with h | h <;> simp <;> omega)
        simp only [hws]
        rw [if_neg (take_cons_ne (by omega : c ≠ 110) _ _ 3)]
        rw [if_neg (take_cons_ne (by omega : c ≠ 116) _ _ 3)]
        rw [if_neg (take_cons_ne (by omega : c ≠ 102) _ _ 4)]
        rw [if_neg (by omega : ¬(c = 34)), if_neg (by omega : ¬(c = 91)),
          if_neg (by omega : ¬(c = 123))]
        have hnum : jpNumber (c :: (cs ++ rest)) = some (n, rest) := by
          rw [show c :: (cs ++ rest) = intLit n ++ rest by rw [hcs]; rfl]
          exact jpNumber_intLit n rest hrest
        rw [hnum]
      | jstr s =>
        show jpVal (f + 1) (34 :: ((s.flatMap escapeByte ++ [34]) ++ rest)) =
          some (jstr s, rest)
        unfold jpVal
        have hws : skipWs (34 :: ((s.flatMap escapeByte ++ [34]) ++ rest)) =
            34 :: ((s.flatMap escapeByte ++ [34]) ++ rest) :=
          skipWs_cons_not _ _ (by norm_num [isWs])
        simp only [hws]
        rw [if_neg (take_cons_ne (by omega : (34 : Nat) ≠ 110) _ _ 3)]
        rw [if_neg (take_cons_ne (by omega : (34 : Nat) ≠ 116) _ _ 3)]
        rw [if_neg (take_cons_ne (by omega : (34 : Nat) ≠ 102) _ _ 4)]
        have hflat := jpStrGo_flat s [] rest
        simp only [List.reverse_nil, List.nil_append] at hflat
        simp [hflat]
      | jarr xs =>
        cases xs with
        | anil =>
          show jpVal (f + 1) (91 :: 93 :: rest) = some (jarr anil, rest)
          unfold jpVal
          norm_num [skipWs, List.dropWhile, isWs]
        | acons x t =>
          have hwf2 : wfJV x = true ∧ wfJA t = true := by
            have : wfJA (acons x t) = true := hwf
            rw [wfJA] at this
            simpa using this
          have hshow : jsonStringify (jarr (acons x t)) ++ rest =
              91 :: (jsonStringify x ++ (stringifyElemsTail t ++ 93 :: rest)) := by
            show (91 :: stringifyElems (acons x t) ++ [93]) ++ rest = _
            rw [stringifyElems]
            simp
          rw [hshow]
          obtain ⟨c2, cs2, hcs2, hcws, hc93, _, _⟩ := stringify_head x
          have hlen2 : (jsonStringify x).length + (stringifyElemsTail t).length + 1 ≤ f := by
            have : (jsonStringify (jarr (acons x t))).length =
                (jsonStringify x).length + (stringifyElemsTail t).length + 2 := by
              show (91 :: stringifyElems (acons x t) ++ [93]).length = _
              rw [stringifyElems]
              simp
              omega
            omega
          unfold jpVal
          have hws : skipWs (91 :: (jsonStringify x ++ (stringifyElemsTail t ++ 93 :: rest))) =
              91 :: (jsonStringify x ++ (stringifyElemsTail t ++ 93 :: rest)) :=
            skipWs_cons_not _ _ (by norm_num [isWs])
          simp only [hws]
          rw [if_neg (take_cons_ne (by omega : (91 : Nat) ≠ 110) _ _ 3)]
          rw [if_neg (take_cons_ne (by omega : (91 : Nat) ≠ 116) _ _ 3)]
          rw [if_neg (take_cons_ne (by omega : (91 : Nat) ≠ 102) _ _ 4)]
          rw [if_neg (by omega : ¬((91 : Nat) = 34))]
          simp only [if_true]
          have hbody : jsonStringify x ++ (stringifyElemsTail t ++ 93 :: rest) =
              c2 :: (cs2 ++ (stringifyElemsTail t ++ 93 :: rest)) := by
            rw [hcs2]; rfl
          rw [hbody]
          have hws2 : skipWs (c2 :: (cs2 ++ (stringifyElemsTail t ++ 93 :: rest))) =
              c2 :: (cs2 ++ (stringifyElemsTail t ++ 93 :: rest)) :=
            skipWs_cons_not _ _ hcws
          rw [hws2]
          simp only [hc93, if_false]
          rw [← hbody, ihE x t rest hwf2.1 hwf2.2 hlen2]
          simp [JArr.ofList, JArr.ofArrList_toList]
      | jobj kvs =>
        cases kvs with
        | onil =>
          show jpVal (f + 1) (123 :: 125 :: rest) = some (jobj onil, rest)
          unfold jpVal
          norm_num [skipWs, List.dropWhile, isWs]
        | ocons k v t =>
          have hwfo : wfJO (ocons k v t) = true := hwf
          have hwf2 : wfJV v = true ∧ wfJO t = true := by
            rw [wfJO] at hwfo
            simp only [Bool.and_eq_true] at hwfo
            exact ⟨hwfo.1.2, hwfo.2⟩
          have hshow : jsonStringify (jobj (ocons k v t)) ++ rest =
              123 :: (strLit k ++ 58 ::
                (jsonStringify v ++ (stringifyMembersTail t ++ 125 :: rest))) := by
            show (123 :: stringifyMembers (ocons k v t) ++ [125]) ++ rest = _
            rw [stringifyMembers]
            simp
          rw [hshow]
          have hlen2 : (strLit k).length + 1 + (jsonStringify v).length +
              (stringifyMembersTail t).length ≤ f := by
            have : (jsonStringify (jobj (ocons k v t))).length =
                (strLit k).length + 1 + (jsonStringify v).length +
                  (stringifyMembersTail t).length + 2 := by
              show (123 :: stringifyMembers (ocons k v t) ++ [125]).length = _
              rw [stringifyMembers]
              simp
              omega
            omega
          unfold jpVal
          have hws : skipWs (123 :: (strLit k ++ 58 ::
              (jsonStringify v ++ (stringifyMembersTail t ++ 125 :: rest)))) =
              123 :: (strLit k ++ 58 ::
              (jsonStringify v ++ (stringifyMembersTail t ++ 125 :: rest))) :=
            skipWs_cons_not _ _ (by norm_num [isWs])
          simp only [hws]
          rw [if_neg (take_cons_ne (by omega : (123 : Nat) ≠ 110) _ _ 3)]
          rw [if_neg (take_cons_ne (by omega : (123 : Nat) ≠ 116) _ _ 3)]
          rw [if_neg (take_cons_ne (by omega : (123 : Nat) ≠ 102) _ _ 4)]
          rw [if_neg (by omega : ¬((123 : Nat) = 34)),
            if_neg (by omega : ¬((123 : Nat) = 91))]
          simp only [if_true]
          have hbody : strLit k ++ 58 ::
              (jsonStringify v ++ (stringifyMembersTail t ++ 125 :: rest)) =
              34 :: ((k.flatMap escapeByte ++ [34]) ++ 58 ::
                (jsonStringify v ++ (stringifyMembersTail t ++ 125 :: rest))) := by
            show (34 :: k.flatMap escapeByte ++ [34]) ++ _ = _
            simp
          rw [hbody]
          have hws2 : skipWs (34 :: ((k.flatMap escapeByte ++ [34]) ++ 58 ::
              (jsonStringify v ++ (stringifyMembersTail t ++ 125 :: rest)))) =
              34 :: ((k.flatMap escapeByte ++ [34]) ++ 58 ::
              (jsonStringify v ++ (stringifyMembersTail t ++ 125 :: rest))) :=
            skipWs_cons_not _ _ (by norm_num [isWs])
          rw [hws2]
          simp only [eq_false (by norm_num : ¬((34 : Nat) = 125)), if_false]
          rw [← hbody, ihM k v t rest hwf2.1 hwf2.2 hlen2]
          simp [JObj.fromMembers_toList _ hwfo]
          exact JObj.fromMembers_toList (ocons k v t) hwfo
    · -- jpElems
      intro x t rest hwx hwt hlen
      unfold jpElems
      have hrest2 : ∀ d, (stringifyElemsTail t ++ 93 :: rest).head? = some d →
          isDigit d = false := by
        cases t with
        | anil =>
          intro d hd
          simp [stringifyElemsTail] at hd
          simp [isDigit]
          omega
        | acons y u =>
          intro d hd
          simp [stringifyElemsTail] at hd
          simp [isDigit]
          omega
      rw [ihV x _ hwx (by omega) hrest2]
      cases t with
      | anil =>
        show (match skipWs (stringifyElemsTail anil ++ 93 :: rest) with
          | [] => none
          | c :: r2 =>
            if c = 44 then
              match jpElems f r2 with
              | some (vs, rest) => some (x :: vs, rest)
              | none => none
            else if c = 93 then some ([x], r2)
            else none) = some (x :: JArr.toList anil, rest)
        rw [stringifyElemsTail]
        norm_num [skipWs, List.dropWhile, isWs, JArr.toList]
      | acons y u =>
        have hwf2 : wfJV y = true ∧ wfJA u = true := by
          rw [wfJA] at hwt
          simpa using hwt
        have hbody : stringifyElemsTail (acons y u) ++ 93 :: rest =
            44 :: (jsonStringify y ++ (stringifyElemsTail u ++ 93 :: rest)) := by
          rw [stringifyElemsTail]
          simp
        rw [hbody]
        have hws : skipWs (44 :: (jsonStringify y ++ (stringifyElemsTail u ++ 93 :: rest))) =
            44 :: (jsonStringify y ++ (stringifyElemsTail u ++ 93 :: rest)) :=
          skipWs_cons_not _ _ (by norm_num [isWs])
        simp only [hws]
        have hlen2 : (jsonStringify y).length + (stringifyElemsTail u).length + 1 ≤ f := by
          have : (stringifyElemsTail (acons y u)).length =
              (jsonStringify y).length + (stringifyElemsTail u).length + 1 := by
            rw [stringifyElemsTail]
            simp
          omega
        simp only [if_true]
        rw [ihE y u rest hwf2.1 hwf2.2 hlen2]
        simp [JArr.toList]
    · -- jpMembers
      intro k v t rest hwv hwt hlen
      unfold jpMembers
      have hbody : strLit k ++ 58 ::
          (jsonStringify v ++ (stringifyMembersTail t ++ 125 :: rest)) =
          34 :: (k.flatMap escapeByte ++ 34 :: (58 ::
            (jsonStringify v ++ (stringifyMembersTail t ++ 125 :: rest)))) := by
        show (34 :: k.flatMap escapeByte ++ [34]) ++ _ = _
        simp
      rw [hbody]
      have hws : skipWs (34 :: (k.flatMap escapeByte ++ 34 :: (58 ::
          (jsonStringify v ++ (stringifyMembersTail t ++ 125 :: rest))))) =
          34 :: (k.flatMap escapeByte ++ 34 :: (58 ::
          (jsonStringify v ++ (stringifyMembersTail t ++ 125 :: rest)))) :=
        skipWs_cons_not _ _ (by norm_num [isWs])
      simp only [hws]
      simp only [if_true]
      rw [jpStrGo_flat k []]
      simp only [List.reverse_nil, List.nil_append]
      have hws2 : skipWs (58 ::
          (jsonStringify v ++ (stringifyMembersTail t ++ 125 :: rest))) =
          58 :: (jsonStringify v ++ (stringifyMembersTail t ++ 125 :: rest)) :=
        skipWs_cons_not _ _ (by norm_num [isWs])
      simp only [hws2]
      simp only [if_true]
      have hrest2 : ∀ d, (stringifyMembersTail t ++ 125 :: rest).head? = some d →
          isDigit d = false := by
        cases t with
        | onil =>
          intro d hd
          simp [stringifyMembersTail] at hd
          simp [isDigit]
          omega
        | ocons k2 v2 u =>
          intro d hd
          simp [stringifyMembersTail] at hd
          simp [isDigit]
          omega
      rw [ihV v _ hwv (by omega) hrest2]
      cases t with
      | onil =>
        show (match skipWs (stringifyMembersTail onil ++ 125 :: rest) with
          | [] => none
          | c3 :: r4 =>
            if c3 = 44 then
              match jpMembers f r4 with
              | some (kvs, rest) => some ((k, v) :: kvs, rest)
              | none => none
            else if c3 = 125 then some ([(k, v)], r4)
            else none) = some ((k, v) :: JObj.toList onil, rest)
        rw [stringifyMembersTail]
        norm_num [skipWs, List.dropWhile, isWs, JObj.toList]
      | ocons k2 v2 u =>
        have hwf2 : wfJV v2 = true ∧ wfJO u = true := by
          rw [wfJO] at hwt
          simp only [Bool.and_eq_true] at hwt
          exact ⟨hwt.1.2, hwt.2⟩
        have hbody2 : stringifyMembersTail (ocons k2 v2 u) ++ 125 :: rest =
            44 :: (strLit k2 ++ 58 ::
              (jsonStringify v2 ++ (stringifyMembersTail u ++ 125 :: rest))) := by
          rw [stringifyMembersTail]
          simp
        rw [hbody2]
        have hws3 : skipWs (44 :: (strLit k2 ++ 58 ::
            (jsonStringify v2 ++ (stringifyMembersTail u ++ 125 :: rest)))) =
            44 :: (strLit k2 ++ 58 ::
            (jsonStringify v2 ++ (stringifyMembersTail u ++ 125 :: rest))) :=
          skipWs_cons_not _ _ (by norm_num [isWs])
        simp only [hws3]
        have hlen2 : (strLit k2).length + 1 + (jsonStringify v2).length +
            (stringifyMembersTail u).length ≤ f := by
          have : (stringifyMembersTail (ocons k2 v2 u)).length =
              (strLit k2).length + 1 + (jsonStringify v2).length +
                (stringifyMembersTail u).length + 1 := by
            rw [stringifyMembersTail]
            simp
            omega
          omega
        rw [ihM k2 v2 u rest hwf2.1 hwf2.2 hlen2]
        simp [JObj.toList]

/-- JSON.parse is a left inverse of JSON.stringify on well-formed values
(objects with duplicate-free key lists at every level). -/
theorem jsonParse_print (v : JVal) (h : wfJV v = true) :
    jsonParse (jsonStringify v) = some v := by
  unfold jsonParse
  have hmain := (jp_print ((jsonStringify v).length + 1)).1 v [] h (by omega)
    (by intro d hd; simp at hd)
  rw [List.append_nil] at hmain
  rw [hmain]
  simp [skipWs]

theorem crcByteStep_lt (c b : Nat) (hc : c < 2 ^ 32) : crcByteStep c b < 2 ^ 32 := by
  unfold crcByteStep
  have h1 : crcTable ((c ^^^ b) % 256) < 2 ^ 32 := by
    unfold crcTable
    exact crcIter_lt 8 _ (by have := Nat.mod_lt (c ^^^ b) (y := 256) (by norm_num); omega)
  have h2 : c / 256 < 2 ^ 32 := by omega
  exact Nat.xor_lt_two_pow h1 h2

theorem crc32_lt (data : List Nat) : crc32 data < 2 ^ 32 := by
  unfold crc32
  have h : ∀ l c, c < 2 ^ 32 → List.foldl crcByteStep c l < 2 ^ 32 := by
    intro l
    induction l with
    | nil => intro c hc; simpa using hc
    | cons b t ih =>
      intro c hc
      simpa using ih (crcByteStep c b) (crcByteStep_lt c b hc)
  exact Nat.xor_lt_two_pow (h data 0xFFFFFFFF (by norm_num)) (by norm_num)

theorem readU32At_write (pre : List Nat) (v : Nat) (rest : List Nat) (h : v < 2 ^ 32) :
    readU32At (pre ++ writeU32LE v ++ rest) pre.length = v := by
  unfold readU32At writeU32LE
  rw [List.append_assoc, List.drop_left]
  show v % 256 + v / 256 % 256 * 256 + v / 65536 % 256 * 65536 +
    v / 16777216 % 256 * 16777216 = v
  omega

theorem writeU32LE_length (v : Nat) : (writeU32LE v).length = 4 := rfl

/-- Evaluation of decodeContainer on a well-formed frame with an arbitrary
stored CRC field: every check before the CRC comparison passes, and the
result is decided by comparing the stored and recomputed CRC. -/
theorem decodeContainer_parts (header : JVal) (crcStored : Nat) (body : List Nat)
    (hwf : wfJV header = true)
    (hver : getProp header versionKey = some (jnum 1))
    (hlen : (jsonStringify header).length < 2 ^ 32)
    (hcrc : crcStored < 2 ^ 32) :
    decodeContainer (containerMagic ++ writeU32LE (jsonStringify header).length ++
        jsonStringify header ++ writeU32LE crcStored ++ body) =
      if crcStored ≠ crc32 body then
        .error (.crcMismatch crcStored (crc32 body))
      else .ok (header, body) := by
  set H := jsonStringify header with hH
  set enc := containerMagic ++ writeU32LE H.length ++ H ++ writeU32LE crcStored ++ body
    with hencdef
  have hmag4 : containerMagic.length = 4 := rfl
  have henc : enc = containerMagic ++ (writeU32LE H.length ++
      (H ++ (writeU32LE crcStored ++ body))) := by
    simp [hencdef, List.append_assoc]
  have hlen1 : enc.length = 12 + H.length + body.length := by
    simp [hencdef, writeU32LE, containerMagic]
    omega
  have htake : enc.take 4 = containerMagic := by
    rw [henc, ← hmag4, List.take_left]
  have hr4 : readU32At enc 4 = H.length := by
    have h := readU32At_write containerMagic H.length
      (H ++ (writeU32LE crcStored ++ body)) hlen
    rw [hmag4] at h
    rw [henc]
    simpa [List.append_assoc] using h
  have hdrop8 : enc.drop 8 = H ++ (writeU32LE crcStored ++ body) := by
    have h8 : (containerMagic ++ writeU32LE H.length).length = 8 := by
      simp [containerMagic, writeU32LE]
    rw [henc, ← List.append_assoc, ← h8, List.drop_left]
  have hhdr : (enc.drop 8).take H.length = H := by
    rw [hdrop8, List.take_left]
  have hrcrc : readU32At enc (8 + H.length) = crcStored := by
    have hp : (containerMagic ++ (writeU32LE H.length ++ H)).length = 8 + H.length := by
      simp [containerMagic, writeU32LE]
      omega
    have h := readU32At_write (containerMagic ++ (writeU32LE H.length ++ H))
      crcStored body hcrc
    rw [hp] at h
    rw [henc]
    simpa [List.append_assoc] using h
  have hbody : enc.drop (8 + H.length + 4) = body := by
    have hp : (containerMagic ++ (writeU32LE H.length ++ (H ++ writeU32LE crcStored))).length =
        8 + H.length + 4 := by
      simp [containerMagic, writeU32LE]
      omega
    have hsplit : enc = (containerMagic ++ (writeU32LE H.length ++
        (H ++ writeU32LE crcStored))) ++ body := by
      simp [hencdef, List.append_assoc]
    rw [hsplit, ← hp, List.drop_left]
  unfold decodeContainer
  simp only [hlen1, htake, hr4, hhdr, hrcrc, hbody]
  rw [if_neg (by omega : ¬(12 + H.length + body.length < 12))]
  rw [if_neg (by simp : ¬(containerMagic ≠ containerMagic))]
  rw [if_neg (by omega : ¬¬(8 + H.length + 4 ≤ 12 + H.length + body.length))]
  rw [hH, jsonParse_print header hwf]
  simp [hver]

/-- Decoding an unmodified container succeeds and returns the header and
the body unchanged. -/
theorem decodeContainer_encodeContainer (header : JVal) (body : List Nat)
    (hwf : wfJV header = true)
    (hver : getProp header versionKey = some (jnum 1))
    (hlen : (jsonStringify header).length < 2 ^ 32) :
    decodeContainer (encodeContainer header body) = .ok (header, body) := by
  have h := decodeContainer_parts header (crc32 body) body hwf hver hlen (crc32_lt body)
  rw [if_neg (by simp)] at h
  simpa [encodeContainer] using h

/-- Changing any single body byte of a container (keeping the stored CRC)
makes decodeContainer fail with a CRC mismatch. -/
theorem decodeContainer_detects_change (header : JVal) (pre suf : List Nat)
    (b b2 : Nat)
    (hwf : wfJV header = true)
    (hver : getProp header versionKey = some (jnum 1))
    (hlen : (jsonStringify header).length < 2 ^ 32)
    (hb : b < 256) (hb2 : b2 < 256) (hne : b ≠ b2) :
    decodeContainer (containerMagic ++ writeU32LE (jsonStringify header).length ++
        jsonStringify header ++ writeU32LE (crc32 (pre ++ b :: suf)) ++
        (pre ++ b2 :: suf)) =
      .error (.crcMismatch (crc32 (pre ++ b :: suf)) (crc32 (pre ++ b2 :: suf))) := by
  have h := decodeContainer_parts header (crc32 (pre ++ b :: suf)) (pre ++ b2 :: suf)
    hwf hver hlen (crc32_lt _)
  rw [if_pos (crc32_ne_of_byte_change pre suf b b2 hb hb2 hne)] at h
  exact h

theorem encodeContainer_drop (header : JVal) (body : List Nat) :
    (encodeContainer header body).drop (8 + (jsonStringify header).length + 4) = body := by
  have hp : (containerMagic ++ (writeU32LE (jsonStringify header).length ++
      (jsonStringify header ++ writeU32LE (crc32 body)))).length =
      8 + (jsonStringify header).length + 4 := by
    simp [containerMagic, writeU32LE]
    omega
  have hsplit : encodeContainer header body = (containerMagic ++
      (writeU32LE (jsonStringify header).length ++
      (jsonStringify header ++ writeU32LE (crc32 body)))) ++ body := by
    simp [encodeContainer, List.append_assoc]
  rw [hsplit, ← hp, List.drop_left]

theorem encodeContainer_crcField (header : JVal) (body : List Nat) :
    readU32At (encodeContainer header body) (8 + (jsonStringify header).length) =
      crc32 body := by
  have hp : (containerMagic ++ (writeU32LE (jsonStringify header).length ++
      jsonStringify header)).length = 8 + (jsonStringify header).length := by
    simp [containerMagic, writeU32LE]
    omega
  have h := readU32At_write (containerMagic ++ (writeU32LE (jsonStringify header).length ++
      jsonStringify header)) (crc32 body) body (crc32_lt body)
  rw [hp] at h
  have henc : encodeContainer header body = containerMagic ++
      (writeU32LE (jsonStringify header).length ++ (jsonStringify header ++
      (writeU32LE (crc32 body) ++ body))) := by
    simp [encodeContainer, List.append_assoc]
  rw [henc]
  simpa [List.append_assoc] using h

/-- Varint decode at an arbitrary offset recovers a value below 2^31. -/
theorem decodeVarint_at (pre : List Nat) (w : Int) (rest : List Nat)
    (h0 : 0 ≤ w) (h : w < 2 ^ 31) :
    decodeVarint (pre ++ (encodeVarint w ++ rest)) pre.length =
      (w, pre.length + (encodeVarint w).length) := by
  obtain ⟨v, rfl⟩ := Int.eq_ofNat_of_zero_le h0
  have hv : v < 2 ^ 31 := by exact_mod_cast h
  unfold decodeVarint encodeVarint
  rw [toUint32_cast v (by omega)]
  rw [List.drop_left]
  have := dvGo_leb v 0 0 pre.length rest (by norm_num) (by simpa using hv)
  simpa using this

theorem zigzagEncode_plus_one_pos (n : Int) : 0 ≤ zigzagEncode n + 1 := by
  have := zigzagEncode_nonneg n
  omega

theorem divGo_encode : ∀ (values : List JVal) (pre rest : List Nat),
    (∀ v ∈ values, intCellOk v = true) →
    divGo values.length (pre ++ (values.flatMap (fun v =>
      match v with
      | jnum n => encodeVarint (zigzagEncode n + 1)
      | _ => encodeVarint 0) ++ rest)) pre.length = values := by
  intro values
  induction values with
  | nil => intro pre rest _; rfl
  | cons v t ih =>
    intro pre rest hok
    rw [List.length_cons, List.flatMap_cons]
    cases v with
    | jnum n =>
      have hn : n.natAbs ≤ 2 ^ 30 - 1 := by
        have := hok (jnum n) (by simp)
        simpa [intCellOk] using this
      have h1 : 0 ≤ zigzagEncode n + 1 := zigzagEncode_plus_one_pos n
      have h2 : zigzagEncode n + 1 < 2 ^ 31 := zigzagEncode_lt n hn
      rw [divGo]
      rw [List.append_assoc]
      rw [decodeVarint_at pre (zigzagEncode n + 1) _ h1 h2]
      have hne : ¬(zigzagEncode n + 1 = 0) := by
        have := zigzagEncode_nonneg n
        omega
      simp only [hne, if_false]
      have hsub : zigzagEncode n + 1 - 1 = zigzagEncode n := by omega
      have hdec : zigzagDecode (zigzagEncode n + 1 - 1) = n := by
        rw [hsub]
        exact zigzag_roundtrip n hn
      rw [hdec]
      have hre : pre.length + (encodeVarint (zigzagEncode n + 1)).length =
          (pre ++ encodeVarint (zigzagEncode n + 1)).length := by simp
      rw [hre]
      have := ih (pre ++ encodeVarint (zigzagEncode n + 1)) rest
        (fun w hw => hok w (by simp [hw]))
      simp only [List.append_assoc] at this ⊢
      rw [this]
    | jnull =>
      rw [divGo]
      rw [List.append_assoc]
      rw [decodeVarint_at pre 0 _ (by norm_num) (by norm_num)]
      simp only [if_pos rfl]
      have hre : pre.length + (encodeVarint 0).length =
          (pre ++ encodeVarint 0).length := by simp
      rw [hre]
      have := ih (pre ++ encodeVarint 0) rest
        (fun w hw => hok w (by simp [hw]))
      simp only [List.append_assoc] at this ⊢
      rw [this]
      simp
    | jbool b => exact absurd (hok (jbool b) (by simp)) (by simp [intCellOk])
    | jstr s => exact absurd (hok (jstr s) (by simp)) (by simp [intCellOk])
    | jarr a => exact absurd (hok (jarr a) (by simp)) (by simp [intCellOk])
    | jobj o => exact absurd (hok (jobj o) (by simp)) (by simp [intCellOk])

theorem ddzGo_encode : ∀ (values : List JVal) (i : Nat) (prev : Int) (pre rest : List Nat),
    (∀ v ∈ values, deltaCellOk v = true) →
    prev.natAbs ≤ 2 ^ 29 - 1 →
    ddzGo i values.length (pre ++ (edzGo i prev values ++ rest)) pre.length prev =
      values := by
  intro values
  induction values with
  | nil => intro i prev pre rest _ _; rfl
  | cons v t ih =>
    intro i prev pre rest hok hprev
    rw [List.length_cons]
    cases v with
    | jnum n =>
      have hn : n.natAbs ≤ 2 ^ 29 - 1 := by
        have := hok (jnum n) (by simp)
        simpa [deltaCellOk] using this
      set d : Int := if i = 0 then n else n - prev with hd
      have hdabs : d.natAbs ≤ 2 ^ 30 - 1 := by
        rw [hd]
        split <;> omega
      have h1 : 0 ≤ zigzagEncode d + 1 := zigzagEncode_plus_one_pos d
      have h2 : zigzagEncode d + 1 < 2 ^ 31 := zigzagEncode_lt d hdabs
      rw [edzGo, ddzGo]
      rw [List.append_assoc]
      rw [decodeVarint_at pre (zigzagEncode d + 1) _ h1 h2]
      have hne : ¬(zigzagEncode d + 1 = 0) := by
        have := zigzagEncode_nonneg d
        omega
      simp only [hne, if_false]
      have hsub : zigzagEncode d + 1 - 1 = zigzagEncode d := by omega
      have hdec : zigzagDecode (zigzagEncode d + 1 - 1) = d := by
        rw [hsub]
        exact zigzag_roundtrip d hdabs
      simp only [hdec]
      have hx : (if i = 0 then d else prev + d) = n := by
        rw [hd]
        split
        · rfl
        · ring
      rw [hx]
      have hre : pre.length + (encodeVarint (zigzagEncode d + 1)).length =
          (pre ++ encodeVarint (zigzagEncode d + 1)).length := by simp
      rw [hre]
      have := ih (i + 1) n (pre ++ encodeVarint (zigzagEncode d + 1)) rest
        (fun w hw => hok w (by simp [hw])) (by omega)
      simp only [List.append_assoc] at this ⊢
      rw [this]
    | jnull =>
      rw [edzGo, ddzGo]
      rw [List.append_assoc]
      rw [decodeVarint_at pre 0 _ (by norm_num) (by norm_num)]
      simp only [if_true]
      have hre : pre.length + (encodeVarint 0).length =
          (pre ++ encodeVarint 0).length := by simp
      rw [hre]
      have := ih (i + 1) prev (pre ++ encodeVarint 0) rest
        (fun w hw => hok w (by simp [hw])) hprev
      simp only [List.append_assoc] at this ⊢
      rw [this]
      simp
    | jbool b => exact absurd (hok (jbool b) (by simp)) (by simp [deltaCellOk])
    | jstr s => exact absurd (hok (jstr s) (by simp)) (by simp [deltaCellOk])
    | jarr a => exact absurd (hok (jarr a) (by simp)) (by simp [deltaCellOk])
    | jobj o => exact absurd (hok (jobj o) (by simp)) (by simp [deltaCellOk])

theorem drawGo_encode : ∀ (values : List JVal) (pre rest : List Nat),
    (∀ v ∈ values, wfJV v = true) →
    (∀ v ∈ values, ((jsonStringify v).length : Int) < 2 ^ 31) →
    drawGo values.length (pre ++ (values.flatMap (fun v =>
      encodeVarint ((jsonStringify v).length : Int) ++ jsonStringify v) ++ rest))
      pre.length = .ok values := by
  intro values
  induction values with
  | nil => intro pre rest _ _; rfl
  | cons v t ih =>
    intro pre rest hwf hlen
    have hv : wfJV v = true := hwf v (by simp)
    have hL : ((jsonStringify v).length : Int) < 2 ^ 31 := hlen v (by simp)
    rw [List.length_cons, List.flatMap_cons, drawGo]
    simp only [List.append_assoc]
    rw [decodeVarint_at pre ((jsonStringify v).length : Int) _ (by positivity) hL]
    have hdrop : (pre ++ (encodeVarint ((jsonStringify v).length : Int) ++
        (jsonStringify v ++ ((t.flatMap (fun v =>
          encodeVarint ((jsonStringify v).length : Int) ++ jsonStringify v)) ++ rest)))).drop
        (pre.length + (encodeVarint ((jsonStringify v).length : Int)).length) =
        jsonStringify v ++ ((t.flatMap (fun v =>
          encodeVarint ((jsonStringify v).length : Int) ++ jsonStringify v)) ++ rest) := by
      rw [show pre ++ (encodeVarint ((jsonStringify v).length : Int) ++
        (jsonStringify v ++ ((t.flatMap (fun v =>
          encodeVarint ((jsonStringify v).length : Int) ++ jsonStringify v)) ++ rest))) =
        (pre ++ encodeVarint ((jsonStringify v).length : Int)) ++
        (jsonStringify v ++ ((t.flatMap (fun v =>
          encodeVarint ((jsonStringify v).length : Int) ++ jsonStringify v)) ++ rest))
        by simp]
      rw [show pre.length + (encodeVarint ((jsonStringify v).length : Int)).length =
        (pre ++ encodeVarint ((jsonStringify v).length : Int)).length by simp]
      exact List.drop_left _ _
    rw [hdrop]
    have htake : (jsonStringify v ++ ((t.flatMap (fun v =>
        encodeVarint ((jsonStringify v).length : Int) ++ jsonStringify v)) ++ rest)).take
        (((jsonStringify v).length : Int)).toNat = jsonStringify v := by
      rw [Int.toNat_natCast, List.take_left]
    rw [htake, jsonParse_print v hv]
    have hoff : pre.length + (encodeVarint ((jsonStringify v).length : Int)).length +
        (((jsonStringify v).length : Int)).toNat =
        ((pre ++ encodeVarint ((jsonStringify v).length : Int)) ++ jsonStringify v).length := by
      rw [Int.toNat_natCast]
      simp only [List.length_append]
    rw [hoff]
    have := ih ((pre ++ encodeVarint ((jsonStringify v).length : Int)) ++ jsonStringify v)
      rest (fun w hw => hwf w (by simp [hw])) (fun w hw => hlen w (by simp [hw]))
    simp only [List.append_assoc] at this ⊢
    rw [this]

theorem ebrGo_irrel : ∀ (L f1 f2 : Nat) (values : List JVal),
    values.length ≤ L → values.length ≤ f1 → values.length ≤ f2 →
    ebrGo f1 values = ebrGo f2 values := by
  intro L
  induction L with
  | zero =>
    intro f1 f2 values hL _ _
    have : values = [] := List.eq_nil_of_length_eq_zero (by omega)
    subst this
    cases f1 <;> cases f2 <;> rfl
  | succ L ih =>
    intro f1 f2 values hL h1 h2
    match values, f1, f2 with
    | [], f1, f2 => cases f1 <;> cases f2 <;> rfl
    | v :: t, a + 1, b + 1 =>
      rw [ebrGo, ebrGo]
      have hrun : 1 ≤ 1 + (t.takeWhile (fun x => x = v)).length := by omega
      have hlen : ((v :: t).drop (1 + (t.takeWhile (fun x => x = v)).length)).length ≤
          t.length := by
        simp [List.length_drop]
      have htww : (t.takeWhile (fun x => x = v)).length ≤ t.length :=
        (List.takeWhile_prefix _).length_le
      rw [ih a b _ (by simpa using Nat.le_trans hlen (by simp at hL; omega))
        (by simp at h1 ⊢; omega) (by simp at h2 ⊢; omega)]

theorem takeWhile_eq_replicate (v : JVal) (t : List JVal) :
    t.takeWhile (fun x => x = v) =
      List.replicate (t.takeWhile (fun x => x = v)).length v := by
  rw [List.eq_replicate_iff]
  refine ⟨rfl, ?_⟩
  intro b hb
  have := List.mem_takeWhile_imp hb
  simpa using this

theorem drop_length_takeWhile (l : List JVal) (p : JVal → Bool) :
    l.drop (l.takeWhile p).length = l.dropWhile p := by
  induction l with
  | nil => rfl
  | cons a l ih =>
    by_cases hp : p a
    · simp [List.takeWhile_cons, List.dropWhile_cons, hp, ih]
    · simp [List.takeWhile_cons, List.dropWhile_cons, hp]

theorem run_split (v : JVal) (t : List JVal) :
    v :: t = List.replicate (1 + (t.takeWhile (fun x => x = v)).length) v ++
      (v :: t).drop (1 + (t.takeWhile (fun x => x = v)).length) := by
  have h1 : List.replicate (1 + (t.takeWhile (fun x => x = v)).length) v =
      v :: List.replicate (t.takeWhile (fun x => x = v)).length v := by
    rw [Nat.add_comm, List.replicate_succ]
  rw [h1]
  have h2 : (v :: t).drop (1 + (t.takeWhile (fun x => x = v)).length) =
      t.drop (t.takeWhile (fun x => x = v)).length := by
    rw [Nat.add_comm, List.drop_succ_cons]
  rw [h2]
  simp only [List.cons_append, List.cons.injEq, true_and]
  rw [drop_length_takeWhile t (fun x => decide (x = v))]
  rw [← takeWhile_eq_replicate]
  exact (List.takeWhile_append_dropWhile _ _).symm

theorem boolCode_roundtrip (v : JVal) (h : boolCellOk v = true) :
    (if boolCode v = 0 then jnull else jbool (decide (boolCode v = 2))) = v := by
  cases v with
  | jnull => rfl
  | jbool b => cases b <;> rfl
  | jnum n => simp [boolCellOk] at h
  | jstr s => simp [boolCellOk] at h
  | jarr a => simp [boolCellOk] at h
  | jobj o => simp [boolCellOk] at h

theorem dbr_encode : ∀ (L : Nat) (values : List JVal), values.length ≤ L →
    (∀ v ∈ values, boolCellOk v = true) →
    ((values.length : Int) < 2 ^ 31) →
    ∀ fuelD, (ebrGo values.length values).length ≤ fuelD →
    dbrGo fuelD (ebrGo values.length values) values.length = values := by
  intro L
  induction L with
  | zero =>
    intro values hL _ _ fuelD _
    have hnil : values = [] := List.eq_nil_of_length_eq_zero (by omega)
    subst hnil
    cases fuelD <;> rfl
  | succ L ih =>
    intro values hL hok hrows fuelD hfD
    match values with
    | [] => cases fuelD <;> rfl
    | v :: t =>
      have hlenle : (t.takeWhile (fun x => x = v)).length ≤ t.length :=
        (List.takeWhile_prefix _).length_le
      rw [List.length_cons] at hL hrows hfD ⊢
      rw [ebrGo] at hfD ⊢
      match fuelD, hfD with
      | f + 1, hfD =>
        have h31 : ((1 + (t.takeWhile (fun x => x = v)).length : Nat) : Int) < 2 ^ 31 := by
          have h := hrows
          push_cast at h ⊢
          omega
        have hdv := decodeVarint_at [boolCode v]
          ((1 + (t.takeWhile (fun x => x = v)).length : Nat) : Int)
          (ebrGo t.length ((v :: t).drop (1 + (t.takeWhile (fun x => x = v)).length)))
          (by positivity) h31
        simp only [List.singleton_append, List.length_singleton] at hdv
        rw [dbrGo.eq_def]
        split
        · omega
        · simp_all
        · omega
        rename_i fuel c rest heq1 heq2 hne0
        have hfuel : fuel = f := by omega
        subst hfuel
        injection heq2 with hc hrest
        subst hc
        subst hrest
        simp only [List.append_eq]
        rw [hdv]
        simp only []
        rw [boolCode_roundtrip v (hok v (by simp))]
        have htoNat : (((1 + (t.takeWhile (fun x => x = v)).length : Nat) : Int)).toNat =
            1 + (t.takeWhile (fun x => x = v)).length := Int.toNat_natCast _
        rw [htoNat]
        have hmin : min (1 + (t.takeWhile (fun x => x = v)).length) (t.length + 1) =
            1 + (t.takeWhile (fun x => x = v)).length := by omega
        rw [hmin]
        have hdrop : (boolCode v :: (encodeVarint
            ((1 + (t.takeWhile (fun x => x = v)).length : Nat) : Int) ++
            ebrGo t.length ((v :: t).drop
              (1 + (t.takeWhile (fun x => x = v)).length)))).drop
            (1 + (encodeVarint
              ((1 + (t.takeWhile (fun x => x = v)).length : Nat) : Int)).length) =
            ebrGo t.length ((v :: t).drop
              (1 + (t.takeWhile (fun x => x = v)).length)) := by
          rw [show 1 + (encodeVarint
              ((1 + (t.takeWhile (fun x => x = v)).length : Nat) : Int)).length =
            (encodeVarint
              ((1 + (t.takeWhile (fun x => x = v)).length : Nat) : Int)).length + 1
            by omega]
          rw [List.drop_succ_cons, List.drop_left]
        rw [hdrop]
        have hdlen : ((v :: t).drop (1 + (t.takeWhile (fun x => x = v)).length)).length =
            t.length + 1 - (1 + (t.takeWhile (fun x => x = v)).length) := by
          rw [List.length_drop]
          simp
        have hneed : t.length + 1 - (1 + (t.takeWhile (fun x => x = v)).length) =
            ((v :: t).drop (1 + (t.takeWhile (fun x => x = v)).length)).length := by
          omega
        rw [hneed]
        have hirr : ebrGo t.length ((v :: t).drop
            (1 + (t.takeWhile (fun x => x = v)).length)) =
            ebrGo ((v :: t).drop (1 + (t.takeWhile (fun x => x = v)).length)).length
              ((v :: t).drop (1 + (t.takeWhile (fun x => x = v)).length)) := by
          apply ebrGo_irrel t.length
          · omega
          · omega
          · omega
        rw [hirr]
        rw [ih ((v :: t).drop (1 + (t.takeWhile (fun x => x = v)).length))
          (by omega)
          (fun w hw => hok w (List.mem_of_mem_drop hw))
          (by push_cast at hrows ⊢; omega)
          fuel
          (by
            simp only [List.length_cons, List.length_append] at hfD
            rw [← hirr]
            omega)]
        exact (run_split v t).symm

theorem mem_insertSorted (x s : List Nat) : ∀ (l : List (List Nat)),
    x ∈ insertSorted s l ↔ x = s ∨ x ∈ l
  | [] => by simp [insertSorted]
  | t :: ts => by
    rw [insertSorted]
    split
    · simp [or_comm, or_assoc]
    · rw [List.mem_cons, mem_insertSorted x s ts]
      simp [or_comm, or_assoc]
      tauto

theorem mem_sortStrs (x : List Nat) (l : List (List Nat)) :
    x ∈ sortStrs l ↔ x ∈ l := by
  unfold sortStrs
  induction l with
  | nil => simp
  | cons s t ih =>
    rw [List.foldr_cons, mem_insertSorted, ih, List.mem_cons]

theorem length_insertSorted (s : List Nat) : ∀ (l : List (List Nat)),
    (insertSorted s l).length = l.length + 1
  | [] => rfl
  | t :: ts => by
    rw [insertSorted]
    split
    · simp
    · simp [length_insertSorted s ts]

theorem length_sortStrs (l : List (List Nat)) :
    (sortStrs l).length = l.length := by
  unfold sortStrs
  induction l with
  | nil => rfl
  | cons s t ih => rw [List.foldr_cons, length_insertSorted, ih, List.length_cons]

theorem get?_idxOf : ∀ (l : List (List Nat)) (s : List Nat), s ∈ l →
    l.get? (idxOf s l) = some s
  | [], s, h => by simp at h
  | a :: l, s, h => by
    rw [idxOf]
    by_cases hs : s = a
    · subst hs
      rw [if_pos rfl]
      rfl
    · have hmem : s ∈ l := by
        rcases List.mem_cons.mp h with h1 | h1
        · exact absurd h1 hs
        · exact h1
      rw [if_neg hs]
      simpa using get?_idxOf l s hmem

theorem idxOf_lt_length : ∀ (l : List (List Nat)) (s : List Nat), s ∈ l →
    idxOf s l < l.length
  | [], s, h => by simp at h
  | a :: l, s, h => by
    rw [idxOf]
    by_cases hs : s = a
    · rw [if_pos hs]
      simp
    · have hmem : s ∈ l := by
        rcases List.mem_cons.mp h with h1 | h1
        · exact absurd h1 hs
        · exact h1
      rw [if_neg hs]
      have := idxOf_lt_length l s hmem
      simp
      omega

theorem enumStrsGo_encode : ∀ (uniq : List (List Nat)) (pre tail : List Nat),
    (∀ s ∈ uniq, ((s.length : Nat) : Int) < 2 ^ 31) →
    enumStrsGo uniq.length
      (pre ++ (uniq.flatMap (fun s => encodeVarint ((s.length : Nat) : Int) ++ s) ++ tail))
      pre.length =
      (uniq, pre.length +
        (uniq.flatMap (fun s => encodeVarint ((s.length : Nat) : Int) ++ s)).length) := by
  intro uniq
  induction uniq with
  | nil => intro pre tail _; simp [enumStrsGo]
  | cons s t ih =>
    intro pre tail hlen
    have hL : ((s.length : Nat) : Int) < 2 ^ 31 := hlen s (by simp)
    rw [List.length_cons, List.flatMap_cons, enumStrsGo]
    simp only [List.append_assoc]
    rw [decodeVarint_at pre ((s.length : Nat) : Int) _ (by positivity) hL]
    have hdrop : (pre ++ (encodeVarint ((s.length : Nat) : Int) ++ (s ++
        ((t.flatMap (fun s => encodeVarint ((s.length : Nat) : Int) ++ s)) ++ tail)))).drop
        (pre.length + (encodeVarint ((s.length : Nat) : Int)).length) =
        s ++ ((t.flatMap (fun s => encodeVarint ((s.length : Nat) : Int) ++ s)) ++ tail) := by
      rw [show pre ++ (encodeVarint ((s.length : Nat) : Int) ++ (s ++
          ((t.flatMap (fun s => encodeVarint ((s.length : Nat) : Int) ++ s)) ++ tail))) =
        (pre ++ encodeVarint ((s.length : Nat) : Int)) ++ (s ++
          ((t.flatMap (fun s => encodeVarint ((s.length : Nat) : Int) ++ s)) ++ tail)) by simp]
      rw [show pre.length + (encodeVarint ((s.length : Nat) : Int)).length =
        (pre ++ encodeVarint ((s.length : Nat) : Int)).length by simp]
      exact List.drop_left _ _
    rw [hdrop]
    have htake : (s ++ ((t.flatMap (fun s => encodeVarint ((s.length : Nat) : Int) ++ s)) ++
        tail)).take (((s.length : Nat) : Int)).toNat = s := by
      rw [Int.toNat_natCast, List.take_left]
    rw [htake]
    have hoff : pre.length + (encodeVarint ((s.length : Nat) : Int)).length +
        (((s.length : Nat) : Int)).toNat =
        ((pre ++ encodeVarint ((s.length : Nat) : Int)) ++ s).length := by
      rw [Int.toNat_natCast]
      simp only [List.length_append]
    rw [hoff]
    have := ih ((pre ++ encodeVarint ((s.length : Nat) : Int)) ++ s) tail
      (fun w hw => hlen w (by simp [hw]))
    simp only [List.append_assoc] at this ⊢
    rw [this]
    simp only [Prod.mk.injEq, List.length_append, true_and]
    omega

theorem enum_payload_roundtrip (values : List JVal)
    (hok : ∀ v ∈ values, v = jnull ∨ isEnumStrCell v = true)
    (hcnt : (sortStrs ((nonNullCells values).map (fun v =>
      match v with
      | jstr s => s
      | _ => [])).dedup).length < 255) :
    decodeEnumIdsColumn
      ((sortStrs ((nonNullCells values).map (fun v =>
          match v with
          | jstr s => s
          | _ => [])).dedup).length % 256 ::
        ((sortStrs ((nonNullCells values).map (fun v =>
          match v with
          | jstr s => s
          | _ => [])).dedup).flatMap
            (fun s => encodeVarint ((s.length : Nat) : Int) ++ s) ++
         values.map (enumCellByte (sortStrs ((nonNullCells values).map (fun v =>
          match v with
          | jstr s => s
          | _ => [])).dedup))))
      values.length = values := by
  set uniq := sortStrs ((nonNullCells values).map (fun v =>
    match v with
    | jstr s => s
    | _ => [])).dedup with huniq
  have hmemuniq : ∀ v ∈ values, ∀ s, v = jstr s → s ∈ uniq := by
    intro v hv s hs
    subst hs
    rw [huniq, mem_sortStrs, List.mem_dedup]
    exact List.mem_map.mpr ⟨jstr s, List.mem_filter.mpr ⟨hv, by simp⟩, rfl⟩
  have hslen : ∀ s ∈ uniq, ((s.length : Nat) : Int) < 2 ^ 31 := by
    intro s hs
    rw [huniq, mem_sortStrs, List.mem_dedup] at hs
    obtain ⟨v, hv, hvs⟩ := List.mem_map.mp hs
    have hv2 := List.mem_filter.mp hv
    rcases hok v hv2.1 with h1 | h1
    · subst h1
      simp at hv2
    · cases v with
      | jstr s2 =>
        simp only at hvs
        subst hvs
        simp only [isEnumStrCell, Bool.and_eq_true, decide_eq_true_eq] at h1
        push_cast
        omega
      | jnull => simp [isEnumStrCell] at h1
      | jbool b => simp [isEnumStrCell] at h1
      | jnum n => simp [isEnumStrCell] at h1
      | jarr a => simp [isEnumStrCell] at h1
      | jobj o => simp [isEnumStrCell] at h1
  have hmod : uniq.length % 256 = uniq.length := Nat.mod_eq_of_lt (by omega)
  unfold decodeEnumIdsColumn
  simp only [hmod, List.headD_cons]
  have hstrs := enumStrsGo_encode uniq [uniq.length]
    (values.map (enumCellByte uniq)) hslen
  simp only [List.singleton_append, List.length_singleton] at hstrs
  rw [hstrs]
  simp only []
  apply List.ext_getElem
  · simp
  intro i h1 h2
  simp only [List.getElem_map, List.getElem_range]
  show enumIdAt uniq (uniq.length ::
      (uniq.flatMap (fun s => encodeVarint ((s.length : Nat) : Int) ++ s) ++
        values.map (enumCellByte uniq)))
      (1 + (uniq.flatMap (fun s => encodeVarint ((s.length : Nat) : Int) ++ s)).length + i) =
    values[i]
  have hpre : (uniq.length ::
      (uniq.flatMap (fun s => encodeVarint ((s.length : Nat) : Int) ++ s))).length =
      1 + (uniq.flatMap (fun s => encodeVarint ((s.length : Nat) : Int) ++ s)).length := by
    simp only [List.length_cons]
    omega
  have hget : (uniq.length ::
      (uniq.flatMap (fun s => encodeVarint ((s.length : Nat) : Int) ++ s) ++
        values.map (enumCellByte uniq))).get?
      (1 + (uniq.flatMap (fun s => encodeVarint ((s.length : Nat) : Int) ++ s)).length + i) =
      (values.map (enumCellByte uniq)).get? i := by
    rw [show uniq.length ::
      (uniq.flatMap (fun s => encodeVarint ((s.length : Nat) : Int) ++ s) ++
        values.map (enumCellByte uniq)) =
      (uniq.length :: uniq.flatMap (fun s => encodeVarint ((s.length : Nat) : Int) ++ s)) ++
        values.map (enumCellByte uniq) by simp]
    rw [List.get?_append_right (by omega)]
    rw [hpre]
    congr 1
    omega
  unfold enumIdAt
  rw [hget]
  have hgi : (values.map (enumCellByte uniq)).get? i = some (enumCellByte uniq values[i]) := by
    rw [List.get?_eq_getElem?, List.getElem?_map, List.getElem?_eq_getElem h2]
    rfl
  rw [hgi]
  have hvi : values[i] ∈ values := List.getElem_mem h2
  rcases hok values[i] hvi with hv | hv
  · rw [hv]
    rfl
  · cases hx : values[i] with
    | jstr s =>
      have hsmem : s ∈ uniq := hmemuniq values[i] hvi s hx
      have hidx : idxOf s uniq < uniq.length := idxOf_lt_length uniq s hsmem
      have hsne : s ≠ [] := by
        rw [hx] at hv
        simp [isEnumStrCell] at hv
        intro hnil
        subst hnil
        simp at hv
      show (if enumCellByte uniq (jstr s) = 255 then jnull
        else match uniq.get? (enumCellByte uniq (jstr s)) with
          | none => jnull
          | some s2 => if s2 = [] then jnull else jstr s2) = jstr s
      have hbyte : enumCellByte uniq (jstr s) = idxOf s uniq := by
        show (if s ∈ uniq then idxOf s uniq else 255) = idxOf s uniq
        rw [if_pos hsmem]
      rw [hbyte]
      rw [if_neg (by omega)]
      rw [get?_idxOf uniq s hsmem]
      simp only [if_neg hsne]
    | jnull => rw [hx] at hv; simp [isEnumStrCell] at hv
    | jbool b => rw [hx] at hv; simp [isEnumStrCell] at hv
    | jnum n => rw [hx] at hv; simp [isEnumStrCell] at hv
    | jarr a => rw [hx] at hv; simp [isEnumStrCell] at hv
    | jobj o => rw [hx] at hv; simp [isEnumStrCell] at hv

theorem decodeColumn_int (p : List Nat) (r : Nat) :
    decodeColumn (INT_VARINT :: p) r = .ok (divGo r p 0) := rfl

theorem decodeColumn_delta (p : List Nat) (r : Nat) :
    decodeColumn (DELTA_ZIGZAG :: p) r = .ok (ddzGo 0 r p 0 0) := rfl

theorem decodeColumn_bool (p : List Nat) (r : Nat) :
    decodeColumn (BOOL_RLE :: p) r = .ok (dbrGo p.length p r) := rfl

theorem decodeColumn_enum (p : List Nat) (r : Nat) :
    decodeColumn (ENUM_IDS :: p) r = .ok (decodeEnumIdsColumn p r) := rfl

theorem decodeColumn_raw (p : List Nat) (r : Nat) :
    decodeColumn (RAW_JSON :: p) r = drawGo r p 0 := rfl

/-- C2: amended column round-trip through the full selector. On columns
whose integers stay within `2^29 - 1` in magnitude — not the claimed
signed 53-bit domain, since the delta stream overflows the 32-bit varint
path beyond that (see the counterexample) — whose printed cells stay
below 2^31 bytes, and with fewer than 2^31 rows, decoding the encoded
column with the original row count restores every cell, nulls included,
on every encoder path the selector can take. -/
theorem decodeColumn_encodeColumn (values : List JVal)
    (hwf : ∀ v ∈ values, wfJV v = true)
    (hnum : ∀ v ∈ values, ∀ n, v = jnum n → n.natAbs ≤ 2 ^ 29 - 1)
    (hlen : ∀ v ∈ values, ((jsonStringify v).length : Int) < 2 ^ 31)
    (hrows : ((values.length : Nat) : Int) < 2 ^ 31) :
    decodeColumn (encodeColumn values) values.length = .ok values := by
  have hraw : decodeColumn (encodeRawJsonColumn values) values.length = .ok values := by
    unfold encodeRawJsonColumn
    rw [decodeColumn_raw]
    have := drawGo_encode values [] [] hwf hlen
    simpa using this
  unfold encodeColumn
  simp only []
  by_cases hnil : nonNullCells values = []
  · rw [if_pos hnil]
    exact hraw
  · rw [if_neg hnil]
    by_cases hint : (nonNullCells values).all isIntCell
    · rw [if_pos hint]
      have hcells : ∀ v ∈ values, v = jnull ∨ ∃ n, v = jnum n ∧ n.natAbs ≤ 2 ^ 29 - 1 := by
        intro v hv
        by_cases hz : v = jnull
        · exact Or.inl hz
        · have hmem : v ∈ nonNullCells values := List.mem_filter.mpr ⟨hv, by simpa using hz⟩
          have hic := List.all_eq_true.mp hint v hmem
          cases v with
          | jnum n => exact Or.inr ⟨n, rfl, hnum (jnum n) hv n rfl⟩
          | jnull => simp at hz
          | jbool b => simp [isIntCell] at hic
          | jstr s => simp [isIntCell] at hic
          | jarr a => simp [isIntCell] at hic
          | jobj o => simp [isIntCell] at hic
      split
      · rename_i heq
        rw [List.map_eq_nil_iff] at heq
        exact absurd heq hnil
      · rename_i h t heq
        split
        · unfold encodeDeltaZigzagColumn
          rw [decodeColumn_delta]
          have hd : ∀ v ∈ values, deltaCellOk v = true := by
            intro v hv
            rcases hcells v hv with h1 | ⟨n, h1, h2⟩
            · subst h1; rfl
            · subst h1
              simp [deltaCellOk]
              omega
          have := ddzGo_encode values 0 0 [] [] hd (by simp)
          simpa using this
        · unfold encodeIntVarintColumn
          rw [decodeColumn_int]
          have hd : ∀ v ∈ values, intCellOk v = true := by
            intro v hv
            rcases hcells v hv with h1 | ⟨n, h1, h2⟩
            · subst h1; rfl
            · subst h1
              simp [intCellOk]
              omega
          have := divGo_encode values [] [] hd
          simpa using this
    · rw [if_neg hint]
      by_cases hbool : (nonNullCells values).all isBoolCell
      · rw [if_pos hbool]
        unfold encodeBoolRleColumn
        rw [decodeColumn_bool]
        have hd : ∀ v ∈ values, boolCellOk v = true := by
          intro v hv
          by_cases hz : v = jnull
          · subst hz; rfl
          · have hmem : v ∈ nonNullCells values := List.mem_filter.mpr ⟨hv, by simpa using hz⟩
            have hic := List.all_eq_true.mp hbool v hmem
            cases v with
            | jbool b => rfl
            | jnull => rfl
            | jnum n => simp [isBoolCell] at hic
            | jstr s => simp [isBoolCell] at hic
            | jarr a => simp [isBoolCell] at hic
            | jobj o => simp [isBoolCell] at hic
        rw [dbr_encode values.length values (le_refl _) hd hrows _ (le_refl _)]
      · rw [if_neg hbool]
        by_cases henum : (nonNullCells values).all isEnumStrCell
        · rw [if_pos henum]
          split
          · rename_i hle
            unfold encodeEnumIdsColumn
            simp only [List.cons_append]
            rw [decodeColumn_enum]
            have hok2 : ∀ v ∈ values, v = jnull ∨ isEnumStrCell v = true := by
              intro v hv
              by_cases hz : v = jnull
              · exact Or.inl hz
              · have hmem : v ∈ nonNullCells values :=
                  List.mem_filter.mpr ⟨hv, by simpa using hz⟩
                exact Or.inr (List.all_eq_true.mp henum v hmem)
            have hcnt : (sortStrs ((nonNullCells values).map (fun v =>
                match v with
                | jstr s => s
                | _ => [])).dedup).length < 255 := by
              rw [length_sortStrs]
              omega
            rw [enum_payload_roundtrip values hok2 hcnt]
          · exact hraw
        · rw [if_neg henum]
          exact hraw

theorem splitLines_ne_nil : ∀ (n : Nat) (l acc : List Nat), l.length ≤ n →
    splitLines l acc ≠ [] := by
  intro n
  induction n with
  | zero =>
    intro l acc h
    have hl : l = [] := List.eq_nil_of_length_eq_zero (by omega)
    subst hl
    simp [splitLines]
  | succ n ih =>
    intro l acc h
    rw [splitLines.eq_def]
    split
    · simp
    · simp
    · simp
    · rename_i c rest hne1 hne2
      have hlen : rest.length ≤ n := by
        simp at h
        omega
      exact ih rest (c :: acc) hlen

/-- The decline condition of the columnar front end, exactly: fewer than 3
lines parsing to a non-null JSON value, or raw input below 64 bytes. -/
theorem encodeNDJSONColumnar_declines (input : List Nat) (batchSize : Nat) :
    encodeNDJSONColumnar input batchSize = [] ↔
      ((((splitLines input []).map lineEntry).map Prod.fst).filter
        (fun v => v ≠ jnull)).length < 3 ∨ input.length < 64 := by
  unfold encodeNDJSONColumnar
  rw [if_neg (by
    intro h2
    exact absurd (List.map_eq_nil_iff.mp (List.map_eq_nil_iff.mp h2))
      (splitLines_ne_nil input.length input [] (le_refl _)))]
  by_cases hc : ((((splitLines input []).map lineEntry).map Prod.fst).filter
      (fun v => v ≠ jnull)).length < 3 ∨ input.length < 64
  · rw [if_pos hc]
    exact iff_of_true rfl hc
  · rw [if_neg hc]
    exact iff_of_false (by simp) hc

/-- When the columnar encoder declines, compressNDJSON falls back to the
line-preserving row-wise encoding. -/
theorem compressNDJSON_decline (codec : Codec) (nm : List Nat) (now : Int)
    (input : List Nat) (h : encodeNDJSONColumnar input 4096 = []) :
    compressNDJSON codec nm true now input =
      compressNDJSON codec nm false now input := by
  unfold compressNDJSON
  rw [h]
  simp

/-- When the columnar encoder runs, the line-presence frame comes first. -/
theorem encodeNDJSONColumnar_head (input : List Nat) (batchSize : Nat)
    (h : encodeNDJSONColumnar input batchSize ≠ []) :
    ∃ rest, encodeNDJSONColumnar input batchSize =
      encodeLinePresenceBitmap
        (((splitLines input []).map lineEntry).map Prod.snd) :: rest := by
  unfold encodeNDJSONColumnar at h ⊢
  rw [if_neg (by
    intro h2
    exact absurd (List.map_eq_nil_iff.mp (List.map_eq_nil_iff.mp h2))
      (splitLines_ne_nil input.length input [] (le_refl _)))] at h ⊢
  by_cases hc : ((((splitLines input []).map lineEntry).map Prod.fst).filter
      (fun v => v ≠ jnull)).length < 3 ∨ input.length < 64
  · rw [if_pos hc] at h
    exact absurd rfl h
  · rw [if_neg hc]
    exact ⟨_, rfl⟩

/-- decodeVarint never fails: it always returns a value and an offset that
advanced by at most the remaining bytes. -/
theorem dvGo_bounds : ∀ (l : List Nat) (a : Int) (s p : Nat),
    p ≤ (dvGo l a s p).2 ∧ (dvGo l a s p).2 ≤ p + l.length
  | [], a, s, p => by simp [dvGo]
  | b :: t, a, s, p => by
    rw [dvGo]
    split
    · simp
    · have := dvGo_bounds t (jsOr a (jsShl (Int.ofNat (b &&& 127)) s)) (s + 7) (p + 1)
      simp only [List.length_cons]
      omega

theorem decodeVarint_bounds (data : List Nat) (off : Nat) :
    off ≤ (decodeVarint data off).2 ∧
      (decodeVarint data off).2 ≤ off + (data.drop off).length := by
  unfold decodeVarint
  exact dvGo_bounds _ _ _ _

/-- Out-of-range enum ids (other than the null sentinel 255) decode to a
null substitute, not an error. -/
theorem enumIdAt_oob (strs : List (List Nat)) (data : List Nat) (off id : Nat)
    (hid : data.get? off = some id) (h255 : id ≠ 255)
    (hge : strs.length ≤ id) : enumIdAt strs data off = jnull := by
  unfold enumIdAt
  rw [hid]
  simp only []
  rw [if_neg h255]
  rw [List.get?_eq_getElem?, List.getElem?_eq_none hge]

/-- Column data with an unhandled leading tag decodes to an all-null
column, not an error. -/
theorem decodeColumn_unknown_tag (tag : Nat) (payload : List Nat) (rows : Nat)
    (h0 : tag ≠ 0) (h1 : tag ≠ 1) (h2 : tag ≠ 2) (h3 : tag ≠ 3) (h4 : tag ≠ 4)
    (h6 : tag ≠ 6) :
    decodeColumn (tag :: payload) rows = .ok (List.replicate rows jnull) := by
  unfold decodeColumn
  simp only [INT_VARINT, DELTA_ZIGZAG, TIME_DOD, BOOL_RLE, ENUM_IDS, RAW_JSON]
  rw [if_neg h0, if_neg h1, if_neg h2, if_neg h3, if_neg h4, if_neg h6]

theorem strLe_total : ∀ a b : List Nat, strLe a b = true ∨ strLe b a = true
  | [], _ => Or.inl rfl
  | _ :: _, [] => Or.inr rfl
  | a :: s, b :: t => by
    rw [strLe, strLe]
    by_cases hab : a < b
    · left; rw [if_pos hab]
    · by_cases hba : b < a
      · right; rw [if_pos hba]
      · rw [if_neg hab, if_neg hba, if_neg hba, if_neg hab]
        exact strLe_total s t

theorem strLe_antisymm : ∀ a b : List Nat,
    strLe a b = true → strLe b a = true → a = b
  | [], [], _, _ => rfl
  | [], _ :: _, _, h2 => by simp [strLe] at h2
  | _ :: _, [], h1, _ => by simp [strLe] at h1
  | a :: s, b :: t, h1, h2 => by
    rw [strLe] at h1 h2
    by_cases hab : a < b
    · rw [if_neg (Nat.lt_asymm hab), if_pos hab] at h2
      exact absurd h2 (by simp)
    · by_cases hba : b < a
      · rw [if_neg hab, if_pos hba] at h1
        exact absurd h1 (by simp)
      · rw [if_neg hab, if_neg hba] at h1
        rw [if_neg hba, if_neg hab] at h2
        rw [Nat.le_antisymm (Nat.not_lt.mp hba) (Nat.not_lt.mp hab),
          strLe_antisymm s t h1 h2]

theorem strLe_trans : ∀ a b c : List Nat,
    strLe a b = true → strLe b c = true → strLe a c = true
  | [], _, _, _, _ => rfl
  | _ :: _, [], _, h1, _ => by simp [strLe] at h1
  | _ :: _, _ :: _, [], _, h2 => by simp [strLe] at h2
  | a :: s, b :: t, c :: u, h1, h2 => by
    rw [strLe] at h1 h2 ⊢
    by_cases hab : a < b
    · by_cases hbc : b < c
      · rw [if_pos (Nat.lt_trans hab hbc)]
      · by_cases hcb : c < b
        · rw [if_neg hbc, if_pos hcb] at h2
          exact absurd h2 (by simp)
        · rw [if_pos (Nat.lt_of_lt_of_le hab (Nat.not_lt.mp hcb))]
    · by_cases hba : b < a
      · rw [if_neg hab, if_pos hba] at h1
        exact absurd h1 (by simp)
      · have heq : a = b := Nat.le_antisymm (Nat.not_lt.mp hba) (Nat.not_lt.mp hab)
        subst heq
        rw [if_neg hab, if_neg hba] at h1
        by_cases hbc : a < c
        · rw [if_pos hbc]
        · by_cases hcb : c < a
          · rw [if_neg hbc, if_pos hcb] at h2
            exact absurd h2 (by simp)
          · rw [if_neg hbc, if_neg hcb] at h2 ⊢
            exact strLe_trans s t u h1 h2

theorem insertSorted_perm (s : List Nat) : ∀ l : List (List Nat),
    List.Perm (insertSorted s l) (s :: l)
  | [] => .refl _
  | t :: ts => by
    rw [insertSorted]
    split
    · exact .refl _
    · exact ((insertSorted_perm s ts).cons t).trans (List.Perm.swap s t ts)

theorem sortStrs_perm : ∀ l : List (List Nat), List.Perm (sortStrs l) l
  | [] => .refl _
  | x :: xs => by
    show List.Perm (insertSorted x (sortStrs xs)) (x :: xs)
    exact (insertSorted_perm x (sortStrs xs)).trans ((sortStrs_perm xs).cons x)

theorem insertSorted_sorted (s : List Nat) : ∀ l : List (List Nat),
    l.Pairwise (fun a b => strLe a b = true) →
    (insertSorted s l).Pairwise (fun a b => strLe a b = true)
  | [], _ => by simp [insertSorted]
  | t :: ts, h => by
    rw [insertSorted]
    split
    · rename_i hst
      refine List.Pairwise.cons ?_ h
      intro x hx
      rcases List.mem_cons.mp hx with rfl | hx
      · exact hst
      · exact strLe_trans s t x hst ((List.pairwise_cons.mp h).1 x hx)
    · rename_i hst
      have hts : strLe t s = true := (strLe_total s t).resolve_left hst
      refine List.Pairwise.cons ?_
        (insertSorted_sorted s ts (List.pairwise_cons.mp h).2)
      intro x hx
      rcases List.mem_cons.mp ((insertSorted_perm s ts).mem_iff.mp hx) with rfl | hx2
      · exact hts
      · exact (List.pairwise_cons.mp h).1 x hx2

theorem sortStrs_sorted : ∀ l : List (List Nat),
    (sortStrs l).Pairwise (fun a b => strLe a b = true)
  | [] => .nil
  | x :: xs => by
    show (insertSorted x (sortStrs xs)).Pairwise _
    exact insertSorted_sorted x _ (sortStrs_sorted xs)

theorem sorted_nodup_eq : ∀ l₁ l₂ : List (List Nat),
    l₁.Pairwise (fun a b => strLe a b = true) →
    l₂.Pairwise (fun a b => strLe a b = true) →
    l₁.Nodup → l₂.Nodup → (∀ x, x ∈ l₁ ↔ x ∈ l₂) → l₁ = l₂
  | [], [], _, _, _, _, _ => rfl
  | [], b :: t₂, _, _, _, _, hm =>
    absurd ((hm b).mpr (List.mem_cons_self b t₂)) (List.not_mem_nil b)
  | a :: t₁, [], _, _, _, _, hm =>
    absurd ((hm a).mp (List.mem_cons_self a t₁)) (List.not_mem_nil a)
  | a :: t₁, b :: t₂, hs₁, hs₂, hn₁, hn₂, hm => by
    have hab : a = b := by
      rcases List.mem_cons.mp ((hm a).mp (List.mem_cons_self a t₁)) with h | h
      · exact h
      · rcases List.mem_cons.mp ((hm b).mpr (List.mem_cons_self b t₂)) with h' | h'
        · exact h'.symm
        · exact strLe_antisymm a b ((List.pairwise_cons.mp hs₁).1 b h')
            ((List.pairwise_cons.mp hs₂).1 a h)
    subst hab
    have hm' : ∀ x, x ∈ t₁ ↔ x ∈ t₂ := by
      intro x
      constructor
      · intro hx
        rcases List.mem_cons.mp ((hm x).mp (List.mem_cons_of_mem a hx)) with rfl | h
        · exact absurd hx (List.nodup_cons.mp hn₁).1
        · exact h
      · intro hx
        rcases List.mem_cons.mp ((hm x).mpr (List.mem_cons_of_mem a hx)) with rfl | h
        · exact absurd hx (List.nodup_cons.mp hn₂).1
        · exact h
    rw [sorted_nodup_eq t₁ t₂ (List.pairwise_cons.mp hs₁).2
      (List.pairwise_cons.mp hs₂).2 (List.nodup_cons.mp hn₁).2
      (List.nodup_cons.mp hn₂).2 hm']

theorem sepSplit_eq : ∀ (x x' A A' : List Nat), 1 ∉ x → 1 ∉ x' →
    x ++ 1 :: A = x' ++ 1 :: A' → x = x' ∧ A = A'
  | [], [], A, A', _, _, h => ⟨rfl, by simpa using h⟩
  | [], c' :: t', A, A', _, h2, h => by
    simp only [List.nil_append, List.cons_append, List.cons.injEq] at h
    exact absurd (show (1 : Nat) ∈ c' :: t' by
      rw [h.1]; exact List.mem_cons_self c' t') h2
  | c :: t, [], A, A', h1, _, h => by
    simp only [List.cons_append, List.nil_append, List.cons.injEq] at h
    exact absurd (show (1 : Nat) ∈ c :: t by
      rw [← h.1]; exact List.mem_cons_self c t) h1
  | c :: t, c' :: t', A, A', h1, h2, h => by
    simp only [List.cons_append, List.cons.injEq] at h
    obtain ⟨ht, hA⟩ := sepSplit_eq t t' A A'
      (fun hm => h1 (List.mem_cons_of_mem c hm))
      (fun hm => h2 (List.mem_cons_of_mem c' hm)) h.2
    exact ⟨by rw [h.1, ht], hA⟩

theorem joinSep_one_inj : ∀ (xs ys : List (List Nat)),
    (∀ s ∈ xs, s ≠ [] ∧ (1 : Nat) ∉ s) → (∀ s ∈ ys, s ≠ [] ∧ (1 : Nat) ∉ s) →
    joinSep 1 xs = joinSep 1 ys → xs = ys
  | [], [], _, _, _ => rfl
  | [], [y], _, hy, h => by
    simp only [joinSep] at h
    exact absurd h.symm (hy y (by simp)).1
  | [], y :: z :: ys, _, hy, h => by
    simp only [joinSep] at h
    exact absurd h.symm (by simp)
  | [x], [], hx, _, h => by
    simp only [joinSep] at h
    exact absurd h (hx x (by simp)).1
  | x :: y :: xs, [], hx, _, h => by
    simp only [joinSep] at h
    exact absurd h (by simp)
  | [x], [y], _, _, h => by
    simp only [joinSep] at h
    rw [h]
  | [x], y :: z :: ys, hx, hy, h => by
    simp only [joinSep] at h
    exact absurd (show (1 : Nat) ∈ x by rw [h]; simp) (hx x (by simp)).2
  | x :: y :: xs, [z], hx, hy, h => by
    simp only [joinSep] at h
    exact absurd (show (1 : Nat) ∈ z by rw [← h]; simp) (hy z (by simp)).2
  | x :: x2 :: xs, y :: y2 :: ys, hx, hy, h => by
    simp only [joinSep] at h
    obtain ⟨hxy, hrest⟩ := sepSplit_eq x y _ _ (hx x (by simp)).2 (hy y (by simp)).2 h
    have htail := joinSep_one_inj (x2 :: xs) (y2 :: ys)
      (fun s hs => hx s (List.mem_cons_of_mem x hs))
      (fun s hs => hy s (List.mem_cons_of_mem y hs)) hrest
    rw [hxy, htail]

theorem fingerprint_inj (v w : JVal)
    (hv : ∀ k ∈ jsKeys v, k ≠ [] ∧ (1 : Nat) ∉ k)
    (hw : ∀ k ∈ jsKeys w, k ≠ [] ∧ (1 : Nat) ∉ k)
    (h : computeShapeFingerprint v = computeShapeFingerprint w) :
    sortStrs (jsKeys v) = sortStrs (jsKeys w) :=
  joinSep_one_inj _ _
    (fun s hs => hv s ((mem_sortStrs s _).mp hs))
    (fun s hs => hw s ((mem_sortStrs s _).mp hs)) h

theorem addToGroup_inv (P : List Nat → JVal → Prop) :
    ∀ (gs : List (List Nat × List JVal)) (fp : List Nat) (v : JVal),
    (∀ p ∈ gs, ∀ w ∈ p.2, P p.1 w) → P fp v →
    ∀ p ∈ addToGroup gs fp v, ∀ w ∈ p.2, P p.1 w
  | [], fp, v, _, hv => by
    intro p hp w hw
    simp only [addToGroup, List.mem_singleton] at hp
    subst hp
    simp only [List.mem_singleton] at hw
    subst hw
    exact hv
  | (k, vs) :: rest, fp, v, hgs, hv => by
    intro p hp w hw
    rw [addToGroup] at hp
    by_cases hk : k = fp
    · rw [if_pos hk] at hp
      rcases List.mem_cons.mp hp with rfl | hp2
      · rcases List.mem_append.mp hw with hw1 | hw2
        · exact hgs (k, vs) (by simp) w hw1
        · rw [List.mem_singleton] at hw2
          subst hw2
          rw [show ((k, vs ++ [w]) : List Nat × List JVal).1 = fp from hk]
          exact hv
      · exact hgs _ (List.mem_cons_of_mem _ hp2) w hw
    · rw [if_neg hk] at hp
      rcases List.mem_cons.mp hp with rfl | hp2
      · exact hgs (k, vs) (by simp) w hw
      · exact addToGroup_inv P rest fp v
          (fun q hq => hgs q (List.mem_cons_of_mem _ hq)) hv p hp2 w hw

theorem groupFold_inv (P : List Nat → JVal → Prop) :
    ∀ (objs : List JVal) (gs : List (List Nat × List JVal)),
    (∀ o ∈ objs, P (computeShapeFingerprint o) o) →
    (∀ p ∈ gs, ∀ w ∈ p.2, P p.1 w) →
    ∀ p ∈ objs.foldl (fun gs o => addToGroup gs (computeShapeFingerprint o) o) gs,
      ∀ w ∈ p.2, P p.1 w
  | [], _, _, hgs => hgs
  | o :: os, gs, hobjs, hgs => by
    rw [List.foldl_cons]
    exact groupFold_inv P os _ (fun q hq => hobjs q (List.mem_cons_of_mem o hq))
      (addToGroup_inv P gs _ o hgs (hobjs o (by simp)))

theorem groupByFingerprint_fp (objs : List JVal) :
    ∀ p ∈ groupByFingerprint objs, ∀ w ∈ p.2, computeShapeFingerprint w = p.1 :=
  groupFold_inv (fun fp w => computeShapeFingerprint w = fp) objs []
    (fun _ _ => rfl) (by simp)

theorem groupByFingerprint_mem (objs : List JVal) :
    ∀ p ∈ groupByFingerprint objs, ∀ w ∈ p.2, w ∈ objs :=
  groupFold_inv (fun _ w => w ∈ objs) objs [] (fun o ho => ho) (by simp)

theorem mem_chunksF : ∀ (fuel n : Nat) (l b : List JVal),
    b ∈ chunksF fuel n l → ∀ x ∈ b, x ∈ l
  | fuel, _, [], b, hb => by
    rw [show chunksF fuel _ [] = [] from by cases fuel <;> rfl] at hb
    exact absurd hb (List.not_mem_nil b)
  | 0, n, c :: cs, b, hb => by
    rw [show chunksF 0 n (c :: cs) = [c :: cs] from rfl] at hb
    rw [List.mem_singleton] at hb
    subst hb
    intro x hx
    exact hx
  | fuel + 1, n, c :: cs, b, hb => by
    rw [show chunksF (fuel + 1) n (c :: cs) =
      (c :: cs).take n :: chunksF fuel n ((c :: cs).drop n) from rfl] at hb
    intro x hx
    rcases List.mem_cons.mp hb with rfl | hb2
    · exact List.mem_of_mem_take hx
    · exact List.mem_of_mem_drop (mem_chunksF fuel n ((c :: cs).drop n) b hb2 x hx)

theorem batch_keys_eq (objects : List JVal) (v : JVal) (hv : v ∈ objects)
    (hnd : ∀ w ∈ objects, (jsKeys w).Nodup)
    (hfp : ∀ w ∈ objects, sortStrs (jsKeys w) = sortStrs (jsKeys v)) :
    sortStrs ((objects.flatMap jsKeys).dedup) = sortStrs (jsKeys v) := by
  have hmem : ∀ x, x ∈ (objects.flatMap jsKeys).dedup ↔ x ∈ jsKeys v := by
    intro x
    rw [List.mem_dedup, List.mem_flatMap]
    constructor
    · rintro ⟨w, hw, hx⟩
      have hx2 : x ∈ sortStrs (jsKeys w) := (mem_sortStrs x _).mpr hx
      rw [hfp w hw] at hx2
      exact (mem_sortStrs x _).mp hx2
    · intro hx
      exact ⟨v, hv, hx⟩
  exact sorted_nodup_eq _ _ (sortStrs_sorted _) (sortStrs_sorted _)
    ((sortStrs_perm _).nodup_iff.mpr (List.nodup_dedup _))
    ((sortStrs_perm _).nodup_iff.mpr (hnd v hv))
    (fun x => by rw [mem_sortStrs, mem_sortStrs, hmem x])

/-- C10: amended shape-group key invariant. Restricted to inputs whose
object keys are nonempty and free of the U+0001 fingerprint separator,
every batch cut from a fingerprint group consists of records sharing one
sorted key list, and the frame key list computed by encodeColumnarBatch
(the sorted, deduplicated union of the batch records' keys) equals each
record's own sorted key list. Without the restriction the property fails:
the fingerprint joins the sorted keys with U+0001, so distinct key lists
can produce equal fingerprints and be merged into one frame. -/
theorem shape_frame_keys_invariant (objs : List JVal) (batchSize : Nat)
    (hfree : ∀ v ∈ objs, ∀ k ∈ jsKeys v, k ≠ [] ∧ (1 : Nat) ∉ k)
    (hnd : ∀ v ∈ objs, (jsKeys v).Nodup) :
    ∀ g ∈ groupByFingerprint objs, ∀ batch ∈ chunksF g.2.length batchSize g.2,
      ∀ v ∈ batch,
        sortStrs ((batch.flatMap jsKeys).dedup) = sortStrs (jsKeys v) := by
  intro g hg batch hb v hv
  have hsub : ∀ x ∈ batch, x ∈ g.2 := mem_chunksF _ _ _ _ hb
  have hobj : ∀ x ∈ g.2, x ∈ objs := groupByFingerprint_mem objs g hg
  have hfp : ∀ w ∈ g.2, computeShapeFingerprint w = g.1 :=
    groupByFingerprint_fp objs g hg
  refine batch_keys_eq batch v hv (fun w hw => hnd w (hobj w (hsub w hw))) ?_
  intro w hw
  exact fingerprint_inj w v (hfree w (hobj w (hsub w hw)))
    (hfree v (hobj v (hsub v hv)))
    ((hfp w (hsub w hw)).trans (hfp v (hsub v hv)).symm)

/-- Witness for the C10 theorem at a concrete two-record input. -/
theorem shape_frame_keys_invariant_witness :
    (∀ v ∈ [jobj (ocons [97] (jnum 0) onil), jobj (ocons [97] (jnum 1) onil)],
        ∀ k ∈ jsKeys v, k ≠ [] ∧ (1 : Nat) ∉ k) ∧
    (∀ g ∈ groupByFingerprint
        [jobj (ocons [97] (jnum 0) onil), jobj (ocons [97] (jnum 1) onil)],
      ∀ batch ∈ chunksF g.2.length 4096 g.2, ∀ v ∈ batch,
        sortStrs ((batch.flatMap jsKeys).dedup) = sortStrs (jsKeys v)) :=
  ⟨by decide,
    shape_frame_keys_invariant
      [jobj (ocons [97] (jnum 0) onil), jobj (ocons [97] (jnum 1) onil)] 4096
      (by decide) (by decide)⟩

/-- C10 counterexample: the single key `a<U+0001>b` and the key pair
`a`,`b` yield the same fingerprint, so the two records land in one group
even though their key lists differ. -/
theorem shape_group_merges_distinct_keys :
    ∃ g ∈ groupByFingerprint
        [jobj (ocons [97, 1, 98] (jnum 0) onil),
         jobj (ocons [97] (jnum 0) (ocons [98] (jnum 0) onil))],
      jobj (ocons [97, 1, 98] (jnum 0) onil) ∈ g.2 ∧
      jobj (ocons [97] (jnum 0) (ocons [98] (jnum 0) onil)) ∈ g.2 ∧
      sortStrs (jsKeys (jobj (ocons [97, 1, 98] (jnum 0) onil))) ≠
        sortStrs (jsKeys (jobj (ocons [97] (jnum 0) (ocons [98] (jnum 0) onil)))) := by
  refine ⟨([97, 1, 98],
    [jobj (ocons [97, 1, 98] (jnum 0) onil),
     jobj (ocons [97] (jnum 0) (ocons [98] (jnum 0) onil))]), ?_, ?_, ?_, ?_⟩
  · decide
  · decide
  · decide
  · decide

theorem chunksBytesF_flatten : ∀ (fuel : Nat) (l : List Nat),
    (chunksBytesF fuel l).flatten = l
  | fuel, [] => by
    rw [show chunksBytesF fuel [] = [] from by cases fuel <;> rfl]
    rfl
  | 0, c :: cs => by
    rw [show chunksBytesF 0 (c :: cs) = [c :: cs] from rfl]
    simp
  | fuel + 1, c :: cs => by
    rw [show chunksBytesF (fuel + 1) (c :: cs) =
      (c :: cs).take 65536 :: chunksBytesF fuel ((c :: cs).drop 65536) from rfl]
    rw [List.flatten_cons, chunksBytesF_flatten fuel ((c :: cs).drop 65536)]
    exact List.take_append_drop 65536 (c :: cs)

theorem chunksBytesF_length : ∀ (fuel : Nat) (l : List Nat), l.length ≤ fuel →
    (chunksBytesF fuel l).length ≤ fuel
  | fuel, [], _ => by
    rw [show chunksBytesF fuel [] = [] from by cases fuel <;> rfl]
    simp
  | 0, c :: cs, h => by simp at h
  | fuel + 1, c :: cs, h => by
    rw [show chunksBytesF (fuel + 1) (c :: cs) =
      (c :: cs).take 65536 :: chunksBytesF fuel ((c :: cs).drop 65536) from rfl]
    rw [List.length_cons]
    have := chunksBytesF_length fuel ((c :: cs).drop 65536)
      (by simp only [List.length_drop]; simp at h ⊢; omega)
    omega

theorem getD_append_cons : ∀ (pre : List Nat) (x : Nat) (rest : List Nat),
    (pre ++ x :: rest).getD pre.length 0 = x
  | [], _, _ => rfl
  | c :: p, x, rest => by
    simpa using getD_append_cons p x rest

theorem pickBestGo_mem : ∀ (cands : List (BackendTag × Option (List Nat)))
    (acc : Option (BackendTag × List Nat)) (b : BackendTag × List Nat),
    cands.foldl (fun best c =>
      match c.2 with
      | none => best
      | some e =>
        match best with
        | none => some (c.1, e)
        | some bb => if e.length < bb.2.length then some (c.1, e) else best)
      acc = some b →
    acc = some b ∨ (b.1, some b.2) ∈ cands
  | [], _, _, h => Or.inl h
  | c :: cs, acc, b, h => by
    rw [List.foldl_cons] at h
    rcases pickBestGo_mem cs _ b h with h2 | h2
    · cases hc2 : c.2 with
      | none =>
        rw [hc2] at h2
        exact Or.inl h2
      | some e =>
        rw [hc2] at h2
        cases acc with
        | none =>
          have h2' : some (c.1, e) = some b := h2
          injection h2' with h3
          have hc : ((b.1, some b.2) : BackendTag × Option (List Nat)) = c := by
            rw [← h3]
            exact Prod.ext rfl hc2.symm
          rw [hc]
          exact Or.inr (List.mem_cons_self c cs)
        | some bb =>
          have h2' : (if e.length < bb.2.length then some (c.1, e)
              else some bb) = some b := h2
          split at h2'
          · injection h2' with h3
            have hc : ((b.1, some b.2) : BackendTag × Option (List Nat)) = c := by
              rw [← h3]
              exact Prod.ext rfl hc2.symm
            rw [hc]
            exact Or.inr (List.mem_cons_self c cs)
          · exact Or.inl h2'
    · exact Or.inr (List.mem_cons_of_mem c h2)

theorem pickBest_mem (cands : List (BackendTag × Option (List Nat)))
    (b : BackendTag × List Nat) (h : pickBest cands = some b) :
    (b.1, some b.2) ∈ cands := by
  rcases pickBestGo_mem cands none b h with h2 | h2
  · exact absurd h2 (by simp)
  · exact h2

theorem firstSomeGo_mem : ∀ (cands : List (BackendTag × Option (List Nat)))
    (acc : Option (BackendTag × List Nat)) (b : BackendTag × List Nat),
    cands.foldl (fun best c =>
      match best, c.2 with
      | none, some e => some (c.1, e)
      | _, _ => best) acc = some b →
    acc = some b ∨ (b.1, some b.2) ∈ cands
  | [], _, _, h => Or.inl h
  | c :: cs, acc, b, h => by
    rw [List.foldl_cons] at h
    rcases firstSomeGo_mem cs _ b h with h2 | h2
    · cases acc with
      | some bb => exact Or.inl h2
      | none =>
        cases hc2 : c.2 with
        | none =>
          rw [hc2] at h2
          exact absurd (show (none : Option (BackendTag × List Nat)) =
            some b from h2) (by simp)
        | some e =>
          rw [hc2] at h2
          have h2' : some (c.1, e) = some b := h2
          injection h2' with h3
          have hc : ((b.1, some b.2) : BackendTag × Option (List Nat)) = c := by
            rw [← h3]
            exact Prod.ext rfl hc2.symm
          rw [hc]
          exact Or.inr (List.mem_cons_self c cs)
    · exact Or.inr (List.mem_cons_of_mem c h2)

theorem solidBest_encode (br gz : HCodec) (zs : Option HCodec) (input : List Nat)
    (b : BackendTag × List Nat) (h : solidBest br gz zs input = some b) :
    (tagCodec br gz zs b.1).encode input = some b.2 := by
  cases zs with
  | none =>
    simp only [solidBest] at h
    have hmem : (b.1, some b.2) ∈
        ([(BackendTag.brotli, br.encode input),
          (BackendTag.gzip, gz.encode input)] ++
          ([] : List (BackendTag × Option (List Nat)))) := by
      split at h
      · rcases firstSomeGo_mem _ none b h with h2 | h2
        · exact absurd h2 (by simp)
        · exact h2
      · exact pickBest_mem _ b h
    simp only [List.append_nil, List.mem_cons, List.not_mem_nil, or_false,
      Prod.mk.injEq] at hmem
    rcases hmem with ⟨h1, h2⟩ | ⟨h1, h2⟩
    · rw [h1]
      show br.encode input = some b.2
      exact h2.symm
    · rw [h1]
      show gz.encode input = some b.2
      exact h2.symm
  | some z =>
    simp only [solidBest] at h
    have hmem : (b.1, some b.2) ∈
        ([(BackendTag.brotli, br.encode input),
          (BackendTag.gzip, gz.encode input)] ++
          [(BackendTag.zstd, z.encode input)]) := by
      split at h
      · rcases firstSomeGo_mem _ none b h with h2 | h2
        · exact absurd h2 (by simp)
        · exact h2
      · exact pickBest_mem _ b h
    simp only [List.cons_append, List.nil_append, List.mem_cons,
      List.not_mem_nil, or_false, Prod.mk.injEq] at hmem
    rcases hmem with ⟨h1, h2⟩ | ⟨h1, h2⟩ | ⟨h1, h2⟩
    · rw [h1]
      show br.encode input = some b.2
      exact h2.symm
    · rw [h1]
      show gz.encode input = some b.2
      exact h2.symm
    · rw [h1]
      show z.encode input = some b.2
      exact h2.symm

theorem compressWindows_inv (br gz : HCodec) (zs : Option HCodec) (ze : Bool)
    (Hself : ∀ t c e, (tagCodec br gz zs t).encode c = some e →
      (tagCodec br gz zs t).decode e = some c)
    (Hlen : ∀ t c e, (tagCodec br gz zs t).encode c = some e →
      e.length < 2 ^ 32) :
    ∀ (chunks : List (List Nat)) (ws : List HybridWindow),
    compressWindows br gz zs ze chunks = some ws →
    List.Forall₂ (fun (w : HybridWindow) (c : List Nat) =>
      (tagCodec br gz zs w.tag).decode w.data = some c ∧
        w.data.length < 2 ^ 32) ws chunks
  | [], ws, h => by
    rw [compressWindows] at h
    injection h with h2
    rw [← h2]
    exact List.Forall₂.nil
  | chunk :: rest, ws, h => by
    rw [compressWindows] at h
    cases hE : (tagCodec br gz zs
        (chooseWindowCodec br gz zs ze chunk)).encode chunk with
    | none => rw [hE] at h; exact absurd h (by simp)
    | some data =>
      rw [hE] at h
      cases hR : compressWindows br gz zs ze rest with
      | none => rw [hR] at h; exact absurd h (by simp)
      | some ws' =>
        rw [hR] at h
        injection h with h2
        rw [← h2]
        exact List.Forall₂.cons
          ⟨Hself _ _ _ hE, Hlen _ _ _ hE⟩
          (compressWindows_inv br gz zs ze Hself Hlen rest ws' hR)

theorem decodeWindowsGo_succ (br gz : HCodec) (zs : Option HCodec)
    (n : Nat) (input : List Nat) (off : Nat) :
    decodeWindowsGo br gz zs (n + 1) input off =
      (match (tagCodec br gz zs (if input.getD off 0 = 0 then BackendTag.brotli
          else if input.getD off 0 = 1 then BackendTag.gzip
          else if input.getD off 0 = 2 then BackendTag.zstd
          else BackendTag.brotli)).decode
            ((input.drop (off + 9)).take (readU32At input (off + 5))) with
      | none => none
      | some chunk =>
        match decodeWindowsGo br gz zs n input
            (off + 9 + readU32At input (off + 5)) with
        | none => none
        | some restBytes => some (chunk ++ restBytes)) := rfl

theorem dwGo_serialized (br gz : HCodec) (zs : Option HCodec) :
    ∀ (ws : List HybridWindow) (chunks : List (List Nat)) (pre : List Nat),
    List.Forall₂ (fun (w : HybridWindow) (c : List Nat) =>
      (tagCodec br gz zs w.tag).decode w.data = some c ∧
        w.data.length < 2 ^ 32) ws chunks →
    decodeWindowsGo br gz zs ws.length
      (pre ++ ws.flatMap (fun w => tagByte w.tag ::
        (writeU32LE w.originalSize ++ writeU32LE w.data.length ++ w.data)))
      pre.length = some chunks.flatten
  | [], [], pre, _ => by
    rw [show (([] : List HybridWindow)).length = 0 from rfl, decodeWindowsGo]
    rfl
  | [], _ :: _, _, hf => by cases hf
  | _ :: _, [], _, hf => by cases hf
  | w :: ws, c :: cs, pre, hf => by
    obtain ⟨⟨hdec, hlen⟩, htail⟩ := List.forall₂_cons.mp hf
    rw [List.length_cons]
    rw [show pre ++ (w :: ws).flatMap (fun w => tagByte w.tag ::
        (writeU32LE w.originalSize ++ writeU32LE w.data.length ++ w.data)) =
        pre ++ (tagByte w.tag ::
          (writeU32LE w.originalSize ++ writeU32LE w.data.length ++ w.data)) ++
        ws.flatMap (fun w => tagByte w.tag ::
          (writeU32LE w.originalSize ++ writeU32LE w.data.length ++ w.data))
      from by simp only [List.flatMap_cons, List.cons_append, List.append_assoc]]
    rw [decodeWindowsGo_succ]
    rw [show (pre ++ (tagByte w.tag ::
        (writeU32LE w.originalSize ++ writeU32LE w.data.length ++ w.data)) ++
        ws.flatMap (fun w => tagByte w.tag ::
          (writeU32LE w.originalSize ++ writeU32LE w.data.length ++ w.data))).getD
        pre.length 0 = tagByte w.tag from by
      rw [List.append_assoc]
      exact getD_append_cons pre _ _]
    rw [show (if tagByte w.tag = 0 then BackendTag.brotli
        else if tagByte w.tag = 1 then BackendTag.gzip
        else if tagByte w.tag = 2 then BackendTag.zstd
        else BackendTag.brotli) = w.tag from by cases w.tag <;> rfl]
    rw [show readU32At (pre ++ (tagByte w.tag ::
        (writeU32LE w.originalSize ++ writeU32LE w.data.length ++ w.data)) ++
        ws.flatMap (fun w => tagByte w.tag ::
          (writeU32LE w.originalSize ++ writeU32LE w.data.length ++ w.data)))
        (pre.length + 5) = w.data.length from by
      rw [show pre ++ (tagByte w.tag ::
          (writeU32LE w.originalSize ++ writeU32LE w.data.length ++ w.data)) ++
          ws.flatMap (fun w => tagByte w.tag ::
            (writeU32LE w.originalSize ++ writeU32LE w.data.length ++ w.data)) =
          (pre ++ tagByte w.tag :: writeU32LE w.originalSize) ++
            writeU32LE w.data.length ++
            (w.data ++ ws.flatMap (fun w => tagByte w.tag ::
              (writeU32LE w.originalSize ++ writeU32LE w.data.length ++ w.data)))
        from by simp only [List.cons_append, List.append_assoc]]
      rw [show pre.length + 5 =
          (pre ++ tagByte w.tag :: writeU32LE w.originalSize).length from by
        simp [writeU32LE]]
      exact readU32At_write _ _ _ hlen]
    rw [show ((pre ++ (tagByte w.tag ::
        (writeU32LE w.originalSize ++ writeU32LE w.data.length ++ w.data)) ++
        ws.flatMap (fun w => tagByte w.tag ::
          (writeU32LE w.originalSize ++ writeU32LE w.data.length ++ w.data))).drop
        (pre.length + 9)).take w.data.length = w.data from by
      rw [show pre ++ (tagByte w.tag ::
          (writeU32LE w.originalSize ++ writeU32LE w.data.length ++ w.data)) ++
          ws.flatMap (fun w => tagByte w.tag ::
            (writeU32LE w.originalSize ++ writeU32LE w.data.length ++ w.data)) =
          (pre ++ tagByte w.tag ::
            (writeU32LE w.originalSize ++ writeU32LE w.data.length)) ++
            (w.data ++ ws.flatMap (fun w => tagByte w.tag ::
              (writeU32LE w.originalSize ++ writeU32LE w.data.length ++ w.data)))
        from by simp only [List.cons_append, List.append_assoc]]
      rw [show pre.length + 9 = (pre ++ tagByte w.tag ::
          (writeU32LE w.originalSize ++ writeU32LE w.data.length)).length from by
        simp [writeU32LE]]
      rw [List.drop_left]
      rw [show w.data.length = w.data.length from rfl, List.take_left]]
    rw [hdec]
    show (match decodeWindowsGo br gz zs ws.length
        (pre ++ (tagByte w.tag ::
          (writeU32LE w.originalSize ++ writeU32LE w.data.length ++ w.data)) ++
          ws.flatMap (fun w => tagByte w.tag ::
            (writeU32LE w.originalSize ++ writeU32LE w.data.length ++ w.data)))
        (pre.length + 9 + w.data.length) with
      | none => none
      | some restBytes => some (c ++ restBytes)) = some ((c :: cs).flatten)
    rw [show pre.length + 9 + w.data.length =
        (pre ++ (tagByte w.tag ::
          (writeU32LE w.originalSize ++ writeU32LE w.data.length ++ w.data))).length
      from by simp [writeU32LE]; omega]
    rw [dwGo_serialized br gz zs ws cs _ htail]
    rw [List.flatten_cons]

theorem hybridDecode_raw (br gz : HCodec) (zs : Option HCodec)
    (Hbr : ∀ c e, br.encode c = some e → br.decode e = some c)
    (Hgz : ∀ c e, gz.encode c = some e → gz.decode e = some c)
    (Hzs : ∀ z, zs = some z → ∀ c e, z.encode c = some e → z.decode e = some c)
    (Hg : ∀ c e, gz.encode c = some e → br.decode e = none)
    (Hz : ∀ z, zs = some z → ∀ c e, z.encode c = some e →
      br.decode e = none ∧ gz.decode e = none)
    (t : BackendTag) (input e : List Nat)
    (henc : (tagCodec br gz zs t).encode input = some e)
    (hne : e ≠ []) (hns : e.take 4 ≠ [83, 79, 76, 73])
    (hnh : e.take 4 ≠ [72, 89, 66, 49]) :
    hybridDecode br gz zs e = some input := by
  unfold hybridDecode
  rw [if_neg hne, if_neg hns, if_neg hnh]
  cases t with
  | brotli =>
    rw [show tagCodec br gz zs BackendTag.brotli = br from rfl] at henc
    rw [Hbr _ _ henc]
  | gzip =>
    rw [show tagCodec br gz zs BackendTag.gzip = gz from rfl] at henc
    rw [Hg _ _ henc, Hgz _ _ henc]
  | zstd =>
    cases hz : zs with
    | none =>
      rw [hz] at henc
      rw [show tagCodec br gz none BackendTag.zstd = br from rfl] at henc
      rw [Hbr _ _ henc]
    | some z =>
      rw [hz] at henc
      rw [show tagCodec br gz (some z) BackendTag.zstd = z from rfl] at henc
      obtain ⟨hb, hg2⟩ := Hz z hz _ _ henc
      rw [hb, hg2]
      exact Hzs z hz _ _ henc

theorem hybridDecode_serial (br gz : HCodec) (zs : Option HCodec)
    (ws : List HybridWindow) (chunks : List (List Nat))
    (hforall : List.Forall₂ (fun (w : HybridWindow) (c : List Nat) =>
      (tagCodec br gz zs w.tag).decode w.data = some c ∧
        w.data.length < 2 ^ 32) ws chunks)
    (hcnt : ws.length < 2 ^ 32) :
    hybridDecode br gz zs (serializeWindows ws) = some chunks.flatten := by
  have htake : (serializeWindows ws).take 4 = [72, 89, 66, 49] := rfl
  unfold hybridDecode
  rw [if_neg (show ¬(serializeWindows ws = []) from by
    unfold serializeWindows; simp)]
  rw [if_neg (show ¬((serializeWindows ws).take 4 = [83, 79, 76, 73]) from by
    rw [htake]; decide)]
  rw [if_pos htake]
  rw [show readU32At (serializeWindows ws) 4 = ws.length from by
    rw [show serializeWindows ws = [72, 89, 66, 49] ++ writeU32LE ws.length ++
      ws.flatMap (fun w => tagByte w.tag ::
        (writeU32LE w.originalSize ++ writeU32LE w.data.length ++ w.data))
      from rfl]
    rw [show (4 : Nat) = ([72, 89, 66, 49] : List Nat).length from rfl]
    exact readU32At_write _ _ _ hcnt]
  rw [show serializeWindows ws = ([72, 89, 66, 49] ++ writeU32LE ws.length) ++
    ws.flatMap (fun w => tagByte w.tag ::
      (writeU32LE w.originalSize ++ writeU32LE w.data.length ++ w.data))
    from rfl]
  rw [show (8 : Nat) =
    ([72, 89, 66, 49] ++ writeU32LE ws.length : List Nat).length from by
    simp [writeU32LE]]
  exact dwGo_serialized br gz zs ws chunks _ hforall

/-- C5: hybrid codec round-trip. For back-ends that invert their own
encodings, whose outputs are distinguishable in the fixed brotli, gzip,
zstd try-order, and whose outputs avoid the `SOLI`/`HYB1` magics, every
successful hybridEncode output decodes back to the original input: the
HYB1 windowed envelope is parsed window by window and the decoded chunks
concatenated, and a raw solid payload is recovered by trying each
registered back-end in order and accepting the first success. -/
theorem hybridRoundTrip (br gz : HCodec) (zs : Option HCodec)
    (sc co ze : Bool) (input out : List Nat)
    (Hbr : ∀ c e, br.encode c = some e → br.decode e = some c)
    (Hgz : ∀ c e, gz.encode c = some e → gz.decode e = some c)
    (Hzs : ∀ z, zs = some z → ∀ c e, z.encode c = some e → z.decode e = some c)
    (Hg : ∀ c e, gz.encode c = some e → br.decode e = none)
    (Hz : ∀ z, zs = some z → ∀ c e, z.encode c = some e →
      br.decode e = none ∧ gz.decode e = none)
    (Hshape : ∀ t c e, (tagCodec br gz zs t).encode c = some e →
      e ≠ [] ∧ e.take 4 ≠ [83, 79, 76, 73] ∧ e.take 4 ≠ [72, 89, 66, 49] ∧
        e.length < 2 ^ 32)
    (hin : input.length < 2 ^ 32)
    (henc : hybridEncode br gz zs sc co ze input = some out) :
    hybridDecode br gz zs out = some input := by
  have Hself : ∀ t c e, (tagCodec br gz zs t).encode c = some e →
      (tagCodec br gz zs t).decode e = some c := by
    intro t c e h
    cases t with
    | brotli => exact Hbr c e h
    | gzip => exact Hgz c e h
    | zstd =>
      cases hz : zs with
      | none => rw [hz] at h; exact Hbr c e h
      | some z => rw [hz] at h; exact Hzs z hz c e h
  have Hraw : ∀ t e2, (tagCodec br gz zs t).encode input = some e2 →
      hybridDecode br gz zs e2 = some input := by
    intro t e2 h
    obtain ⟨h1, h2, h3, _⟩ := Hshape t input e2 h
    exact hybridDecode_raw br gz zs Hbr Hgz Hzs Hg Hz t input e2 h h1 h2 h3
  simp only [hybridEncode] at henc
  split at henc
  · exact absurd henc (by simp)
  · rename_i ws hcw
    have hforall := compressWindows_inv br gz zs ze Hself
      (fun t c e h => (Hshape t c e h).2.2.2) _ ws hcw
    have hserial : hybridDecode br gz zs (serializeWindows ws) = some input := by
      have hcnt : ws.length < 2 ^ 32 := by
        have h1 := List.Forall₂.length_eq hforall
        have h2 : (windowChunks input).length ≤ input.length := by
          cases input with
          | nil => exact Nat.le_refl 0
          | cons c cs => exact chunksBytesF_length _ _ (Nat.le_refl _)
        omega
      rw [hybridDecode_serial br gz zs ws (windowChunks input) hforall hcnt,
        show (windowChunks input).flatten = input from
          chunksBytesF_flatten input.length input]
    split at henc
    · rename_i data hco
      injection henc with hout
      rw [← hout]
      split at hco
      · split at hco
        · rename_i tag cnt hmaj
          split at hco
          · cases hE : (tagCodec br gz zs tag).encode input with
            | none => rw [hE] at hco; exact absurd hco (by simp)
            | some d =>
              rw [hE] at hco
              have hco2 : (if d.length + 20 < windowedTotalSize ws then some d
                  else none) = some data := hco
              split at hco2
              · injection hco2 with hd
                rw [← hd]
                exact Hraw tag d hE
              · exact absurd hco2 (by simp)
          · exact absurd hco (by simp)
        · exact absurd hco (by simp)
      · exact absurd hco (by simp)
    · rename_i hco
      split at henc
      · rename_i b heqsb
        split at henc
        · injection henc with hout
          rw [← hout]
          split at heqsb
          · exact Hraw b.1 b.2 (solidBest_encode br gz zs input b heqsb)
          · exact absurd heqsb (by simp)
        · injection henc with hout
          rw [← hout]
          exact hserial
      · injection henc with hout
        rw [← hout]
        exact hserial

theorem brFix_roundtrip : ∀ c e, brFix.encode c = some e →
    brFix.decode e = some c := by
  intro c e h
  simp only [brFix] at h ⊢
  split at h
  · injection h with he
    rw [← he]
  · exact absurd h (by simp)

theorem gzFix_roundtrip : ∀ c e, gzFix.encode c = some e →
    gzFix.decode e = some c := by
  intro c e h
  simp only [gzFix] at h ⊢
  split at h
  · injection h with he
    rw [← he]
  · exact absurd h (by simp)

theorem gzFix_cross : ∀ c e, gzFix.encode c = some e →
    brFix.decode e = none := by
  intro c e h
  simp only [gzFix] at h
  split at h
  · injection h with he
    rw [← he]
    rfl
  · exact absurd h (by simp)

theorem fix_shape : ∀ (t : BackendTag) (c e : List Nat),
    (tagCodec brFix gzFix none t).encode c = some e →
    e ≠ [] ∧ e.take 4 ≠ [83, 79, 76, 73] ∧ e.take 4 ≠ [72, 89, 66, 49] ∧
      e.length < 2 ^ 32 := by
  have hbr : ∀ c e, brFix.encode c = some e →
      e ≠ [] ∧ e.take 4 ≠ [83, 79, 76, 73] ∧ e.take 4 ≠ [72, 89, 66, 49] ∧
        e.length < 2 ^ 32 := by
    intro c e h
    simp only [brFix] at h
    split at h
    · rename_i hc
      injection h with he
      rw [← he]
      refine ⟨by simp, ?_, ?_, ?_⟩
      · intro hq
        have h0 : ((10 : Nat) :: 20 :: c.take 2) = [83, 79, 76, 73] := hq
        injection h0 with ha _
        exact absurd ha (by decide)
      · intro hq
        have h0 : ((10 : Nat) :: 20 :: c.take 2) = [72, 89, 66, 49] := hq
        injection h0 with ha _
        exact absurd ha (by decide)
      · simp only [List.length_cons]
        omega
    · exact absurd h (by simp)
  have hgz : ∀ c e, gzFix.encode c = some e →
      e ≠ [] ∧ e.take 4 ≠ [83, 79, 76, 73] ∧ e.take 4 ≠ [72, 89, 66, 49] ∧
        e.length < 2 ^ 32 := by
    intro c e h
    simp only [gzFix] at h
    split at h
    · rename_i hc
      injection h with he
      rw [← he]
      refine ⟨by simp, ?_, ?_, ?_⟩
      · intro hq
        have h0 : ((30 : Nat) :: 40 :: c.take 2) = [83, 79, 76, 73] := hq
        injection h0 with ha _
        exact absurd ha (by decide)
      · intro hq
        have h0 : ((30 : Nat) :: 40 :: c.take 2) = [72, 89, 66, 49] := hq
        injection h0 with ha _
        exact absurd ha (by decide)
      · simp only [List.length_cons]
        omega
    · exact absurd h (by simp)
  intro t c e h
  cases t with
  | brotli => exact hbr c e h
  | gzip => exact hgz c e h
  | zstd => exact hbr c e h

/-- Witness for the C5 theorem: the stand-in back-ends at a concrete
three-byte input, whose hybrid encoding is the serialized one-window HYB1
envelope, decode back to the input. -/
theorem hybridRoundTrip_witness :
    hybridDecode brFix gzFix none
      [72, 89, 66, 49, 1, 0, 0, 0, 0, 3, 0, 0, 0, 5, 0, 0, 0, 10, 20, 5, 6, 7] =
      some [5, 6, 7] :=
  hybridRoundTrip brFix gzFix none true true false [5, 6, 7] _
    brFix_roundtrip gzFix_roundtrip (fun z hz => absurd hz (by simp))
    gzFix_cross (fun z hz => absurd hz (by simp))
    fix_shape (by decide) (by decide)

/-- C3: the u32 after the container header stores exactly the CRC32 of
the body bytes that follow it; decoding an unmodified container succeeds,
and changing any single body byte (the byte after `pre`, from `b` to
`b2`) makes decodeContainer fail with the hard crcMismatch error. -/
theorem container_crc_claim (header : JVal) (body pre suf : List Nat)
    (b b2 : Nat)
    (hwf : wfJV header = true)
    (hver : getProp header versionKey = some (jnum 1))
    (hlen : (jsonStringify header).length < 2 ^ 32)
    (hb : b < 256) (hb2 : b2 < 256) (hne : b ≠ b2) :
    readU32At (encodeContainer header body) (8 + (jsonStringify header).length) =
      crc32 body ∧
    decodeContainer (encodeContainer header body) = .ok (header, body) ∧
    decodeContainer (containerMagic ++ writeU32LE (jsonStringify header).length ++
        jsonStringify header ++ writeU32LE (crc32 (pre ++ b :: suf)) ++
        (pre ++ b2 :: suf)) =
      .error (.crcMismatch (crc32 (pre ++ b :: suf)) (crc32 (pre ++ b2 :: suf))) :=
  ⟨encodeContainer_crcField header body,
   decodeContainer_encodeContainer header body hwf hver hlen,
   decodeContainer_detects_change header pre suf b b2 hwf hver hlen hb hb2 hne⟩

/-- Witness for the C3 theorem at the pipeline header and a three-byte
body, with the single body byte 1 corrupted to 2. -/
theorem container_crc_claim_witness :
    readU32At (encodeContainer (ndjsonHeader identityName 0) [1, 2, 3])
      (8 + (jsonStringify (ndjsonHeader identityName 0)).length) =
      crc32 [1, 2, 3] ∧
    decodeContainer (encodeContainer (ndjsonHeader identityName 0) [1, 2, 3]) =
      .ok (ndjsonHeader identityName 0, [1, 2, 3]) ∧
    decodeContainer (containerMagic ++
        writeU32LE (jsonStringify (ndjsonHeader identityName 0)).length ++
        jsonStringify (ndjsonHeader identityName 0) ++
        writeU32LE (crc32 ([] ++ 1 :: [])) ++ ([] ++ 2 :: [])) =
      .error (.crcMismatch (crc32 ([] ++ 1 :: [])) (crc32 ([] ++ 2 :: []))) :=
  container_crc_claim (ndjsonHeader identityName 0) [1, 2, 3] [] [] 1 2
    (by decide) (by decide) (by decide) (by decide) (by decide) (by decide)

/-- C7: amended. decodeVarint never raises: on every buffer and offset it
returns a pair whose offset advances by at most the remaining bytes.  (As
written the claim fails: running off the buffer and exceeding five bytes
do not fault, and the value is a signed 32-bit result, not a u32; see the
counterexample.) -/
theorem decodeVarint_total (data : List Nat) (off : Nat) :
    off ≤ (decodeVarint data off).2 ∧
      (decodeVarint data off).2 ≤ off + (data.drop off).length := by
  unfold decodeVarint
  exact dvGo_bounds _ _ _ _

/-- C7 counterexample: a buffer that ends mid-sequence decodes to `(0, 1)`
instead of failing; six continuation bytes decode to `(8, 6)` instead of
failing after five; and the five-byte encoding of 2^31 decodes to the
negative int32 `-2^31`, outside the claimed u32 range. -/
theorem decodeVarint_never_fails :
    decodeVarint [128] 0 = (0, 1) ∧
    decodeVarint [128, 128, 128, 128, 128, 1] 0 = (8, 6) ∧
    decodeVarint (encodeVarint (2 ^ 31)) 0 = (-2147483648, 5) :=
  ⟨rfl, rfl, rfl⟩

/-- C8: amended. An ENUM_IDS id byte at or above the dictionary count
(and ≠ 255) decodes to null, and a column whose leading tag is not one of
the defined tags decodes to an all-null column: both are silent
substitutions, not the fatal errors the claim states. -/
theorem decode_substitutes_nulls :
    (∀ (strs : List (List Nat)) (data : List Nat) (off id : Nat),
      data.get? off = some id → id ≠ 255 → strs.length ≤ id →
      enumIdAt strs data off = jnull) ∧
    (∀ (tag : Nat) (payload : List Nat) (rows : Nat),
      tag ≠ 0 → tag ≠ 1 → tag ≠ 2 → tag ≠ 3 → tag ≠ 4 → tag ≠ 6 →
      decodeColumn (tag :: payload) rows = .ok (List.replicate rows jnull)) :=
  ⟨enumIdAt_oob, decodeColumn_unknown_tag⟩

/-- Witness for the C8 theorem: id 7 against a one-string dictionary, and
the undefined tag 5. -/
theorem decode_substitutes_nulls_witness :
    enumIdAt [[65]] [4, 1, 1, 65, 7] 4 = jnull ∧
    decodeColumn [5] 3 = .ok (List.replicate 3 jnull) :=
  ⟨decode_substitutes_nulls.1 [[65]] [4, 1, 1, 65, 7] 4 7 (by decide)
      (by decide) (by decide),
   decode_substitutes_nulls.2 5 [] 3 (by decide) (by decide) (by decide)
      (by decide) (by decide) (by decide)⟩

/-- C8 counterexample: a full ENUM_IDS column whose only id byte is 7
with a one-entry dictionary decodes to `[null]`, and an unknown tag 5
decodes to an all-null column — no error is surfaced in either case. -/
theorem enum_oob_and_unknown_tag_yield_nulls :
    decodeColumn [4, 1, 1, 65, 7] 1 = .ok [jnull] ∧
    decodeColumn [5] 3 = .ok [jnull, jnull, jnull] :=
  ⟨rfl, rfl⟩

/-- C9: with no codec option and no environment hint the resolved codec —
and so the container header's codec field — is brotli, not the
documented hybrid default. -/
theorem default_codec_not_hybrid :
    resolveCodecName none none = brotliName ∧ brotliName ≠ hybridName := by
  constructor
  · rfl
  · decide

/-- C6: amended. The columnar front-end declines exactly when the input
has fewer than 3 lines that parse as non-null JSON values — not
JSON-object lines, as the claim states: numeric and other scalar lines
count — or the raw input is shorter than 64 bytes; and whenever it
declines, compressNDJSON produces the same container as the row-wise
path. -/
theorem columnar_decline_iff (input : List Nat) (codec : Codec)
    (nm : List Nat) (now : Int) :
    (encodeNDJSONColumnar input 4096 = [] ↔
      ((((splitLines input []).map lineEntry).map Prod.fst).filter
        (fun v => v ≠ jnull)).length < 3 ∨ input.length < 64) ∧
    (encodeNDJSONColumnar input 4096 = [] →
      compressNDJSON codec nm true now input =
        compressNDJSON codec nm false now input) :=
  ⟨encodeNDJSONColumnar_declines input 4096,
   fun h => compressNDJSON_decline codec nm now input h⟩

/-- Witness for the C6 theorem at a two-line numeric input below both
gates. -/
theorem columnar_decline_iff_witness :
    encodeNDJSONColumnar c6small 4096 = [] ∧
    compressNDJSON identityCodec identityName true 0 c6small =
      compressNDJSON identityCodec identityName false 0 c6small := by
  have h := columnar_decline_iff c6small identityCodec identityName 0
  exact ⟨h.1.mpr (by decide), h.2 (h.1.mpr (by decide))⟩

/-- C6 counterexample: eight numeric lines of 71 bytes contain no
JSON-object line at all, yet the columnar path does not decline. -/
theorem columnar_accepts_objectless_input :
    encodeNDJSONColumnar c6num 4096 ≠ [] ∧
    ((splitLines c6num []).map lineEntry).map Prod.fst =
      List.replicate 8 (jnum 11111111) ∧
    c6num.length = 71 := by
  refine ⟨by decide, by decide, rfl⟩

/-- Witness for the C2 theorem: a mixed column of an integer, a null and
a boolean round-trips through encodeColumn/decodeColumn. -/
theorem decodeColumn_encodeColumn_witness :
    decodeColumn (encodeColumn [jnum 7, jnull, jbool true]) 3 =
      .ok [jnum 7, jnull, jbool true] :=
  decodeColumn_encodeColumn [jnum 7, jnull, jbool true] (by decide)
    (by intro v hv n hn
        subst hn
        simp at hv
        subst hv
        decide)
    (by decide) (by decide)

/-- C2 counterexample: 2^30 is representable as a signed 53-bit integer,
yet the delta-zigzag column encoder truncates its zigzag varint to 32
bits and the value decodes to -2^30. -/
theorem int_column_truncates_at_2pow30 :
    decodeColumn (encodeColumn [jnum 1073741824]) 1 =
      .ok [jnum (-1073741824)] ∧
    (1073741824 : Int).natAbs ≤ 2 ^ 53 - 1 :=
  ⟨rfl, by decide⟩

set_option maxRecDepth 4000 in
/-- C4: amended. The five-line example
`{"a":1}\n\n{"b":2}\n   \n{"c":3}` is 28 bytes, so the columnar path
declines and compressNDJSON takes the row-wise path; full decode returns
the five input lines unchanged: position 1 is the empty string and
positions 0, 2, 4 parse to the three objects. Position 3, however, is
returned as the whitespace line `"   "` as-is, not normalised to empty
(see the counterexample). -/
theorem rowwise_roundtrip_claim :
    compressNDJSON identityCodec identityName true 0 c4input =
      some (encodeContainer (ndjsonHeader identityName 0) c4input) ∧
    decompressNDJSON regId
      (encodeContainer (ndjsonHeader identityName 0) c4input) none =
      .ok c4input ∧
    (splitLF c4input []).length = 5 ∧
    (splitLF c4input []).getD 1 [99] = [] ∧
    jsonParse ((splitLF c4input []).getD 0 []) =
      some (jobj (ocons [97] (jnum 1) onil)) ∧
    jsonParse ((splitLF c4input []).getD 2 []) =
      some (jobj (ocons [98] (jnum 2) onil)) ∧
    jsonParse ((splitLF c4input []).getD 4 []) =
      some (jobj (ocons [99] (jnum 3) onil)) := by
  refine ⟨?_, ?_, by decide, by decide, by decide, by decide, by decide⟩
  · unfold compressNDJSON
    rw [if_pos (by decide : encodeNDJSONColumnar c4input 4096 = [])]
    rfl
  · unfold decompressNDJSON
    rw [decodeContainer_encodeContainer _ _ (by decide) (by decide) (by decide)]
    rfl

set_option maxRecDepth 4000 in
/-- C4 counterexample: full decode of the compressed example returns the
input unchanged, so position 3 is the three-space line, not the empty
string the claim requires. -/
theorem rowwise_whitespace_line_preserved :
    decompressNDJSON regId
      (encodeContainer (ndjsonHeader identityName 0) c4input) none =
      .ok c4input ∧
    (splitLF c4input []).getD 3 [] = [32, 32, 32] := by
  refine ⟨?_, by decide⟩
  unfold decompressNDJSON
  rw [decodeContainer_encodeContainer _ _ (by decide) (by decide) (by decide)]
  rfl

set_option maxRecDepth 4000 in
/-- C1: amended. Restricted to an input whose rows all share one shape
fingerprint, selective decode with fields `a` and the unknown `q` emits
exactly as many lines as the input, keeps the blank line empty, projects
every row to the requested keys it supplies, and the unknown key neither
fails nor appears. (For inputs with several shapes the grouping reorders
rows across frames and the claim fails; see the counterexample.) -/
theorem selective_decode_single_shape :
    compressNDJSON identityCodec identityName true 0 c1ok =
      some (encodeContainer (ndjsonHeader identityName 0)
        (joinSep 10 (encodeNDJSONColumnar c1ok 4096))) ∧
    decompressNDJSON regId
      (encodeContainer (ndjsonHeader identityName 0)
        (joinSep 10 (encodeNDJSONColumnar c1ok 4096)))
      (some [[97], [113]]) = .ok c1okOut ∧
    (splitLF c1okOut []).length = (splitLines c1ok []).length ∧
    (splitLF c1okOut []).getD 1 [99] = [] ∧
    jsonParse ((splitLF c1okOut []).getD 0 []) =
      some (jobj (ocons [97] (jnum 1) onil)) ∧
    jsonParse ((splitLF c1okOut []).getD 2 []) =
      some (jobj (ocons [97] (jnum 2) onil)) ∧
    jsonParse ((splitLF c1okOut []).getD 3 []) =
      some (jobj (ocons [97] (jnum 3) onil)) := by
  refine ⟨?_, ?_, by decide, by decide, by decide, by decide, by decide⟩
  · unfold compressNDJSON
    rw [if_neg (by decide : ¬(encodeNDJSONColumnar c1ok 4096 = []))]
    rfl
  · unfold decompressNDJSON
    rw [decodeContainer_encodeContainer _ _ (by decide) (by decide) (by decide)]
    rfl

set_option maxRecDepth 4000 in
/-- C1 counterexample: in the mixed-shape input, row 1 supplies `b = 2`,
but selective decode with fields `b` emits `{}` at line 1 (the row's
value surfaces at line 2 instead): grouping by shape reorders rows, so a
row line does not hold the requested keys that row supplied. -/
theorem selective_decode_misplaces_row :
    compressNDJSON identityCodec identityName true 0 c1bad =
      some (encodeContainer (ndjsonHeader identityName 0)
        (joinSep 10 (encodeNDJSONColumnar c1bad 4096))) ∧
    decompressNDJSON regId
      (encodeContainer (ndjsonHeader identityName 0)
        (joinSep 10 (encodeNDJSONColumnar c1bad 4096)))
      (some [[98]]) = .ok c1badOut ∧
    lineEntry ((splitLines c1bad []).getD 1 []) =
      (jobj (ocons [98] (jnum 2) onil), true) ∧
    (splitLF c1badOut []).getD 1 [99] = [123, 125] := by
  refine ⟨?_, ?_, by decide, by decide⟩
  · unfold compressNDJSON
    rw [if_neg (by decide : ¬(encodeNDJSONColumnar c1bad 4096 = []))]
    rfl
  · unfold decompressNDJSON
    rw [decodeContainer_encodeContainer _ _ (by decide) (by decide) (by decide)]
    rfl

end JUC
